import Mathlib

/-!
Verification of the scanic `wasm_blur` edge-detection pipeline.

This development shallowly embeds the Rust sources of the pipeline
(`gaussian_blur.rs`, `non_maximum_suppression.rs`, `hysteresis.rs`,
`dilation.rs`, `canny.rs`) into Lean and proves properties of the
embedding.

Embedding conventions:
* Rasters (`&[u8]`, `&[u32]`) are `List ℕ`; signed gradients (`&[i16]`)
  are `List ℤ`; 32-bit float magnitude fields are embedded as exact
  values: `ℝ` where the source computes square roots, and an arbitrary
  linearly ordered type where the source only compares values (every
  `f32` value is in particular a real number, and hysteresis only
  compares magnitudes against thresholds).
* Machine-integer casts are explicit: `as u32` is `% 2^32`, `as u64` is
  `% 2^64`; the target is `wasm32`, so `usize`/`isize` are 32 bits wide
  and the casts `as isize` / `as usize` are `toIsize` / `toUsize` below.
  Wrapping addition/multiplication chains followed by one final cast are
  folded into an exact accumulation followed by one `%`, which is the
  same function.
* Rust loops that write each buffer index at most once are embedded as a
  left fold of `List.set` writes (`writeAll`) over the source's
  iteration order; indexing reads are `List.getD` (all reads proven or
  assumed in bounds match the source's panicking index operator).
* Functions that can panic are embedded in `Option`, with `none` exactly
  at the panic conditions of the source.
* SIMD blocks (`u32x4` etc.) compute the same per-lane arithmetic as the
  scalar remainder loops next to them; the embedding uses the scalar
  per-pixel arithmetic, with the source's chunked iteration orders kept
  where they affect evaluation order (`chunkedRange`).
-/

namespace Scanic

/-- Apply a list of `(index, value)` writes to a buffer, left to right. -/
def writeAll {α : Type} (init : List α) (ws : List (ℕ × α)) : List α :=
  ws.foldl (fun b p => b.set p.1 p.2) init

/-- Row-major enumeration of all pixel indices of a `w × h` raster. -/
def idxList (w h : ℕ) : List ℕ :=
  (List.range h).flatMap (fun y => (List.range w).map (fun x => y * w + x))

/-- Chunked enumeration of `0, …, n-1`: full chunks of `c` followed by the
remainder, as in the source's manually unrolled loops. -/
def chunkedRange (n c : ℕ) : List ℕ :=
  ((List.range (n / c)).flatMap (fun ci => (List.range c).map (fun i => ci * c + i))) ++
    ((List.range (n - c * (n / c))).map (fun i => c * (n / c) + i))

/-! ### Machine-integer casts (wasm32 target: 32-bit `usize`/`isize`) -/

/-- Embedding of `usize as isize` on wasm32. -/
def toIsize (n : ℕ) : ℤ := if n < 2 ^ 31 then (n : ℤ) else (n : ℤ) - 2 ^ 32

/-- Embedding of `isize as usize` on wasm32. -/
def toUsize (z : ℤ) : ℕ := (z % 2 ^ 32).toNat

/-- Embedding of `isize::clamp(0, hi)` (panic-free here since `0 ≤ hi` at all
call sites reached). -/
def clampZ (z hi : ℤ) : ℤ := max 0 (min z hi)

/-! ### Separable Gaussian blur (`gaussian_blur.rs`)

The kernel builder computes float Gaussian weights, normalizes them, and
quantizes at scale `2^16` (`to_fixed_point`); float arithmetic is embedded as
exact real arithmetic, and the `f32 as u32` cast as a saturating floor. -/

/-- Embedding of `to_fixed_point`: `(val * 65536.0 + 0.5) as u32` with the
saturating float-to-int cast of Rust. -/
noncomputable def to_fixed_point (val : ℝ) : ℕ :=
  min (Nat.floor (val * 65536 + 0.5)) (2 ^ 32 - 1)

/-- Embedding of `create_gaussian_kernel_fixed`. -/
noncomputable def create_gaussian_kernel_fixed (size : ℕ) (sigma : ℝ) : List ℕ :=
  let half_size : ℤ := (size / 2 : ℕ)
  let neg_inv_2sigma_sq : ℝ := -1 / (2 * sigma * sigma)
  let float_kernel : List ℝ :=
    (List.range size).map (fun (i : ℕ) =>
      Real.exp ((((i : ℤ) - half_size) * ((i : ℤ) - half_size) : ℤ) * neg_inv_2sigma_sq))
  let sum : ℝ := float_kernel.foldl (· + ·) 0
  let inv_sum : ℝ := 1 / sum
  float_kernel.map (fun val => to_fixed_point (val * inv_sum))

/-- Scalar per-pixel value of the general horizontal pass: the clamped
kernel-weighted row sum in a `u64` accumulator, shifted to Q8 and stored as
`u32` (`gaussian_blur.rs` lines 114-123). -/
def hGenVal (src : List ℕ) (w : ℕ) (kernel : List ℕ) (idx : ℕ) : ℕ :=
  let y := idx / w
  let x := idx % w
  let half : ℤ := (kernel.length / 2 : ℕ)
  let sum : ℕ :=
    (List.range kernel.length).foldl
      (fun acc (k : ℕ) =>
        acc + src.getD (y * w + (clampZ ((x : ℤ) + ((k : ℤ) - half)) ((w : ℤ) - 1)).toNat) 0 *
          kernel.getD k 0) 0
  ((sum % 2 ^ 64) >>> 8) % 2 ^ 32

/-- Per-pixel value of the 3-tap horizontal pass (`horizontal_pass_3x3_fixed`).
The first pixel of each row is computed in `u32` arithmetic and stored without
the `>> 8` shift, exactly as in the source; the middle and last pixels use the
`u64` accumulator and are shifted. -/
def h3Val (src : List ℕ) (w : ℕ) (kernel : List ℕ) (idx : ℕ) : ℕ :=
  let y := idx / w
  let x := idx % w
  let k0 := kernel.getD 0 0
  let k1 := kernel.getD 1 0
  let k2 := kernel.getD 2 0
  if x = 0 then
    (k0 * src.getD (y * w) 0 + k1 * src.getD (y * w) 0 + k2 * src.getD (y * w + 1) 0) % 2 ^ 32
  else if x = w - 1 then
    (((k0 * src.getD (idx - 1) 0 + k1 * src.getD idx 0 + k2 * src.getD idx 0) % 2 ^ 64) >>> 8) %
      2 ^ 32
  else
    (((k0 * src.getD (idx - 1) 0 + k1 * src.getD idx 0 + k2 * src.getD (idx + 1) 0) % 2 ^ 64) >>>
      8) % 2 ^ 32

/-- Embedding of `horizontal_pass_3x3_fixed`. With at least one row, the
unconditional first-pixel write `src_row[1]` indexes out of bounds whenever the
width is below 2 (panic, embedded as `none`). -/
def horizontal_pass_3x3_fixed (src : List ℕ) (w h : ℕ) (kernel : List ℕ) :
    Option (List ℕ) :=
  if 1 ≤ h ∧ w < 2 then none
  else
    some (writeAll (List.replicate (w * h) 0)
      ((idxList w h).map (fun idx => (idx, h3Val src w kernel idx))))

/-- Embedding of `horizontal_pass_fixed`: dispatch to the 3-tap specialization.
The 5-tap specialization computes exactly the general clamped sum with
`half = 2`, but its `clamp(0, (width - 1) as isize)` aborts on a zero-width
image with at least one row. Every other kernel length takes the general SIMD
branch, whose `x = 0` iteration always runs (`x <= width.saturating_sub(4)`
holds at `x = 0`), so with at least one row and width below 4 the 16-byte
`v128_store` overruns the row (and width 0 additionally aborts in
`clamp(0, -1)`) — embedded as `none`. -/
def horizontal_pass_fixed (src : List ℕ) (w h : ℕ) (kernel : List ℕ) :
    Option (List ℕ) :=
  if kernel.length = 3 then horizontal_pass_3x3_fixed src w h kernel
  else if kernel.length = 5 then
    if 1 ≤ h ∧ w = 0 then none
    else
      some (writeAll (List.replicate (w * h) 0)
        ((idxList w h).map (fun idx => (idx, hGenVal src w kernel idx))))
  else
    if 1 ≤ h ∧ w < 4 then none
    else
      some (writeAll (List.replicate (w * h) 0)
        ((idxList w h).map (fun idx => (idx, hGenVal src w kernel idx))))

/-- Scalar per-pixel value of the general vertical pass: clamped column sum of
Q8 values in `u64`, shifted down by 24 and saturated to a byte
(`gaussian_blur.rs` lines 296-305). -/
def vGenVal (src : List ℕ) (w h : ℕ) (kernel : List ℕ) (idx : ℕ) : ℕ :=
  let y := idx / w
  let x := idx % w
  let half : ℤ := (kernel.length / 2 : ℕ)
  let sum : ℕ :=
    (List.range kernel.length).foldl
      (fun acc (k : ℕ) =>
        acc + src.getD ((clampZ ((y : ℤ) + ((k : ℤ) - half)) ((h : ℤ) - 1)).toNat * w + x) 0 *
          kernel.getD k 0) 0
  min ((sum % 2 ^ 64) >>> 24) 255

/-- Per-pixel value of the 3-tap vertical pass (`vertical_pass_3x3_fixed`):
first row, middle rows and last row all use the `u64` accumulator, shift by 24
and saturate. -/
def v3Val (src : List ℕ) (w h : ℕ) (kernel : List ℕ) (idx : ℕ) : ℕ :=
  let y := idx / w
  let x := idx % w
  let k0 := kernel.getD 0 0
  let k1 := kernel.getD 1 0
  let k2 := kernel.getD 2 0
  if y = 0 then
    min (((k0 * src.getD x 0 + k1 * src.getD x 0 + k2 * src.getD (w + x) 0) % 2 ^ 64) >>> 24) 255
  else if y = h - 1 then
    min (((k0 * src.getD ((y - 1) * w + x) 0 + k1 * src.getD idx 0 + k2 * src.getD idx 0) %
      2 ^ 64) >>> 24) 255
  else
    min (((k0 * src.getD (idx - w) 0 + k1 * src.getD idx 0 + k2 * src.getD (idx + w) 0) %
      2 ^ 64) >>> 24) 255

/-- Embedding of `vertical_pass_3x3_fixed`. Its unconditional first-row block
slices `dst[0..width]` and reads `src[width + x]`, which is out of bounds
whenever the width is positive and the height is below 2 (panic → `none`). -/
def vertical_pass_3x3_fixed (src : List ℕ) (w h : ℕ) (kernel : List ℕ) :
    Option (List ℕ) :=
  if 1 ≤ w ∧ h < 2 then none
  else
    some (writeAll (List.replicate (w * h) 0)
      ((idxList w h).map (fun idx => (idx, v3Val src w h kernel idx))))

/-- Embedding of `vertical_pass_fixed`: 3-tap specialization, else the general
clamped loop. The general branch's `x = 0` SIMD iteration always runs, so with
at least one row and width below 4 the `v128_load` reads past the buffer and
`dst_row[x+1..x+3]` indexes out of bounds — embedded as `none`. -/
def vertical_pass_fixed (src : List ℕ) (w h : ℕ) (kernel : List ℕ) :
    Option (List ℕ) :=
  if kernel.length = 3 then vertical_pass_3x3_fixed src w h kernel
  else
    if 1 ≤ h ∧ w < 4 then none
    else
      some (writeAll (List.replicate (w * h) 0)
        ((idxList w h).map (fun idx => (idx, vGenVal src w h kernel idx))))

/-- Kernel built by `blur`: the caller's sigma, or OpenCV's default formula
when it is non-positive. -/
noncomputable def blurKernel (ks : ℕ) (sigma : ℝ) : List ℕ :=
  create_gaussian_kernel_fixed ks
    (if sigma ≤ 0 then 0.3 * (((ks - 1 : ℕ) : ℝ) * 0.5 - 1.0) + 0.8 else sigma)

/-- Embedding of `blur`: validate, derive the default sigma, build the
fixed-point kernel, run the two passes. `none` is a panic. -/
noncomputable def blur (grayscale : List ℕ) (w h ks : ℕ) (sigma : ℝ) :
    Option (List ℕ) :=
  if grayscale.length ≠ w * h then none
  else if ks = 0 ∨ ks % 2 = 0 then none
  else
    (horizontal_pass_fixed grayscale w h (blurKernel ks sigma)).bind
      (fun temp => vertical_pass_fixed temp w h (blurKernel ks sigma))

/-- Horizontal window maximum of `dilate` at pixel `(x, y)`: maximum of the
row values at the `kernel_size` clamped offsets around `x`. -/
def dilateWindowH (edges : List ℕ) (w ks : ℕ) (y x : ℕ) : ℕ :=
  (List.range ks).foldl
    (fun mv (k : ℕ) =>
      max mv (edges.getD
        (y * w + (clampZ ((x : ℤ) + ((k : ℤ) - ((ks / 2 : ℕ) : ℤ))) ((w : ℤ) - 1)).toNat) 0)) 0

/-- Vertical window maximum of `dilate` at pixel `(x, y)` over the
horizontal-pass buffer. -/
def dilateWindowV (temp : List ℕ) (w h ks : ℕ) (y x : ℕ) : ℕ :=
  (List.range ks).foldl
    (fun mv (k : ℕ) =>
      max mv (temp.getD
        ((clampZ ((y : ℤ) + ((k : ℤ) - ((ks / 2 : ℕ) : ℤ))) ((h : ℤ) - 1)).toNat * w + x) 0)) 0

/-- Embedding of `dilate` (the wasm32 `dilate_fast` path): horizontal max pass
into a temp buffer, then vertical max pass. The top-edge loop
`for y in 0..kernel_size/2` writes `dilated[y*width+x]` unconditionally, so on
a non-empty-width mask whose height is below `kernel_size/2` the write index
runs past the buffer and the program aborts — embedded as `none`. In the safe
middle rows the SIMD maxima skip the clamp exactly where the clamp is the
identity, so the per-pixel values are the clamped window maxima throughout. -/
def dilate (edges : List ℕ) (w h ks : ℕ) : Option (List ℕ) :=
  if 1 ≤ w ∧ h < ks / 2 then none
  else
    let temp := writeAll (List.replicate (w * h) 0)
      ((idxList w h).map (fun idx => (idx, dilateWindowH edges w ks (idx / w) (idx % w))))
    some (writeAll (List.replicate (w * h) 0)
      ((idxList w h).map (fun idx => (idx, dilateWindowV temp w h ks (idx / w) (idx % w)))))

/-! ### Interior pixels

The classification and suppression loops `for y in 1..height-1 { for x in
1..width-1 { … } }` touch exactly the interior pixels. -/

/-- Interior pixel predicate in flat-index form. -/
def isInterior (w h idx : ℕ) : Prop :=
  1 ≤ idx % w ∧ idx % w < w - 1 ∧ 1 ≤ idx / w ∧ idx / w < h - 1

instance (w h idx : ℕ) : Decidable (isInterior w h idx) := by
  unfold isInterior
  infer_instance

/-- Row-major enumeration of the interior pixel indices, as iterated by the
source's nested loops. -/
def interiorList (w h : ℕ) : List ℕ :=
  (List.range' 1 (h - 2)).flatMap (fun y => (List.range' 1 (w - 2)).map (fun x => y * w + x))

/-! ### Magnitude and non-maximum suppression (`non_maximum_suppression.rs`)

32-bit float magnitudes are embedded as exact reals (`Real.sqrt` for the L2
branch); the float constant `2.4142` is the exact rational of the source
literal. -/

/-- Per-pixel magnitude (scalar branch of `non_maximum_suppression`, lines
75-83): L2 norm `sqrt(gx² + gy²)` or L1 norm `|gx| + |gy|`. -/
noncomputable def calcMagVal (dx dy : List ℤ) (l2 : Bool) (i : ℕ) : ℝ :=
  let gx : ℝ := ((dx.getD i 0 : ℤ) : ℝ)
  let gy : ℝ := ((dy.getD i 0 : ℤ) : ℝ)
  if l2 then Real.sqrt (gx * gx + gy * gy) else |gx| + |gy|

/-- The magnitude buffer: `vec![0.0; width*height]` overwritten at
`0..dx.len()`. -/
noncomputable def calculate_magnitude (dx dy : List ℤ) (l2 : Bool) (n : ℕ) : List ℝ :=
  writeAll (List.replicate n 0)
    ((List.range dx.length).map (fun i => (i, calcMagVal dx dy l2 i)))

/-- Suppression-loop body at one interior pixel (lines 89-132): zero
magnitudes are suppressed, otherwise a neighbor pair is selected by the
`2.4142` ratio test (then by the signs of `gx`,`gy` in the diagonal case) and
the pixel survives only if it is `≥` both neighbors. Subtraction on flat
indices is only evaluated at interior pixels, where it cannot underflow. -/
noncomputable def nmsVal (magnitude : List ℝ) (dx dy : List ℤ) (w idx : ℕ) : ℝ :=
  let mag := magnitude.getD idx 0
  if mag = 0 then 0
  else
    let gx : ℝ := ((dx.getD idx 0 : ℤ) : ℝ)
    let gy : ℝ := ((dy.getD idx 0 : ℤ) : ℝ)
    let nbrs : ℝ × ℝ :=
      if |gy| > |gx| * 2.4142 then
        (magnitude.getD (idx - w) 0, magnitude.getD (idx + w) 0)
      else if |gx| > |gy| * 2.4142 then
        (magnitude.getD (idx - 1) 0, magnitude.getD (idx + 1) 0)
      else if (gx > 0 ∧ gy > 0) ∨ (gx < 0 ∧ gy < 0) then
        (magnitude.getD (idx - w + 1) 0, magnitude.getD (idx + w - 1) 0)
      else
        (magnitude.getD (idx - w - 1) 0, magnitude.getD (idx + w + 1) 0)
    if mag ≥ nbrs.1 ∧ mag ≥ nbrs.2 then mag else 0

/-- Embedding of `non_maximum_suppression`: magnitude buffer, then the
suppression loop over the interior into a zero-initialized output. -/
noncomputable def non_maximum_suppression (dx dy : List ℤ) (w h : ℕ) (l2 : Bool) :
    List ℝ :=
  let magnitude := calculate_magnitude dx dy l2 (w * h)
  writeAll (List.replicate (w * h) 0)
    ((interiorList w h).map (fun idx => (idx, nmsVal magnitude dx dy w idx)))

/-- Embedding of the threshold adjustment of `canny_edge_detector_full`
(lines 95-96): in L2 mode the thresholds are squared before hysteresis. -/
def squaredThreshold (l2 : Bool) (t : ℝ) : ℝ := if l2 then t * t else t

/-- State of the hysteresis growth loop. `map` is the tri-state edge map and
`bin` the binary output kept in lockstep by the combined variant (the
map-only variant never reads it); `pops` and `trace` are proof
instrumentation (iteration count and every coordinate ever pushed, seeds
included). -/
structure GrowState where
  map : List ℕ
  bin : List ℕ
  stack : List (ℕ × ℕ)
  pops : ℕ
  trace : List (ℕ × ℕ)

/-- The eight pre-computed neighbor offsets of the growth pass
(`hysteresis.rs` lines 80-89 and 194-203). -/
def neighborOffsets (w : ℕ) : List ℤ :=
  [-1 - 1 * (w : ℤ), 0 - 1 * (w : ℤ), 1 - 1 * (w : ℤ), -1, 1,
    -1 + 1 * (w : ℤ), 0 + 1 * (w : ℤ), 1 + 1 * (w : ℤ)]

/-- One neighbor visit of the growth pass: compute
`(current_idx as isize + offset) as usize`, and if it is in bounds and still
weak, promote it to strong, set its binary byte, and collect it for pushing.
The collected pushes are consed so that the last promotion is popped first,
matching `Vec::push`/`Vec::pop`. -/
def pnStep (w c : ℕ) (st : List ℕ × List ℕ × List (ℕ × ℕ)) (off : ℤ) :
    List ℕ × List ℕ × List (ℕ × ℕ) :=
  let nIdx := toUsize (toIsize c + off)
  if nIdx < st.1.length ∧ st.1.getD nIdx 1 = 0 then
    (st.1.set nIdx 2, st.2.1.set nIdx 255, (nIdx % w, nIdx / w) :: st.2.2)
  else st

/-- Process the eight neighbors of the popped pixel at flat index `c`. -/
def processNeighbors (w c : ℕ) (m b : List ℕ) : List ℕ × List ℕ × List (ℕ × ℕ) :=
  (neighborOffsets w).foldl (pnStep w c) (m, b, [])

/-- One pop of the growth loop: process the popped pixel's neighbors, push
the promoted ones. -/
def growStep (w : ℕ) (st : GrowState) (x y : ℕ) (rest : List (ℕ × ℕ)) : GrowState :=
  let pr := processNeighbors w (y * w + x) st.map st.bin
  ⟨pr.1, pr.2.1, pr.2.2 ++ rest, st.pops + 1, pr.2.2 ++ st.trace⟩

/-- Fuel-indexed growth loop (`while let Some((x, y)) = stack.pop()`). -/
def growFuel (w : ℕ) : ℕ → GrowState → GrowState
  | 0, st => st
  | fuel + 1, st =>
    match st.stack with
    | [] => st
    | (x, y) :: rest => growFuel w fuel (growStep w st x y rest)

/-- Classification value of one interior pixel: strong (2) at or above the
high threshold, weak (0) at or above the low threshold, else non-edge (1). -/
def classifyVal {α : Type} [LinearOrder α] (low high mag : α) : ℕ :=
  if mag ≥ high then 2 else if mag ≥ low then 0 else 1

/-- Canonical classification step at flat index `idx` on the state
`(edge map, binary, stack)`: exactly the loop body of
`hysteresis_thresholding_binary` lines 176-190, with the pushed coordinate
pair written as `(idx % w, idx / w)`. -/
def classifyStep {α : Type} [LinearOrder α] [Zero α] (s : List α) (low high : α) (w : ℕ)
    (st : List ℕ × List ℕ × List (ℕ × ℕ)) (idx : ℕ) : List ℕ × List ℕ × List (ℕ × ℕ) :=
  if s.getD idx 0 ≥ high then (st.1.set idx 2, st.2.1.set idx 255, (idx % w, idx / w) :: st.2.2)
  else if s.getD idx 0 ≥ low then (st.1.set idx 0, st.2.1, st.2.2)
  else st

/-- Canonical classification pass: fold the step over the interior pixels in
row-major order. -/
def classifyTriple {α : Type} [LinearOrder α] [Zero α] (s : List α) (low high : α)
    (w h : ℕ) (m0 b0 : List ℕ) : List ℕ × List ℕ × List (ℕ × ℕ) :=
  (interiorList w h).foldl (classifyStep s low high w) (m0, b0, [])

/-- Classification pass of `hysteresis_thresholding` (lines 32-74): per row,
the pixels are visited in chunks of 4 followed by the remainder
(`chunkedRange`), `i` indexes the row slice starting at column 1, and a
strong pixel pushes `(1 + i, y)`. The state is `(edge map, stack)`; this
variant produces no binary buffer. This helper covers only the non-panicking
shapes; the row-slice panic of the source loop is modeled by the `none`
branch of `hysteresis_thresholding` itself. -/
def htClassify {α : Type} [LinearOrder α] [Zero α] (s : List α) (low high : α) (w h : ℕ) :
    List ℕ × List (ℕ × ℕ) :=
  (List.range' 1 (h - 2)).foldl
    (fun st y =>
      (chunkedRange (w - 2) 4).foldl
        (fun st2 (i : ℕ) =>
          if s.getD (y * w + 1 + i) 0 ≥ high then
            (st2.1.set (y * w + 1 + i) 2, (1 + i, y) :: st2.2)
          else if s.getD (y * w + 1 + i) 0 ≥ low then
            (st2.1.set (y * w + 1 + i) 0, st2.2)
          else st2) st)
    (List.replicate (w * h) 1, [])

/-- Classification pass of `hysteresis_thresholding_binary` (lines 175-191):
plain nested loops over the interior, the binary buffer set alongside the
strong marks, a strong pixel pushes `(x, y)`. -/
def htBClassify {α : Type} [LinearOrder α] [Zero α] (s : List α) (low high : α) (w h : ℕ) :
    List ℕ × List ℕ × List (ℕ × ℕ) :=
  (List.range' 1 (h - 2)).foldl
    (fun st y =>
      (List.range' 1 (w - 2)).foldl
        (fun st2 (x : ℕ) =>
          if s.getD (y * w + x) 0 ≥ high then
            (st2.1.set (y * w + x) 2, st2.2.1.set (y * w + x) 255, (x, y) :: st2.2.2)
          else if s.getD (y * w + x) 0 ≥ low then
            (st2.1.set (y * w + x) 0, st2.2.1, st2.2.2)
          else st2) st)
    (List.replicate (w * h) 1, List.replicate (w * h) 0, [])

/-- Embedding of `hysteresis_thresholding`: classify, then grow; the result
is the tri-state edge map. Its classification loop slices
`&suppressed[y*w+1 .. y*w+w-1]` per interior row, which panics when the slice
is reversed (width below 2) or runs past the input, and the row loop bound
`1..height-1` itself aborts at height 0 (the edge-map row slice starts past
the empty buffer) — all embedded as `none`. -/
def hysteresis_thresholding {α : Type} [LinearOrder α] [Zero α] (s : List α)
    (w h : ℕ) (low high : α) : Option (List ℕ) :=
  if h = 0 ∨ (3 ≤ h ∧ (w < 2 ∨ s.length < (h - 2) * w + (w - 1))) then none
  else
    some ((growFuel w (2 * (htClassify s low high w h).1.count 0 +
        (htClassify s low high w h).2.length + 1)
      ⟨(htClassify s low high w h).1, List.replicate (w * h) 0,
        (htClassify s low high w h).2, 0, (htClassify s low high w h).2⟩).map)

/-- Embedding of `edge_map_to_binary` (lines 123-145): byte `255` where the
map is strong, visiting the indices in chunks of 8 then the remainder. -/
def edge_map_to_binary (em : List ℕ) : List ℕ :=
  writeAll (List.replicate em.length 0)
    ((chunkedRange em.length 8).map (fun i => (i, if em.getD i 0 = 2 then 255 else 0)))

/-- Embedding of `hysteresis_thresholding_binary`: classify (keeping the
binary buffer in lockstep), then grow; the result is the binary buffer. -/
def hysteresis_thresholding_binary {α : Type} [LinearOrder α] [Zero α] (s : List α)
    (w h : ℕ) (low high : α) : List ℕ :=
  (growFuel w (2 * (htBClassify s low high w h).1.count 0 +
      (htBClassify s low high w h).2.2.length + 1)
    ⟨(htBClassify s low high w h).1, (htBClassify s low high w h).2.1,
      (htBClassify s low high w h).2.2, 0, (htBClassify s low high w h).2.2⟩).bin

/-- Pair-state classification step of `hysteresis_thresholding` (its loop has
no binary buffer), at a flat interior index. -/
def classifyPairStep {α : Type} [LinearOrder α] [Zero α] (s : List α) (low high : α)
    (w : ℕ) (st : List ℕ × List (ℕ × ℕ)) (idx : ℕ) : List ℕ × List (ℕ × ℕ) :=
  if s.getD idx 0 ≥ high then (st.1.set idx 2, (idx % w, idx / w) :: st.2)
  else if s.getD idx 0 ≥ low then (st.1.set idx 0, st.2)
  else st

/-- The classified state shared by both hysteresis variants: edge map, binary
buffer and seed stack produced from fresh buffers. -/
def classified {α : Type} [LinearOrder α] [Zero α] (s : List α) (low high : α)
    (w h : ℕ) : List ℕ × List ℕ × List (ℕ × ℕ) :=
  classifyTriple s low high w h (List.replicate (w * h) 1) (List.replicate (w * h) 0)

/-! ### The third hysteresis implementation (`canny.rs` lines 4-58)

`canny.rs` has its own tracker with a different encoding (0 = non-edge,
1 = weak, 2 = strong) and a coordinate-pair growth loop: the displaced
coordinates go through `as isize` / `as usize` casts and are bounds-checked
as pairs (`nx > 0 && nx < width && ny > 0 && ny < height`) before the flat
index `ny * width + nx` is formed. -/

/-- Neighbor displacements of `canny.rs`'s growth loop as `(dy, dx)` pairs:
`dy` is the outer loop, `dx` the inner, `(0, 0)` skipped (lines 30-34). -/
def cannyOffsets : List (ℤ × ℤ) :=
  [(-1, -1), (-1, 0), (-1, 1), (0, -1), (0, 1), (1, -1), (1, 0), (1, 1)]

/-- Classification step of `canny.rs`'s hysteresis (lines 15-26): strong
pixels are marked 2 and their coordinates pushed, weak pixels are marked 1,
over a buffer initialized to 0. -/
def cannyClassifyStep {α : Type} [LinearOrder α] [Zero α] (s : List α) (low high : α)
    (w : ℕ) (st : List ℕ × List (ℕ × ℕ)) (idx : ℕ) : List ℕ × List (ℕ × ℕ) :=
  if s.getD idx 0 ≥ high then (st.1.set idx 2, (idx % w, idx / w) :: st.2)
  else if s.getD idx 0 ≥ low then (st.1.set idx 1, st.2)
  else st

/-- Classification pass of `canny.rs`'s hysteresis: plain nested loops over
the interior in row-major order. -/
def cannyClassify {α : Type} [LinearOrder α] [Zero α] (s : List α) (low high : α)
    (w h : ℕ) : List ℕ × List (ℕ × ℕ) :=
  (interiorList w h).foldl (cannyClassifyStep s low high w) (List.replicate (w * h) 0, [])

/-- One neighbor visit of `canny.rs`'s growth loop (lines 35-44): displace the
popped coordinates through the `isize`/`usize` casts, bounds-check the pair,
and promote-and-push a weak neighbor. -/
def cannyNbr (w h x y : ℕ) (st : List ℕ × List (ℕ × ℕ)) (d : ℤ × ℤ) :
    List ℕ × List (ℕ × ℕ) :=
  let nx := toUsize (toIsize x + d.2)
  let ny := toUsize (toIsize y + d.1)
  if 0 < nx ∧ nx < w ∧ 0 < ny ∧ ny < h ∧ st.1.getD (ny * w + nx) 0 = 1 then
    (st.1.set (ny * w + nx) 2, (nx, ny) :: st.2)
  else st

/-- Growth state of `canny.rs`'s hysteresis, with the push trace as ghost
instrumentation. -/
structure CannyGrow where
  map : List ℕ
  stack : List (ℕ × ℕ)
  trace : List (ℕ × ℕ)

/-- One pop of `canny.rs`'s growth loop: visit the eight displaced neighbors,
then push the promoted ones. -/
def cannyStep (w h : ℕ) (g : CannyGrow) (x y : ℕ) (rest : List (ℕ × ℕ)) : CannyGrow :=
  let pr := cannyOffsets.foldl (cannyNbr w h x y) (g.map, [])
  ⟨pr.1, pr.2 ++ rest, pr.2 ++ g.trace⟩

/-- Fuel-indexed growth loop of `canny.rs`'s hysteresis
(`while let Some((x, y)) = stack.pop()`). -/
def cannyGrowFuel (w h : ℕ) : ℕ → CannyGrow → CannyGrow
  | 0, g => g
  | fuel + 1, g =>
    match g.stack with
    | [] => g
    | (x, y) :: rest => cannyGrowFuel w h fuel (cannyStep w h g x y rest)

/-- Two flat indices are 8-adjacent: distinct, with row and column each
differing by at most one. -/
def adjacent (w a b : ℕ) : Prop :=
  a ≠ b ∧ (((a % w : ℕ) : ℤ) - ((b % w : ℕ) : ℤ)).natAbs ≤ 1 ∧
    (((a / w : ℕ) : ℤ) - ((b / w : ℕ) : ℤ)).natAbs ≤ 1

/-- One link of a hysteresis chain: both endpoints are interior, both have
magnitude at least `low`, and they are 8-adjacent. -/
def lowChain {α : Type} [LinearOrder α] [Zero α] (s : List α) (low : α) (w h : ℕ)
    (a b : ℕ) : Prop :=
  isInterior w h a ∧ isInterior w h b ∧ low ≤ s.getD a 0 ∧ low ≤ s.getD b 0 ∧
    adjacent w a b

/-- A pixel is reachable: some interior pixel with magnitude at least `high`
is connected to it through a chain of 8-adjacent interior pixels, each with
magnitude at least `low`. -/
def reaches {α : Type} [LinearOrder α] [Zero α] (s : List α) (low high : α)
    (w h : ℕ) (i : ℕ) : Prop :=
  ∃ j, isInterior w h j ∧ high ≤ s.getD j 0 ∧
    Relation.ReflTransGen (lowChain s low w h) j i

/-- Soundness invariant of the growth pass: every strong mark is reachable,
every weak mark is interior with magnitude at least `low`, every stacked pair
points at a strong mark, and the map keeps its length. -/
def soundInv {α : Type} [LinearOrder α] [Zero α] (s : List α) (low high : α)
    (w h : ℕ) (g : GrowState) : Prop :=
  (∀ j, g.map.getD j 1 = 2 → reaches s low high w h j ∧ isInterior w h j) ∧
  (∀ j, g.map.getD j 1 = 0 → isInterior w h j ∧ low ≤ s.getD j 0) ∧
  (∀ p ∈ g.stack, g.map.getD (p.2 * w + p.1) 1 = 2 ∧ p.1 < w) ∧
  g.map.length = w * h

/-- Closure invariant of the growth pass: every strong mark is either still on
the stack or has no weak in-bounds neighbor; stacked pairs are canonical
coordinates. -/
def closureInv (w : ℕ) (g : GrowState) : Prop :=
  (∀ j, g.map.getD j 1 = 2 →
    ((j % w, j / w) ∈ g.stack ∨
      ∀ off ∈ neighborOffsets w,
        ¬ (toUsize (toIsize j + off) < g.map.length ∧
           g.map.getD (toUsize (toIsize j + off)) 1 = 0))) ∧
  (∀ p ∈ g.stack, p = ((p.2 * w + p.1) % w, (p.2 * w + p.1) / w))

/-! ### Generic list infrastructure -/

theorem getD_set_self {α : Type} (l : List α) (i : ℕ) (v d : α) (h : i < l.length) :
    (l.set i v).getD i d = v := by
  rw [List.getD_eq_getElem _ _ (by simpa using h)]
  simp [List.getElem_set]

theorem getD_set_of_ne {α : Type} (l : List α) (i j : ℕ) (v d : α) (hne : j ≠ i) :
    (l.set j v).getD i d = l.getD i d := by
  rcases Nat.lt_or_ge i l.length with hlt | hge
  · rw [List.getD_eq_getElem _ _ (by simpa using hlt), List.getD_eq_getElem _ _ hlt,
      List.getElem_set_ne hne]
  · rw [List.getD_eq_default _ _ (by simpa using hge), List.getD_eq_default _ _ hge]

theorem writeAll_nil {α : Type} (init : List α) : writeAll init [] = init := rfl

theorem writeAll_cons {α : Type} (init : List α) (p : ℕ × α) (ws : List (ℕ × α)) :
    writeAll init (p :: ws) = writeAll (init.set p.1 p.2) ws := rfl

theorem writeAll_length {α : Type} (init : List α) (ws : List (ℕ × α)) :
    (writeAll init ws).length = init.length := by
  induction ws generalizing init with
  | nil => rfl
  | cons p ws ih => rw [writeAll_cons, ih, List.length_set]

theorem writeAll_getD_not_mem {α : Type} (init : List α) (ws : List (ℕ × α)) (i : ℕ) (d : α)
    (h : ∀ p ∈ ws, p.1 ≠ i) : (writeAll init ws).getD i d = init.getD i d := by
  induction ws generalizing init with
  | nil => rfl
  | cons p ws ih =>
    rw [writeAll_cons, ih _ (fun q hq => h q (List.mem_cons_of_mem _ hq))]
    exact getD_set_of_ne _ _ _ _ _ (h p (List.mem_cons_self _ _))

/-- A buffer written once at each index of a duplicate-free index list holds the
written values at those indices. -/
theorem writeAll_map_getD_mem {α : Type} (init : List α) (f : ℕ → α) (idxs : List ℕ)
    (hnd : idxs.Nodup) (i : ℕ) (hi : i ∈ idxs) (hlen : i < init.length) (d : α) :
    (writeAll init (idxs.map (fun j => (j, f j)))).getD i d = f i := by
  induction idxs generalizing init with
  | nil => cases hi
  | cons j idxs ih =>
    rw [List.map_cons, writeAll_cons]
    rcases List.mem_cons.mp hi with rfl | hmem
    · rw [writeAll_getD_not_mem]
      · exact getD_set_self _ _ _ _ hlen
      · intro p hp
        rcases List.mem_map.mp hp with ⟨k, hk, rfl⟩
        exact fun hcontra => (List.nodup_cons.mp hnd).1 (hcontra ▸ hk)
    · exact ih _ ((List.nodup_cons.mp hnd).2) hmem (by simpa using hlen)

theorem writeAll_map_getD_not_mem {α : Type} (init : List α) (f : ℕ → α) (idxs : List ℕ)
    (i : ℕ) (hi : i ∉ idxs) (d : α) :
    (writeAll init (idxs.map (fun j => (j, f j)))).getD i d = init.getD i d := by
  apply writeAll_getD_not_mem
  intro p hp
  rcases List.mem_map.mp hp with ⟨k, hk, rfl⟩
  exact fun hcontra => hi (hcontra ▸ hk)

theorem idxList_eq_range (w h : ℕ) : idxList w h = List.range (h * w) := by
  induction h with
  | zero => simp [idxList]
  | succ h ih =>
    rw [idxList, List.range_succ, List.flatMap_append, ← idxList, ih,
      Nat.succ_mul, List.range_add]
    simp [List.flatMap, Function.comp]

theorem chunkedRange_eq_range (n c : ℕ) : chunkedRange n c = List.range n := by
  have h1 : ∀ k : ℕ, (List.range k).flatMap (fun ci => (List.range c).map (fun i => ci * c + i)) =
      List.range (k * c) := by
    intro k
    induction k with
    | zero => simp
    | succ k ih =>
      rw [List.range_succ, List.flatMap_append, ih, Nat.succ_mul, List.range_add]
      simp [List.flatMap]
  have hmc : c * (n / c) = n / c * c := Nat.mul_comm _ _
  rw [chunkedRange, h1, hmc]
  have h2 : n = n / c * c + (n - n / c * c) := by
    have := Nat.div_mul_le_self n c
    omega
  conv_rhs => rw [h2, List.range_add]

theorem writeAll_range_map {α : Type} (n : ℕ) (d : α) (f : ℕ → α) :
    writeAll (List.replicate n d) ((List.range n).map (fun i => (i, f i))) =
      (List.range n).map f := by
  apply List.ext_getElem
  · rw [writeAll_length, List.length_replicate, List.length_map, List.length_range]
  · intro i h1 h2
    have hi : i < n := by simpa using h2
    have hD := writeAll_map_getD_mem (List.replicate n d) f (List.range n)
      (List.nodup_range _) i (List.mem_range.mpr hi) (by simpa using hi) d
    rw [List.getD_eq_getElem _ _ h1] at hD
    rw [hD]
    simp [hi]

theorem map_getD_range_eq_self {α : Type} (l : List α) (d : α) :
    (List.range l.length).map (fun i => l.getD i d) = l := by
  apply List.ext_getElem
  · simp
  · intro i h1 h2
    rw [List.getElem_map, List.getElem_range, List.getD_eq_getElem _ _ h2]

theorem toIsize_of_lt {n : ℕ} (h : n < 2 ^ 31) : toIsize n = (n : ℤ) := by
  rw [toIsize, if_pos h]

theorem toUsize_of_nonneg_lt {z : ℤ} (h0 : 0 ≤ z) (h1 : z < 2 ^ 32) :
    toUsize z = z.toNat := by
  rw [toUsize, Int.emod_eq_of_lt h0 h1]

theorem create_gaussian_kernel_fixed_length (size : ℕ) (sigma : ℝ) :
    (create_gaussian_kernel_fixed size sigma).length = size := by
  simp only [create_gaussian_kernel_fixed, List.length_map, List.length_range]

theorem create_gaussian_kernel_fixed_one (sigma : ℝ) :
    create_gaussian_kernel_fixed 1 sigma = [65536] := by
  have hr1 : List.range 1 = [0] := by decide
  have hhalf : (((1 : ℕ) / 2 : ℕ) : ℤ) = 0 := by decide
  rw [create_gaussian_kernel_fixed]
  simp only [hr1, hhalf, List.map_cons, List.map_nil, List.foldl_cons, List.foldl_nil]
  norm_num [to_fixed_point]
  rw [show Nat.floor ((131073 : ℝ) / 2) = 65536 by
    rw [Nat.floor_eq_iff (by positivity)]
    norm_num]
  norm_num

theorem getD_range_map {α : Type} (f : ℕ → α) (n i : ℕ) (d : α) (hi : i < n) :
    ((List.range n).map f).getD i d = f i := by
  rw [List.getD_eq_getElem _ _ (by simpa using hi), List.getElem_map, List.getElem_range]

theorem getD_lt_of_forall {l : List ℕ} {b : ℕ} (hb : ∀ v ∈ l, v < b) (h0 : 0 < b) (i : ℕ) :
    l.getD i 0 < b := by
  rcases Nat.lt_or_ge i l.length with hlt | hge
  · rw [List.getD_eq_getElem _ _ hlt]
    exact hb _ (List.getElem_mem _)
  · rw [List.getD_eq_default _ _ (by simpa using hge)]
    exact h0

theorem clampZ_toNat_self {a b : ℕ} (hab : a < b) :
    (clampZ (a : ℤ) ((b : ℤ) - 1)).toNat = a := by
  unfold clampZ
  omega

theorem hGenVal_single (src : List ℕ) (w : ℕ) (idx : ℕ) (hw : 0 < w) :
    hGenVal src w [65536] idx = ((src.getD idx 0 * 65536) % 2 ^ 64) >>> 8 % 2 ^ 32 := by
  have hx : idx % w < w := Nat.mod_lt _ hw
  have h12 : (1 : ℕ) / 2 = 0 := by decide
  have hidx : idx / w * w + idx % w = idx := by
    rw [Nat.mul_comm]
    exact Nat.div_add_mod idx w
  simp only [hGenVal, List.length_cons, List.length_nil, Nat.zero_add, h12,
    List.range_succ, List.range_zero, List.nil_append, List.foldl_cons, List.foldl_nil,
    List.getD_cons_zero, Nat.cast_zero, sub_zero, add_zero]
  rw [clampZ_toNat_self hx, hidx]

theorem vGenVal_single (src : List ℕ) (w h : ℕ) (idx : ℕ) (hy : idx / w < h) :
    vGenVal src w h [65536] idx = min (((src.getD idx 0 * 65536) % 2 ^ 64) >>> 24) 255 := by
  have h12 : (1 : ℕ) / 2 = 0 := by decide
  have hidx : idx / w * w + idx % w = idx := by
    rw [Nat.mul_comm]
    exact Nat.div_add_mod idx w
  simp only [vGenVal, List.length_cons, List.length_nil, Nat.zero_add, h12,
    List.range_succ, List.range_zero, List.nil_append, List.foldl_cons, List.foldl_nil,
    List.getD_cons_zero, Nat.cast_zero, sub_zero, add_zero]
  rw [clampZ_toNat_self hy, hidx]

/-- C6 (amended): on rasters the general SIMD passes can process (width at
least 4, or no rows at all), `blur` with kernel size 1 (and a non-positive
sigma, so the default sigma heuristic is used) is the identity: the single-tap
kernel quantizes to exactly `2^16`, the horizontal pass stores `pixel * 2^8`,
and the vertical pass computes `(pixel * 2^8 * 2^16) >> 24 = pixel` at every
position. For widths 1-3 with at least one row the passes abort instead
(see the counterexample). -/
theorem blur_kernel_one_identity (img : List ℕ) (w h : ℕ) (sigma : ℝ)
    (hlen : img.length = w * h) (hbytes : ∀ v ∈ img, v < 256) (hsig : sigma ≤ 0)
    (hshape : 4 ≤ w ∨ h = 0) :
    blur img w h 1 sigma = some img := by
  have hbk : blurKernel 1 sigma = [65536] := by
    rw [blurKernel]
    exact create_gaussian_kernel_fixed_one _
  rw [blur, if_neg (by omega), if_neg (by decide), hbk]
  rw [horizontal_pass_fixed, if_neg (by decide), if_neg (by decide),
    if_neg (by omega), Option.some_bind,
    vertical_pass_fixed, if_neg (by decide), if_neg (by omega)]
  rw [idxList_eq_range, show w * h = h * w from Nat.mul_comm w h]
  simp only [writeAll_range_map]
  refine congrArg some ?_
  have h64 : (2 : ℕ) ^ 64 = 18446744073709551616 := by norm_num
  have h32 : (2 : ℕ) ^ 32 = 4294967296 := by norm_num
  apply List.ext_getElem
  · simp [hlen, Nat.mul_comm]
  · intro i h1 h2
    have hiw : i < h * w := by simpa using h1
    have hw : 0 < w := by
      rcases Nat.eq_zero_or_pos w with rfl | hw
      · simp at hiw
      · exact hw
    rw [List.getElem_map, List.getElem_range]
    rw [vGenVal_single _ _ _ _ (by rwa [Nat.div_lt_iff_lt_mul hw])]
    rw [getD_range_map _ _ _ _ hiw, hGenVal_single _ _ _ hw]
    have hv : img.getD i 0 < 256 := getD_lt_of_forall hbytes (by norm_num) i
    rw [Nat.shiftRight_eq_div_pow, Nat.shiftRight_eq_div_pow]
    rw [List.getD_eq_getElem _ _ h2]
    set v := img[i] with hvdef
    have hv' : v < 256 := by rw [hvdef]; rw [← List.getD_eq_getElem _ _ h2]; exact hv
    have e1 : v * 65536 % 2 ^ 64 = v * 65536 := Nat.mod_eq_of_lt (by omega)
    rw [e1]
    have e2 : v * 65536 / 2 ^ 8 = v * 256 := by omega
    rw [e2]
    have e3 : v * 256 % 2 ^ 32 = v * 256 := Nat.mod_eq_of_lt (by omega)
    rw [e3]
    have e4 : v * 256 * 65536 % 2 ^ 64 = v * 256 * 65536 := Nat.mod_eq_of_lt (by omega)
    rw [e4]
    have e5 : v * 256 * 65536 / 2 ^ 24 = v := by omega
    rw [e5]
    omega

/-- Witness for C6 at a concrete 4-by-1 image (wide enough for the general
SIMD pass). -/
theorem blur_kernel_one_identity_witness :
    blur [7, 13, 200, 255] 4 1 1 (-1) = some [7, 13, 200, 255] :=
  blur_kernel_one_identity [7, 13, 200, 255] 4 1 (-1) (by decide) (by decide)
    (by norm_num) (Or.inl (by decide))

/-- C2 (counterexample evaluation): the kernel-size-3 horizontal pass stores
the first pixel of each row without the `>> 8` shift. For the row `[255, 255]`
and a 3-tap kernel summing to `2^16`, the stored first-pixel value is the raw
Q16 accumulation `16711680`, not the claimed Q8 value
`(k0*255 + k1*255 + k2*255) >> 8 = 65280`. -/
theorem horizontal3_first_pixel_unshifted :
    horizontal_pass_fixed [255, 255] 2 1 [16384, 32768, 16384] = some [16711680, 65280] ∧
      ((16384 * 255 + 32768 * 255 + 16384 * 255) % 2 ^ 64) >>> 8 % 2 ^ 32 = 65280 ∧
      (16711680 : ℕ) ≠ 65280 := by
  refine ⟨?_, by decide, by decide⟩
  decide

/-- C9 (amended): `blur` validates its preconditions before touching any
buffer and returns `none` exactly on a violated precondition — except that the
passes additionally abort on shapes their fast paths cannot handle: the
kernel-size-3 specializations panic when the width or height is below 2, and
for every other kernel size the general SIMD passes overrun rows narrower than
4 pixels (whenever there is at least one row). Under the preconditions plus
the matching shape requirement, a full-length result is always produced. -/
theorem blur_validation (img : List ℕ) (w h ks : ℕ) (sigma : ℝ) :
    ((img.length ≠ w * h ∨ ks = 0 ∨ ks % 2 = 0) → blur img w h ks sigma = none) ∧
    (img.length = w * h → ks % 2 = 1 → (ks = 3 → 2 ≤ w ∧ 2 ≤ h) →
      (ks ≠ 3 → 4 ≤ w ∨ h = 0) →
      ∃ r, blur img w h ks sigma = some r ∧ r.length = w * h) := by
  constructor
  · intro hviol
    rw [blur]
    by_cases hL : img.length ≠ w * h
    · rw [if_pos hL]
    · rw [if_neg hL, if_pos]
      rcases hviol with hv | hv | hv
      · exact absurd hv hL
      · exact Or.inl hv
      · exact Or.inr hv
  · intro hL hodd hks3 hksgen
    rw [blur, if_neg (by omega), if_neg (by omega)]
    have hklen : (blurKernel ks sigma).length = ks := by
      rw [blurKernel]
      exact create_gaussian_kernel_fixed_length ks _
    by_cases h3 : ks = 3
    · obtain ⟨hw2, hh2⟩ := hks3 h3
      rw [horizontal_pass_fixed, if_pos (by rw [hklen, h3]), horizontal_pass_3x3_fixed,
        if_neg (by omega), Option.some_bind, vertical_pass_fixed, if_pos (by rw [hklen, h3]),
        vertical_pass_3x3_fixed, if_neg (by omega)]
      exact ⟨_, rfl, by rw [writeAll_length, List.length_replicate]⟩
    · have hshape := hksgen h3
      by_cases h5 : ks = 5
      · rw [horizontal_pass_fixed, if_neg (by rw [hklen]; exact h3),
          if_pos (by rw [hklen, h5]), if_neg (by omega), Option.some_bind,
          vertical_pass_fixed, if_neg (by rw [hklen]; exact h3), if_neg (by omega)]
        exact ⟨_, rfl, by rw [writeAll_length, List.length_replicate]⟩
      · rw [horizontal_pass_fixed, if_neg (by rw [hklen]; exact h3),
          if_neg (by rw [hklen]; exact h5), if_neg (by omega), Option.some_bind,
          vertical_pass_fixed, if_neg (by rw [hklen]; exact h3), if_neg (by omega)]
        exact ⟨_, rfl, by rw [writeAll_length, List.length_replicate]⟩

/-- Witness for C9 on a valid 2-by-2 image with the 3-tap kernel. -/
theorem blur_validation_witness :
    ∃ r, blur [10, 20, 30, 40] 2 2 3 1 = some r ∧ r.length = 2 * 2 :=
  (blur_validation [10, 20, 30, 40] 2 2 3 1).2 (by decide) (by decide)
    (fun _ => ⟨by norm_num, by norm_num⟩) (fun hne => absurd rfl hne)

/-- C6 (counterexample): `blur` with kernel size 1 on a valid 2-by-1 raster
aborts instead of returning the input: the general horizontal pass enters its
`x = 0` SIMD iteration (`0 <= width.saturating_sub(4)`) and the 16-byte
`v128_store` overruns the 2-pixel row. -/
theorem blur_one_narrow_panics :
    (List.length [7, 13] = 2 * 1 ∧ (1 : ℕ) % 2 = 1) ∧ blur [7, 13] 2 1 1 0 = none := by
  refine ⟨⟨by decide, by decide⟩, ?_⟩
  have hbk : blurKernel 1 0 = [65536] := by
    rw [blurKernel]
    exact create_gaussian_kernel_fixed_one _
  rw [blur, if_neg (by decide), if_neg (by decide), hbk]
  rw [horizontal_pass_fixed, if_neg (by decide), if_neg (by decide), if_pos (by omega)]
  rfl

/-- C9 (counterexample): with the preconditions satisfied (length `1 = 1*1`,
kernel size 3 odd), `blur` on a 1-by-1 image still aborts: the 3-tap
horizontal fast path reads `src_row[1]` out of bounds. -/
theorem blur_small_image_panics :
    (List.length [7] = 1 * 1 ∧ 3 % 2 = 1) ∧ blur [7] 1 1 3 1 = none := by
  refine ⟨⟨by decide, by decide⟩, ?_⟩
  have hklen : (blurKernel 3 1).length = 3 := by
    rw [blurKernel]
    exact create_gaussian_kernel_fixed_length 3 _
  rw [blur, if_neg (by decide), if_neg (by decide)]
  rw [horizontal_pass_fixed, if_pos hklen, horizontal_pass_3x3_fixed, if_pos (by omega)]
  rfl

/-! ### Dilation (`dilation.rs`)

The separable max filter: horizontal window maximum with clamped column
indices, then the same along columns. The embedding follows the scalar path;
the `wasm32` SIMD branch computes the same per-pixel maxima (its middle rows
skip the clamp only where the clamp is the identity). -/

theorem foldl_max_f_init_le (l : List ℕ) (f : ℕ → ℕ) (a : ℕ) :
    a ≤ l.foldl (fun mv j => max mv (f j)) a := by
  induction l generalizing a with
  | nil => exact Nat.le_refl _
  | cons x l ih => exact Nat.le_trans (Nat.le_max_left _ _) (ih _)

theorem foldl_max_f_ge (l : List ℕ) (f : ℕ → ℕ) (a k : ℕ) (hk : k ∈ l) :
    f k ≤ l.foldl (fun mv j => max mv (f j)) a := by
  induction l generalizing a with
  | nil => cases hk
  | cons x l ih =>
    rcases List.mem_cons.mp hk with rfl | hmem
    · exact Nat.le_trans (Nat.le_max_right _ _) (foldl_max_f_init_le _ _ _)
    · exact ih _ hmem

theorem foldl_max_f_le (l : List ℕ) (f : ℕ → ℕ) (a c : ℕ) (ha : a ≤ c)
    (hf : ∀ k ∈ l, f k ≤ c) : l.foldl (fun mv j => max mv (f j)) a ≤ c := by
  induction l generalizing a with
  | nil => exact ha
  | cons x l ih =>
    exact ih _ (Nat.max_le.mpr ⟨ha, hf x (List.mem_cons_self _ _)⟩)
      (fun k hk => hf k (List.mem_cons_of_mem _ hk))

theorem dilate_eq_map (edges : List ℕ) (w h ks : ℕ) (hok : ¬ (1 ≤ w ∧ h < ks / 2)) :
    dilate edges w h ks =
      some ((List.range (h * w)).map (fun idx =>
        dilateWindowV
          ((List.range (h * w)).map (fun j => dilateWindowH edges w ks (j / w) (j % w)))
          w h ks (idx / w) (idx % w))) := by
  rw [dilate, if_neg hok, idxList_eq_range, show w * h = h * w from Nat.mul_comm w h]
  simp only [writeAll_range_map]

theorem dilateWindowH_one (edges : List ℕ) (w y x : ℕ) (hx : x < w) :
    dilateWindowH edges w 1 y x = edges.getD (y * w + x) 0 := by
  have h12 : (1 : ℕ) / 2 = 0 := by decide
  simp only [dilateWindowH, h12, List.range_succ, List.range_zero, List.nil_append,
    List.foldl_cons, List.foldl_nil, Nat.cast_zero, sub_zero, add_zero]
  rw [clampZ_toNat_self hx]
  exact Nat.zero_max _

theorem dilateWindowV_one (temp : List ℕ) (w h y x : ℕ) (hy : y < h) :
    dilateWindowV temp w h 1 y x = temp.getD (y * w + x) 0 := by
  have h12 : (1 : ℕ) / 2 = 0 := by decide
  simp only [dilateWindowV, h12, List.range_succ, List.range_zero, List.nil_append,
    List.foldl_cons, List.foldl_nil, Nat.cast_zero, sub_zero, add_zero]
  rw [clampZ_toNat_self hy]
  exact Nat.zero_max _

theorem dilateWindowH_le (edges : List ℕ) (w ks y x : ℕ) (c : ℕ)
    (hc : ∀ j, edges.getD j 0 ≤ c) : dilateWindowH edges w ks y x ≤ c := by
  exact foldl_max_f_le _ _ _ _ (Nat.zero_le _) (fun k _ => hc _)

theorem dilateWindowV_le (temp : List ℕ) (w h ks y x : ℕ) (c : ℕ)
    (hc : ∀ j, temp.getD j 0 ≤ c) : dilateWindowV temp w h ks y x ≤ c := by
  exact foldl_max_f_le _ _ _ _ (Nat.zero_le _) (fun k _ => hc _)

theorem dilateWindowH_ge_center (edges : List ℕ) (w ks y x : ℕ) (hks : 1 ≤ ks) (hx : x < w) :
    edges.getD (y * w + x) 0 ≤ dilateWindowH edges w ks y x := by
  have hk0 : ks / 2 ∈ List.range ks := List.mem_range.mpr (Nat.div_lt_self (by omega) (by omega))
  have hco : ((x : ℤ) + (((ks / 2 : ℕ) : ℤ) - ((ks / 2 : ℕ) : ℤ))) = (x : ℤ) := by ring
  have := foldl_max_f_ge (List.range ks)
    (fun k => edges.getD
      (y * w + (clampZ ((x : ℤ) + ((k : ℤ) - ((ks / 2 : ℕ) : ℤ))) ((w : ℤ) - 1)).toNat) 0)
    0 (ks / 2) hk0
  simp only [hco] at this
  rw [clampZ_toNat_self hx] at this
  exact this

theorem dilateWindowV_ge_center (temp : List ℕ) (w h ks y x : ℕ) (hks : 1 ≤ ks) (hy : y < h) :
    temp.getD (y * w + x) 0 ≤ dilateWindowV temp w h ks y x := by
  have hk0 : ks / 2 ∈ List.range ks := List.mem_range.mpr (Nat.div_lt_self (by omega) (by omega))
  have hco : ((y : ℤ) + (((ks / 2 : ℕ) : ℤ) - ((ks / 2 : ℕ) : ℤ))) = (y : ℤ) := by ring
  have := foldl_max_f_ge (List.range ks)
    (fun k => temp.getD
      ((clampZ ((y : ℤ) + ((k : ℤ) - ((ks / 2 : ℕ) : ℤ))) ((h : ℤ) - 1)).toNat * w + x) 0)
    0 (ks / 2) hk0
  simp only [hco] at this
  rw [clampZ_toNat_self hy] at this
  exact this

/-- C8 (amended): dilation with kernel size 1 is the identity on a
`width*height` mask, and for any kernel size at least 1 whose half-window fits
the image height (or on a zero-width mask), `dilate` returns an output in
which every 255 pixel of the input stays 255 (the output edge set is a
superset of the input edge set). When the width is positive and
`kernel_size/2` exceeds the height, the wasm32 `dilate_fast` top-edge loop
instead indexes out of bounds and the program aborts (see the
counterexample). -/
theorem dilate_identity_and_monotone (edges : List ℕ) (w h ks : ℕ)
    (hlen : edges.length = w * h) (hbytes : ∀ v ∈ edges, v < 256) (hks : 1 ≤ ks)
    (hshape : ks / 2 ≤ h ∨ w = 0) :
    dilate edges w h 1 = some edges ∧
      ∃ d, dilate edges w h ks = some d ∧
        ∀ i, i < w * h → edges.getD i 0 = 255 → d.getD i 0 = 255 := by
  have hgetle : ∀ j, edges.getD j 0 ≤ 255 := by
    intro j
    have := getD_lt_of_forall hbytes (b := 256) (by norm_num) j
    omega
  have hok : ¬ (1 ≤ w ∧ h < ks / 2) := by omega
  constructor
  · rw [dilate_eq_map edges w h 1 (by omega)]
    refine congrArg some ?_
    have hself := map_getD_range_eq_self edges 0
    conv_rhs => rw [← hself]
    rw [hlen, Nat.mul_comm w h]
    apply List.map_congr_left
    intro idx hidx
    have hiw : idx < h * w := List.mem_range.mp hidx
    have hw : 0 < w := by
      rcases Nat.eq_zero_or_pos w with rfl | hw
      · simp at hiw
      · exact hw
    have hx : idx % w < w := Nat.mod_lt _ hw
    have hy : idx / w < h := by rwa [Nat.div_lt_iff_lt_mul hw]
    have hyx : idx / w * w + idx % w = idx := by
      rw [Nat.mul_comm]
      exact Nat.div_add_mod idx w
    rw [dilateWindowV_one _ _ _ _ _ hy, hyx, getD_range_map _ _ _ _ hiw,
      dilateWindowH_one _ _ _ _ hx, hyx]
  · refine ⟨_, dilate_eq_map edges w h ks hok, ?_⟩
    intro i hi h255
    have hiw : i < h * w := by rwa [Nat.mul_comm h w]
    have hw : 0 < w := by
      rcases Nat.eq_zero_or_pos w with rfl | hw
      · simp at hi
      · exact hw
    have hx : i % w < w := Nat.mod_lt _ hw
    have hy : i / w < h := by rwa [Nat.div_lt_iff_lt_mul hw]
    have hyx : i / w * w + i % w = i := by
      rw [Nat.mul_comm]
      exact Nat.div_add_mod i w
    rw [getD_range_map _ _ _ _ hiw]
    have htemple : ∀ j,
        ((List.range (h * w)).map
          (fun j => dilateWindowH edges w ks (j / w) (j % w))).getD j 0 ≤ 255 := by
      intro j
      rcases Nat.lt_or_ge j (h * w) with hj | hj
      · rw [getD_range_map _ _ _ _ hj]
        exact dilateWindowH_le _ _ _ _ _ _ hgetle
      · rw [List.getD_eq_default _ _ (by simpa using hj)]
        omega
    have htemp255 :
        ((List.range (h * w)).map
          (fun j => dilateWindowH edges w ks (j / w) (j % w))).getD i 0 = 255 := by
      rw [getD_range_map _ _ _ _ hiw]
      have hge := dilateWindowH_ge_center edges w ks (i / w) (i % w) hks hx
      rw [hyx, h255] at hge
      have hle := dilateWindowH_le edges w ks (i / w) (i % w) 255 hgetle
      omega
    have hge := dilateWindowV_ge_center
      ((List.range (h * w)).map (fun j => dilateWindowH edges w ks (j / w) (j % w)))
      w h ks (i / w) (i % w) hks hy
    rw [hyx, htemp255] at hge
    have hle := dilateWindowV_le
      ((List.range (h * w)).map (fun j => dilateWindowH edges w ks (j / w) (j % w)))
      w h ks (i / w) (i % w) 255 htemple
    omega

/-- Witness for C8 on a concrete 3-by-3 mask with a 255 center pixel. -/
theorem dilate_identity_and_monotone_witness :
    dilate [0, 0, 0, 0, 255, 0, 0, 0, 0] 3 3 1 = some [0, 0, 0, 0, 255, 0, 0, 0, 0] ∧
      ∃ d, dilate [0, 0, 0, 0, 255, 0, 0, 0, 0] 3 3 3 = some d ∧ d.getD 4 0 = 255 := by
  have hmain := dilate_identity_and_monotone [0, 0, 0, 0, 255, 0, 0, 0, 0] 3 3 3
    (by decide) (by decide) (by decide) (Or.inl (by decide))
  have hid := dilate_identity_and_monotone [0, 0, 0, 0, 255, 0, 0, 0, 0] 3 3 1
    (by decide) (by decide) (by decide) (Or.inl (by decide))
  obtain ⟨d, hd, hall⟩ := hmain.2
  exact ⟨hid.1, d, hd, hall 4 (by decide) (by decide)⟩

/-- C8 (counterexample): on wasm32 `dilate` runs `dilate_fast`, whose top-edge
loop `for y in 0..kernel_size/2` writes `dilated[y*width+x]` unconditionally;
on a 1-by-1 mask with kernel size 5 that index leaves the buffer and the
program aborts instead of returning a superset mask. -/
theorem dilate_top_edge_panics :
    (List.length [255] = 1 * 1 ∧ (1 : ℕ) ≤ 5) ∧ dilate [255] 1 1 5 = none := by
  refine ⟨⟨by decide, by decide⟩, ?_⟩
  rw [dilate, if_pos (by omega)]

theorem coord_mod {y w x : ℕ} (hx : x < w) : (y * w + x) % w = x := by
  rw [Nat.mul_add_mod' y w x, Nat.mod_eq_of_lt hx]

theorem coord_div {y w x : ℕ} (hx : x < w) : (y * w + x) / w = y := by
  rw [Nat.add_comm, Nat.mul_comm, Nat.add_mul_div_left _ _ (by omega : 0 < w),
    Nat.div_eq_of_lt hx]
  omega

theorem mem_interiorList {w h idx : ℕ} : idx ∈ interiorList w h ↔ isInterior w h idx := by
  constructor
  · intro hmem
    rw [interiorList, List.mem_flatMap] at hmem
    obtain ⟨y, hy, hx⟩ := hmem
    rw [List.mem_map] at hx
    obtain ⟨x, hxmem, rfl⟩ := hx
    rw [List.mem_range'_1] at hy hxmem
    have hxw : x < w := by omega
    unfold isInterior
    rw [coord_mod hxw, coord_div hxw]
    omega
  · intro hint
    obtain ⟨h1, h2, h3, h4⟩ := hint
    have hw0 : 0 < w := by
      rcases Nat.eq_zero_or_pos w with rfl | hw
      · simp at h3
      · exact hw
    refine List.mem_flatMap.mpr ⟨idx / w, ?_, List.mem_map.mpr ⟨idx % w, ?_, ?_⟩⟩
    · rw [List.mem_range'_1]
      omega
    · rw [List.mem_range'_1]
      have := Nat.mod_lt idx hw0
      omega
    · rw [Nat.mul_comm]
      exact Nat.div_add_mod idx w

theorem nodup_range' (s n : ℕ) : (List.range' s n).Nodup := by
  rw [List.range'_eq_map_range]
  exact (List.nodup_range n).map (fun a b hab => by omega)

theorem interiorList_nodup (w h : ℕ) : (interiorList w h).Nodup := by
  rw [interiorList, List.nodup_flatMap]
  constructor
  · intro y hy
    exact (nodup_range' _ _).map (fun a b hab => by omega)
  · refine (nodup_range' 1 (h - 2)).imp ?_
    intro y y' hne a ha ha'
    rw [List.mem_map] at ha ha'
    obtain ⟨x, hxm, hxe⟩ := ha
    obtain ⟨x', hxm', hxe'⟩ := ha'
    rw [List.mem_range'_1] at hxm hxm'
    have hxw : x < w := by omega
    have hxw' : x' < w := by omega
    apply hne
    have : (y * w + x) / w = (y' * w + x') / w := by rw [hxe, hxe']
    rwa [coord_div hxw, coord_div hxw'] at this

theorem isInterior_lt {w h idx : ℕ} (hint : isInterior w h idx) : idx < w * h := by
  obtain ⟨h1, h2, h3, h4⟩ := hint
  have hw0 : 0 < w := by
    rcases Nat.eq_zero_or_pos w with rfl | hw
    · simp at h3
    · exact hw
  rw [Nat.mul_comm, ← Nat.div_lt_iff_lt_mul hw0]
  omega

theorem getD_replicate {α : Type} (n i : ℕ) (d : α) : (List.replicate n d).getD i d = d := by
  rcases Nat.lt_or_ge i n with hlt | hge
  · rw [List.getD_eq_getElem _ _ (by simpa using hlt), List.getElem_replicate]
  · rw [List.getD_eq_default _ _ (by simpa using hge)]

theorem nms_getD_interior (dx dy : List ℤ) (w h : ℕ) (l2 : Bool) (idx : ℕ)
    (hint : isInterior w h idx) :
    (non_maximum_suppression dx dy w h l2).getD idx 0 =
      nmsVal (calculate_magnitude dx dy l2 (w * h)) dx dy w idx := by
  rw [non_maximum_suppression]
  exact writeAll_map_getD_mem _ _ _ (interiorList_nodup w h) _
    (mem_interiorList.mpr hint)
    (by rw [List.length_replicate]; exact isInterior_lt hint) 0

theorem nms_getD_not_interior (dx dy : List ℤ) (w h : ℕ) (l2 : Bool) (idx : ℕ)
    (hint : ¬ isInterior w h idx) :
    (non_maximum_suppression dx dy w h l2).getD idx 0 = 0 := by
  rw [non_maximum_suppression]
  rw [writeAll_map_getD_not_mem _ _ _ _ (fun hmem => hint (mem_interiorList.mp hmem))]
  exact getD_replicate _ _ _

/-- C7: per-pixel characterization of the non-maximum-suppression output.
Non-interior pixels are 0. At an interior pixel with magnitude exactly zero
the output is 0; otherwise the neighbor pair is selected by the ratio test
against `2.4142` (`|dy| > |dx|*2.4142` picks above/below; `|dx| > |dy|*2.4142`
picks left/right; otherwise sign agreement of `dx`,`dy` picks
top-right/bottom-left and sign disagreement picks top-left/bottom-right), and
the output is the magnitude when it is `≥` both selected neighbors, else 0. -/
theorem nms_output_characterization (dx dy : List ℤ) (w h : ℕ) (l2 : Bool) (idx : ℕ) :
    (¬ isInterior w h idx → (non_maximum_suppression dx dy w h l2).getD idx 0 = 0) ∧
    (isInterior w h idx →
      (((calculate_magnitude dx dy l2 (w * h)).getD idx 0 = 0 →
          (non_maximum_suppression dx dy w h l2).getD idx 0 = 0) ∧
        ((calculate_magnitude dx dy l2 (w * h)).getD idx 0 ≠ 0 →
          ((|((dy.getD idx 0 : ℤ) : ℝ)| > |((dx.getD idx 0 : ℤ) : ℝ)| * 2.4142 →
            (non_maximum_suppression dx dy w h l2).getD idx 0 =
              if (calculate_magnitude dx dy l2 (w * h)).getD idx 0 ≥
                    (calculate_magnitude dx dy l2 (w * h)).getD (idx - w) 0 ∧
                  (calculate_magnitude dx dy l2 (w * h)).getD idx 0 ≥
                    (calculate_magnitude dx dy l2 (w * h)).getD (idx + w) 0
              then (calculate_magnitude dx dy l2 (w * h)).getD idx 0 else 0) ∧
          (¬ (|((dy.getD idx 0 : ℤ) : ℝ)| > |((dx.getD idx 0 : ℤ) : ℝ)| * 2.4142) →
            |((dx.getD idx 0 : ℤ) : ℝ)| > |((dy.getD idx 0 : ℤ) : ℝ)| * 2.4142 →
            (non_maximum_suppression dx dy w h l2).getD idx 0 =
              if (calculate_magnitude dx dy l2 (w * h)).getD idx 0 ≥
                    (calculate_magnitude dx dy l2 (w * h)).getD (idx - 1) 0 ∧
                  (calculate_magnitude dx dy l2 (w * h)).getD idx 0 ≥
                    (calculate_magnitude dx dy l2 (w * h)).getD (idx + 1) 0
              then (calculate_magnitude dx dy l2 (w * h)).getD idx 0 else 0) ∧
          (¬ (|((dy.getD idx 0 : ℤ) : ℝ)| > |((dx.getD idx 0 : ℤ) : ℝ)| * 2.4142) →
            ¬ (|((dx.getD idx 0 : ℤ) : ℝ)| > |((dy.getD idx 0 : ℤ) : ℝ)| * 2.4142) →
            ((((dx.getD idx 0 : ℤ) : ℝ) > 0 ∧ ((dy.getD idx 0 : ℤ) : ℝ) > 0) ∨
              (((dx.getD idx 0 : ℤ) : ℝ) < 0 ∧ ((dy.getD idx 0 : ℤ) : ℝ) < 0)) →
            (non_maximum_suppression dx dy w h l2).getD idx 0 =
              if (calculate_magnitude dx dy l2 (w * h)).getD idx 0 ≥
                    (calculate_magnitude dx dy l2 (w * h)).getD (idx - w + 1) 0 ∧
                  (calculate_magnitude dx dy l2 (w * h)).getD idx 0 ≥
                    (calculate_magnitude dx dy l2 (w * h)).getD (idx + w - 1) 0
              then (calculate_magnitude dx dy l2 (w * h)).getD idx 0 else 0) ∧
          (¬ (|((dy.getD idx 0 : ℤ) : ℝ)| > |((dx.getD idx 0 : ℤ) : ℝ)| * 2.4142) →
            ¬ (|((dx.getD idx 0 : ℤ) : ℝ)| > |((dy.getD idx 0 : ℤ) : ℝ)| * 2.4142) →
            ((((dx.getD idx 0 : ℤ) : ℝ) > 0 ∧ ((dy.getD idx 0 : ℤ) : ℝ) < 0) ∨
              (((dx.getD idx 0 : ℤ) : ℝ) < 0 ∧ ((dy.getD idx 0 : ℤ) : ℝ) > 0)) →
            (non_maximum_suppression dx dy w h l2).getD idx 0 =
              if (calculate_magnitude dx dy l2 (w * h)).getD idx 0 ≥
                    (calculate_magnitude dx dy l2 (w * h)).getD (idx - w - 1) 0 ∧
                  (calculate_magnitude dx dy l2 (w * h)).getD idx 0 ≥
                    (calculate_magnitude dx dy l2 (w * h)).getD (idx + w + 1) 0
              then (calculate_magnitude dx dy l2 (w * h)).getD idx 0 else 0))))) := by
  refine ⟨nms_getD_not_interior dx dy w h l2 idx, ?_⟩
  intro hint
  rw [nms_getD_interior dx dy w h l2 idx hint]
  simp only [nmsVal]
  constructor
  · intro hmag0
    rw [if_pos hmag0]
  · intro hmag
    rw [if_neg hmag]
    refine ⟨?_, ?_, ?_, ?_⟩
    · intro hvert
      rw [if_pos hvert]
    · intro hnv hhor
      rw [if_neg hnv, if_pos hhor]
    · intro hnv hnh hagree
      rw [if_neg hnv, if_neg hnh, if_pos hagree]
    · intro hnv hnh hdis
      have hnagree : ¬ ((((dx.getD idx 0 : ℤ) : ℝ) > 0 ∧ ((dy.getD idx 0 : ℤ) : ℝ) > 0) ∨
          (((dx.getD idx 0 : ℤ) : ℝ) < 0 ∧ ((dy.getD idx 0 : ℤ) : ℝ) < 0)) := by
        rcases hdis with ⟨h1, h2⟩ | ⟨h1, h2⟩ <;> rintro (⟨h3, h4⟩ | ⟨h3, h4⟩) <;> linarith
      rw [if_neg hnv, if_neg hnh, if_neg hnagree]

/-- Witness for C7: border pixel of a 3-by-3 field is 0, and an interior pixel
with zero magnitude is 0. -/
theorem nms_output_characterization_witness :
    (non_maximum_suppression [0, 0, 0, 0, 0, 0, 0, 0, 0] [0, 0, 0, 0, 0, 0, 0, 0, 0]
        3 3 false).getD 0 0 = 0 ∧
      (non_maximum_suppression [0, 0, 0, 0, 0, 0, 0, 0, 0] [0, 0, 0, 0, 0, 0, 0, 0, 0]
        3 3 false).getD 4 0 = 0 := by
  constructor
  · exact (nms_output_characterization [0, 0, 0, 0, 0, 0, 0, 0, 0]
      [0, 0, 0, 0, 0, 0, 0, 0, 0] 3 3 false 0).1 (by decide)
  · refine ((nms_output_characterization [0, 0, 0, 0, 0, 0, 0, 0, 0]
      [0, 0, 0, 0, 0, 0, 0, 0, 0] 3 3 false 4).2 (by decide)).1 ?_
    rw [calculate_magnitude,
      writeAll_map_getD_mem _ _ _ (List.nodup_range _) _ (by decide) (by decide) 0]
    simp [calcMagVal]

theorem nmsVal_eval_diag_agree (m : List ℝ) (dx dy : List ℤ) (w idx : ℕ)
    (mag gx gy n1 n2 : ℝ)
    (hmag : m.getD idx 0 = mag) (hmagne : mag ≠ 0)
    (hgx : ((dx.getD idx 0 : ℤ) : ℝ) = gx) (hgy : ((dy.getD idx 0 : ℤ) : ℝ) = gy)
    (hnv : ¬ (|gy| > |gx| * 2.4142)) (hnh : ¬ (|gx| > |gy| * 2.4142))
    (hagr : (gx > 0 ∧ gy > 0) ∨ (gx < 0 ∧ gy < 0))
    (hn1 : m.getD (idx - w + 1) 0 = n1) (hn2 : m.getD (idx + w - 1) 0 = n2)
    (hge : mag ≥ n1 ∧ mag ≥ n2) :
    nmsVal m dx dy w idx = mag := by
  simp only [nmsVal, hmag, hgx, hgy, hn1, hn2]
  rw [if_neg hmagne, if_neg hnv, if_neg hnh, if_pos hagr]
  exact if_pos hge

/-- C1 (counterexample evaluation): with the L2 flag, the suppressed field
handed to hysteresis holds `sqrt(dx²+dy²)`, not the squared magnitude
`dx²+dy²`: for the gradient `(3,4)` at the center of a 3-by-3 field the
suppressed value is `5` while the orchestrator squares the thresholds, so a
threshold equal to the true magnitude (`5`) becomes `25` and rejects the
pixel. -/
theorem nms_l2_field_is_sqrt_not_squared :
    (non_maximum_suppression [0, 0, 0, 0, 3, 0, 0, 0, 0] [0, 0, 0, 0, 4, 0, 0, 0, 0]
        3 3 true).getD 4 0 = 5 ∧
      ((3 : ℝ) * 3 + 4 * 4 = 25) ∧ ((5 : ℝ) ≠ 25) ∧
      squaredThreshold true 5 = 25 ∧ ¬ ((5 : ℝ) ≥ 25) := by
  have hmagval : ∀ i : ℕ, i < 9 →
      (calculate_magnitude [0, 0, 0, 0, 3, 0, 0, 0, 0] [0, 0, 0, 0, 4, 0, 0, 0, 0]
        true (3 * 3)).getD i 0 =
      calcMagVal [0, 0, 0, 0, 3, 0, 0, 0, 0] [0, 0, 0, 0, 4, 0, 0, 0, 0] true i := by
    intro i hi
    rw [calculate_magnitude]
    exact writeAll_map_getD_mem _ _ _ (List.nodup_range _) _
      (by simpa using hi) (by simpa using hi) 0
  have hmag4 : (calculate_magnitude [0, 0, 0, 0, 3, 0, 0, 0, 0] [0, 0, 0, 0, 4, 0, 0, 0, 0]
      true (3 * 3)).getD 4 0 = 5 := by
    rw [hmagval 4 (by norm_num)]
    simp only [calcMagVal]
    norm_num
    rw [show (25 : ℝ) = 5 ^ 2 by norm_num, Real.sqrt_sq (by norm_num : (0 : ℝ) ≤ 5)]
  have hmag2 : (calculate_magnitude [0, 0, 0, 0, 3, 0, 0, 0, 0] [0, 0, 0, 0, 4, 0, 0, 0, 0]
      true (3 * 3)).getD 2 0 = 0 := by
    rw [hmagval 2 (by norm_num)]
    simp [calcMagVal]
  have hmag6 : (calculate_magnitude [0, 0, 0, 0, 3, 0, 0, 0, 0] [0, 0, 0, 0, 4, 0, 0, 0, 0]
      true (3 * 3)).getD 6 0 = 0 := by
    rw [hmagval 6 (by norm_num)]
    simp [calcMagVal]
  refine ⟨?_, by norm_num, by norm_num, by norm_num [squaredThreshold], by norm_num⟩
  rw [nms_getD_interior _ _ _ _ _ _ (by decide)]
  refine nmsVal_eval_diag_agree _ _ _ _ _ 5 3 4 0 0 hmag4 (by norm_num) ?_ ?_ ?_ ?_
    (Or.inl ⟨by norm_num, by norm_num⟩) hmag2 hmag6 ⟨by norm_num, by norm_num⟩
  · rw [show ([0, 0, 0, 0, 3, 0, 0, 0, 0] : List ℤ).getD 4 0 = 3 from rfl]
    norm_num
  · rw [show ([0, 0, 0, 0, 4, 0, 0, 0, 0] : List ℤ).getD 4 0 = 4 from rfl]
    norm_num
  · rw [abs_of_nonneg (by norm_num : (0 : ℝ) ≤ 4), abs_of_nonneg (by norm_num : (0 : ℝ) ≤ 3)]
    norm_num
  · rw [abs_of_nonneg (by norm_num : (0 : ℝ) ≤ 4), abs_of_nonneg (by norm_num : (0 : ℝ) ≤ 3)]
    norm_num

/-! ### Hysteresis thresholding (`hysteresis.rs`)

Edge-map encoding of `hysteresis.rs`: `0` = weak (potential), `1` = non-edge,
`2` = strong. The suppressed field is a list over any linearly ordered type
with a zero (the growth and classification code only compares magnitudes);
`f32` fields embed into `ℝ` (or `ℚ`).

The growth loop is embedded with explicit fuel: the callers supply
`2 * (weak count) + (stack length) + 1`, which `growFuel_stack_empty` proves
is enough for the loop to reach the empty stack, mirroring the source's
unconditionally terminating `while let Some(..) = stack.pop()`. The `pops`
and `trace` fields and the `bin` buffer of the map-only variant are proof
instrumentation: `pops` counts loop iterations, `trace` records every pushed
coordinate (it starts as the seed stack), and the map-only
`hysteresis_thresholding` simply never reads `bin`. -/

theorem count_zero_set_nonzero_le (m : List ℕ) (i v : ℕ) (hv : v ≠ 0) :
    (m.set i v).count 0 ≤ m.count 0 := by
  induction m generalizing i with
  | nil => simp
  | cons a as ih =>
    cases i with
    | zero =>
      simp only [List.set_cons_zero, List.count_cons]
      have := ih 0
      have hva : (if v = 0 then 1 else 0) ≤ (if a = 0 then 1 else 0) + 1 := by
        split <;> omega
      simp only [beq_iff_eq]
      split <;> split <;> omega
    | succ j =>
      simp only [List.set_cons_succ, List.count_cons]
      have := ih j
      omega

theorem count_zero_set_le (m : List ℕ) (i v : ℕ) :
    (m.set i v).count 0 ≤ m.count 0 + 1 := by
  induction m generalizing i with
  | nil => simp
  | cons a as ih =>
    cases i with
    | zero =>
      simp only [List.set_cons_zero, List.count_cons, beq_iff_eq]
      split <;> split <;> omega
    | succ j =>
      simp only [List.set_cons_succ, List.count_cons]
      have := ih j
      omega

theorem count_zero_set_promote (m : List ℕ) (i : ℕ) (hi : i < m.length)
    (h0 : m.getD i 1 = 0) : m.count 0 = (m.set i 2).count 0 + 1 := by
  induction m generalizing i with
  | nil => simp at hi
  | cons a as ih =>
    cases i with
    | zero =>
      have ha : a = 0 := by simpa using h0
      subst ha
      simp [List.count_cons]
    | succ j =>
      have hj : j < as.length := by simpa using hi
      have h0' : as.getD j 1 = 0 := by simpa using h0
      simp only [List.set_cons_succ, List.count_cons]
      have := ih j hj h0'
      omega

theorem getD_irrel {α : Type} (l : List α) (i : ℕ) (d1 d2 : α) (h : i < l.length) :
    l.getD i d1 = l.getD i d2 := by
  rw [List.getD_eq_getElem _ _ h, List.getD_eq_getElem _ _ h]

theorem pnStep_eq_or (w c : ℕ) (st : List ℕ × List ℕ × List (ℕ × ℕ)) (off : ℤ) :
    pnStep w c st off = st ∨
    (∃ n, n = toUsize (toIsize c + off) ∧ n < st.1.length ∧ st.1.getD n 1 = 0 ∧
      pnStep w c st off = (st.1.set n 2, st.2.1.set n 255, (n % w, n / w) :: st.2.2)) := by
  by_cases hc : toUsize (toIsize c + off) < st.1.length ∧
      st.1.getD (toUsize (toIsize c + off)) 1 = 0
  · right
    refine ⟨_, rfl, hc.1, hc.2, ?_⟩
    simp only [pnStep]
    rw [if_pos hc]
  · left
    simp only [pnStep]
    rw [if_neg hc]

theorem pnFold_count (w c : ℕ) (offs : List ℤ) (st : List ℕ × List ℕ × List (ℕ × ℕ)) :
    (offs.foldl (pnStep w c) st).1.count 0 + (offs.foldl (pnStep w c) st).2.2.length =
      st.1.count 0 + st.2.2.length ∧
    (offs.foldl (pnStep w c) st).1.length = st.1.length ∧
    (offs.foldl (pnStep w c) st).2.1.length = st.2.1.length := by
  induction offs generalizing st with
  | nil => exact ⟨rfl, rfl, rfl⟩
  | cons o os ih =>
    rcases pnStep_eq_or w c st o with he | ⟨n, hn, hlt, h0, he⟩
    · rw [List.foldl_cons, he]
      exact ih st
    · rw [List.foldl_cons, he]
      obtain ⟨ih1, ih2, ih3⟩ := ih (st.1.set n 2, st.2.1.set n 255, (n % w, n / w) :: st.2.2)
      have hcount := count_zero_set_promote st.1 n hlt h0
      simp only [List.length_cons, List.length_set] at ih1 ih2 ih3
      exact ⟨by omega, ih2, ih3⟩

theorem pnFold_map_evolve (w c : ℕ) (offs : List ℤ) (st : List ℕ × List ℕ × List (ℕ × ℕ))
    (i d : ℕ) :
    (offs.foldl (pnStep w c) st).1.getD i d = st.1.getD i d ∨
    ((offs.foldl (pnStep w c) st).1.getD i d = 2 ∧ st.1.getD i d = 0) := by
  induction offs generalizing st with
  | nil => left; rfl
  | cons o os ih =>
    rcases pnStep_eq_or w c st o with he | ⟨n, hn, hlt, h0, he⟩
    · rw [List.foldl_cons, he]
      exact ih st
    · rw [List.foldl_cons, he]
      rcases ih (st.1.set n 2, st.2.1.set n 255, (n % w, n / w) :: st.2.2) with h | ⟨h2, h0'⟩
      · simp only at h
        by_cases hni : n = i
        · subst hni
          right
          refine ⟨?_, ?_⟩
          · rw [h, getD_set_self _ _ _ _ hlt]
          · rw [getD_irrel _ _ _ 1 hlt]
            exact h0
        · left
          rw [h, getD_set_of_ne _ _ _ _ _ hni]
      · simp only at h2 h0'
        by_cases hni : n = i
        · subst hni
          rw [getD_set_self _ _ _ _ hlt] at h0'
          cases h0'
        · right
          rw [getD_set_of_ne _ _ _ _ _ hni] at h0'
          exact ⟨h2, h0'⟩

theorem pnFold_push_mem (w c : ℕ) (offs : List ℤ) (st : List ℕ × List ℕ × List (ℕ × ℕ))
    (p : ℕ × ℕ) (hp : p ∈ (offs.foldl (pnStep w c) st).2.2) :
    p ∈ st.2.2 ∨ ∃ off ∈ offs, ∃ n, n = toUsize (toIsize c + off) ∧
      p = (n % w, n / w) ∧ n < st.1.length ∧ st.1.getD n 1 = 0 := by
  induction offs generalizing st with
  | nil => left; exact hp
  | cons o os ih =>
    rw [List.foldl_cons] at hp
    rcases pnStep_eq_or w c st o with he | ⟨n, hn, hlt, h0, he⟩
    · rw [he] at hp
      rcases ih st hp with h | ⟨off, hoff, n, hne, hpe, hlt', h0'⟩
      · left; exact h
      · right
        exact ⟨off, List.mem_cons_of_mem _ hoff, n, hne, hpe, hlt', h0'⟩
    · rw [he] at hp
      rcases ih (st.1.set n 2, st.2.1.set n 255, (n % w, n / w) :: st.2.2) hp with
        h | ⟨off, hoff, n', hne, hpe, hlt', h0'⟩
      · simp only at h
        rcases List.mem_cons.mp h with rfl | hmem
        · right
          exact ⟨o, List.mem_cons_self _ _, n, hn, rfl, hlt, h0⟩
        · left; exact hmem
      · simp only [List.length_set] at hlt'
        have hnn : n ≠ n' := by
          intro hcontra
          subst hcontra
          rw [getD_set_self _ _ _ _ hlt] at h0'
          cases h0'
        rw [getD_set_of_ne _ _ _ _ _ hnn] at h0'
        right
        exact ⟨off, List.mem_cons_of_mem _ hoff, n', hne, hpe, hlt', h0'⟩

theorem pnFold_no_weak_neighbor (w c : ℕ) (offs : List ℤ)
    (st : List ℕ × List ℕ × List (ℕ × ℕ)) (off' : ℤ) (hmem : off' ∈ offs) :
    (offs.foldl (pnStep w c) st).1.getD (toUsize (toIsize c + off')) 1 ≠ 0 := by
  induction offs generalizing st with
  | nil => cases hmem
  | cons o os ih =>
    rcases List.mem_cons.mp hmem with rfl | hmem'
    · rw [List.foldl_cons]
      by_cases hc : toUsize (toIsize c + off') < st.1.length ∧
          st.1.getD (toUsize (toIsize c + off')) 1 = 0
      · -- this neighbor is promoted right now; the mark 2 can only stay 2
        rw [show pnStep w c st off' = (st.1.set (toUsize (toIsize c + off')) 2,
            st.2.1.set (toUsize (toIsize c + off')) 255,
            ((toUsize (toIsize c + off')) % w, (toUsize (toIsize c + off')) / w) :: st.2.2) by
          simp only [pnStep]
          rw [if_pos hc]]
        intro hfold
        rcases pnFold_map_evolve w c os (st.1.set (toUsize (toIsize c + off')) 2,
            st.2.1.set (toUsize (toIsize c + off')) 255,
            ((toUsize (toIsize c + off')) % w, (toUsize (toIsize c + off')) / w) :: st.2.2)
            (toUsize (toIsize c + off')) 1 with hsame | ⟨_, h0s⟩
        · rw [hsame] at hfold
          simp only at hfold
          rw [getD_set_self _ _ _ _ hc.1] at hfold
          cases hfold
        · simp only at h0s
          rw [getD_set_self _ _ _ _ hc.1] at h0s
          cases h0s
      · -- out of bounds (default 1) or not weak; neither can become weak later
        rw [show pnStep w c st off' = st by
          simp only [pnStep]
          rw [if_neg hc]]
        intro hfold
        rcases not_and_or.mp hc with hb | hw'
        · rcases pnFold_map_evolve w c os st (toUsize (toIsize c + off')) 1 with
            hsame | ⟨_, h0s⟩
          · rw [hsame] at hfold
            rw [List.getD_eq_default _ _ (by simpa using Nat.le_of_not_lt hb)] at hfold
            cases hfold
          · rw [List.getD_eq_default _ _ (by simpa using Nat.le_of_not_lt hb)] at h0s
            cases h0s
        · rcases pnFold_map_evolve w c os st (toUsize (toIsize c + off')) 1 with
            hsame | ⟨_, h0s⟩
          · rw [hsame] at hfold
            exact hw' hfold
          · exact hw' h0s
    · rw [List.foldl_cons]
      exact ih (pnStep w c st o) hmem'

theorem pnFold_lockstep (w c : ℕ) (offs : List ℤ) (st : List ℕ × List ℕ × List (ℕ × ℕ))
    (hlen : st.2.1.length = st.1.length)
    (hlk : ∀ i, st.2.1.getD i 0 = 255 ↔ st.1.getD i 1 = 2) :
    ((offs.foldl (pnStep w c) st).2.1.length = (offs.foldl (pnStep w c) st).1.length) ∧
    ∀ i, (offs.foldl (pnStep w c) st).2.1.getD i 0 = 255 ↔
      (offs.foldl (pnStep w c) st).1.getD i 1 = 2 := by
  induction offs generalizing st with
  | nil => exact ⟨hlen, hlk⟩
  | cons o os ih =>
    rw [List.foldl_cons]
    rcases pnStep_eq_or w c st o with he | ⟨n, hn, hlt, h0, he⟩
    · rw [he]
      exact ih st hlen hlk
    · rw [he]
      refine ih _ (by simp [hlen]) ?_
      intro i
      simp only
      by_cases hni : n = i
      · subst hni
        rw [getD_set_self _ _ _ _ hlt, getD_set_self _ _ _ _ (by omega : n < st.2.1.length)]
        simp
      · rw [getD_set_of_ne _ _ _ _ _ hni, getD_set_of_ne _ _ _ _ _ hni]
        exact hlk i

theorem growFuel_zero (w : ℕ) (st : GrowState) : growFuel w 0 st = st := rfl

theorem growFuel_succ_nil (w fuel : ℕ) (st : GrowState) (hstack : st.stack = []) :
    growFuel w (fuel + 1) st = st := by
  rw [growFuel, hstack]

theorem growFuel_succ_cons (w fuel : ℕ) (st : GrowState) (x y : ℕ) (rest : List (ℕ × ℕ))
    (hstack : st.stack = (x, y) :: rest) :
    growFuel w (fuel + 1) st = growFuel w fuel (growStep w st x y rest) := by
  rw [growFuel, hstack]

theorem growFuel_preserve (w : ℕ) (P : GrowState → Prop)
    (hstep : ∀ st x y rest, st.stack = (x, y) :: rest → P st → P (growStep w st x y rest)) :
    ∀ fuel st, P st → P (growFuel w fuel st) := by
  intro fuel
  induction fuel with
  | zero => exact fun st h => h
  | succ fuel ih =>
    intro st h
    rcases hstack : st.stack with _ | ⟨⟨x, y⟩, rest⟩
    · rw [growFuel_succ_nil w fuel st hstack]
      exact h
    · rw [growFuel_succ_cons w fuel st x y rest hstack]
      exact ih _ (hstep st x y rest hstack h)

theorem pn_count (w c : ℕ) (m b : List ℕ) :
    (processNeighbors w c m b).1.count 0 + (processNeighbors w c m b).2.2.length =
      m.count 0 ∧
    (processNeighbors w c m b).1.length = m.length ∧
    (processNeighbors w c m b).2.1.length = b.length := by
  obtain ⟨h1, h2, h3⟩ := pnFold_count w c (neighborOffsets w) (m, b, [])
  simp only [List.length_nil] at h1
  rw [processNeighbors]
  exact ⟨h1, h2, h3⟩

theorem growStep_fields (w : ℕ) (st : GrowState) (x y : ℕ) (rest : List (ℕ × ℕ)) :
    (growStep w st x y rest).map = (processNeighbors w (y * w + x) st.map st.bin).1 ∧
    (growStep w st x y rest).bin = (processNeighbors w (y * w + x) st.map st.bin).2.1 ∧
    (growStep w st x y rest).stack =
      (processNeighbors w (y * w + x) st.map st.bin).2.2 ++ rest ∧
    (growStep w st x y rest).pops = st.pops + 1 ∧
    (growStep w st x y rest).trace =
      (processNeighbors w (y * w + x) st.map st.bin).2.2 ++ st.trace := by
  simp only [growStep, processNeighbors]
  exact ⟨trivial, trivial, trivial, trivial, trivial⟩

theorem pn_map_evolve (w c : ℕ) (m b : List ℕ) (i d : ℕ) :
    (processNeighbors w c m b).1.getD i d = m.getD i d ∨
    ((processNeighbors w c m b).1.getD i d = 2 ∧ m.getD i d = 0) := by
  rw [processNeighbors]
  exact pnFold_map_evolve w c (neighborOffsets w) (m, b, []) i d

theorem pn_lockstep (w c : ℕ) (m b : List ℕ) (hlen : b.length = m.length)
    (hlk : ∀ i, b.getD i 0 = 255 ↔ m.getD i 1 = 2) :
    (processNeighbors w c m b).2.1.length = (processNeighbors w c m b).1.length ∧
    ∀ i, (processNeighbors w c m b).2.1.getD i 0 = 255 ↔
      (processNeighbors w c m b).1.getD i 1 = 2 := by
  rw [processNeighbors]
  exact pnFold_lockstep w c (neighborOffsets w) (m, b, []) hlen hlk

theorem growStep_measure (w : ℕ) (st : GrowState) (x y : ℕ) (rest : List (ℕ × ℕ))
    (hstack : st.stack = (x, y) :: rest) :
    2 * (growStep w st x y rest).map.count 0 + (growStep w st x y rest).stack.length <
      2 * st.map.count 0 + st.stack.length ∧
    (growStep w st x y rest).map.length = st.map.length ∧
    (growStep w st x y rest).bin.length = st.bin.length := by
  obtain ⟨hm, hb, hs, hp, ht⟩ := growStep_fields w st x y rest
  obtain ⟨h1, h2, h3⟩ := pn_count w (y * w + x) st.map st.bin
  rw [hm, hb, hs, hstack]
  simp only [List.length_append, List.length_cons]
  exact ⟨by omega, h2, h3⟩

theorem growFuel_stack_empty (w : ℕ) :
    ∀ fuel st, 2 * st.map.count 0 + st.stack.length < fuel →
      (growFuel w fuel st).stack = [] := by
  intro fuel
  induction fuel with
  | zero => intro st h; omega
  | succ fuel ih =>
    intro st h
    rcases hstack : st.stack with _ | ⟨⟨x, y⟩, rest⟩
    · rw [growFuel_succ_nil w fuel st hstack]
      exact hstack
    · rw [growFuel_succ_cons w fuel st x y rest hstack]
      refine ih _ ?_
      have := (growStep_measure w st x y rest hstack).1
      omega

theorem growFuel_pops (w : ℕ) :
    ∀ fuel st, (growFuel w fuel st).pops ≤ st.pops + st.stack.length + st.map.count 0 := by
  intro fuel
  induction fuel with
  | zero =>
    intro st
    rw [growFuel_zero]
    omega
  | succ fuel ih =>
    intro st
    rcases hstack : st.stack with _ | ⟨⟨x, y⟩, rest⟩
    · rw [growFuel_succ_nil w fuel st hstack]
      omega
    · rw [growFuel_succ_cons w fuel st x y rest hstack]
      obtain ⟨hm, hb, hs, hp, ht⟩ := growStep_fields w st x y rest
      obtain ⟨h1, h2, h3⟩ := pn_count w (y * w + x) st.map st.bin
      have hih := ih (growStep w st x y rest)
      rw [hm, hs, hp] at hih
      simp only [List.length_append, List.length_cons] at hih ⊢
      omega

theorem growFuel_map_length (w : ℕ) :
    ∀ fuel st, (growFuel w fuel st).map.length = st.map.length := by
  intro fuel
  induction fuel with
  | zero => intro st; rw [growFuel_zero]
  | succ fuel ih =>
    intro st
    rcases hstack : st.stack with _ | ⟨⟨x, y⟩, rest⟩
    · rw [growFuel_succ_nil w fuel st hstack]
    · rw [growFuel_succ_cons w fuel st x y rest hstack]
      exact (ih (growStep w st x y rest)).trans (growStep_measure w st x y rest hstack).2.1

theorem growFuel_map_evolve (w : ℕ) :
    ∀ fuel st i d, (growFuel w fuel st).map.getD i d = st.map.getD i d ∨
      ((growFuel w fuel st).map.getD i d = 2 ∧ st.map.getD i d = 0) := by
  intro fuel
  induction fuel with
  | zero =>
    intro st i d
    rw [growFuel_zero]
    left
    rfl
  | succ fuel ih =>
    intro st i d
    rcases hstack : st.stack with _ | ⟨⟨x, y⟩, rest⟩
    · rw [growFuel_succ_nil w fuel st hstack]
      left
      rfl
    · rw [growFuel_succ_cons w fuel st x y rest hstack]
      have hone := pn_map_evolve w (y * w + x) st.map st.bin i d
      obtain ⟨hm, hb, hs, hp, ht⟩ := growStep_fields w st x y rest
      have hrest := ih (growStep w st x y rest) i d
      rw [hm] at hrest
      rcases hrest with hr | ⟨hr2, hr0⟩ <;> rcases hone with ho | ⟨ho2, ho0⟩
      · left
        rw [hr, ho]
      · right
        rw [hr]
        exact ⟨ho2, ho0⟩
      · right
        refine ⟨hr2, ?_⟩
        rw [← ho]
        exact hr0
      · exfalso
        rw [hr0] at ho2
        cases ho2
  -- in the third case the one-step value is unchanged, so the weak mark was
  -- already present before the step

theorem growFuel_two_persists (w : ℕ) (fuel : ℕ) (st : GrowState) (i d : ℕ)
    (h2 : st.map.getD i d = 2) : (growFuel w fuel st).map.getD i d = 2 := by
  rcases growFuel_map_evolve w fuel st i d with h | ⟨hf, h0⟩
  · rw [h, h2]
  · exact hf

theorem growFuel_lockstep (w : ℕ) :
    ∀ fuel st, st.bin.length = st.map.length →
      (∀ i, st.bin.getD i 0 = 255 ↔ st.map.getD i 1 = 2) →
      ((growFuel w fuel st).bin.length = (growFuel w fuel st).map.length ∧
        ∀ i, (growFuel w fuel st).bin.getD i 0 = 255 ↔ (growFuel w fuel st).map.getD i 1 = 2) := by
  intro fuel
  induction fuel with
  | zero =>
    intro st hl hk
    rw [growFuel_zero]
    exact ⟨hl, hk⟩
  | succ fuel ih =>
    intro st hl hk
    rcases hstack : st.stack with _ | ⟨⟨x, y⟩, rest⟩
    · rw [growFuel_succ_nil w fuel st hstack]
      exact ⟨hl, hk⟩
    · rw [growFuel_succ_cons w fuel st x y rest hstack]
      have hone := pn_lockstep w (y * w + x) st.map st.bin hl hk
      obtain ⟨hm, hb, hs, hp, ht⟩ := growStep_fields w st x y rest
      refine ih (growStep w st x y rest) ?_ ?_
      · rw [hm, hb]
        exact hone.1
      · simp only [hm, hb]
        exact hone.2

theorem foldl_flatMap {α β γ : Type} (l : List α) (g : α → List β) (f : γ → β → γ)
    (init : γ) :
    (l.flatMap g).foldl f init = l.foldl (fun st y => (g y).foldl f st) init := by
  induction l generalizing init with
  | nil => rfl
  | cons a as ih => rw [List.flatMap_cons, List.foldl_append, List.foldl_cons, ih]

theorem classify_pair_of_triple {α : Type} [LinearOrder α] [Zero α] (s : List α)
    (low high : α) (w : ℕ) (L : List ℕ) :
    ∀ (m b : List ℕ) (stk : List (ℕ × ℕ)),
      L.foldl (classifyPairStep s low high w) (m, stk) =
        ((L.foldl (classifyStep s low high w) (m, b, stk)).1,
          (L.foldl (classifyStep s low high w) (m, b, stk)).2.2) := by
  induction L with
  | nil => intro m b stk; rfl
  | cons i L ih =>
    intro m b stk
    rw [List.foldl_cons, List.foldl_cons]
    by_cases hhi : s.getD i 0 ≥ high
    · rw [show classifyPairStep s low high w (m, stk) i =
          (m.set i 2, (i % w, i / w) :: stk) by
        simp only [classifyPairStep]
        rw [if_pos hhi]]
      rw [show classifyStep s low high w (m, b, stk) i =
          (m.set i 2, b.set i 255, (i % w, i / w) :: stk) by
        simp only [classifyStep]
        rw [if_pos hhi]]
      exact ih _ _ _
    · by_cases hlo : s.getD i 0 ≥ low
      · rw [show classifyPairStep s low high w (m, stk) i = (m.set i 0, stk) by
          simp only [classifyPairStep]
          rw [if_neg hhi, if_pos hlo]]
        rw [show classifyStep s low high w (m, b, stk) i = (m.set i 0, b, stk) by
          simp only [classifyStep]
          rw [if_neg hhi, if_pos hlo]]
        exact ih _ _ _
      · rw [show classifyPairStep s low high w (m, stk) i = (m, stk) by
          simp only [classifyPairStep]
          rw [if_neg hhi, if_neg hlo]]
        rw [show classifyStep s low high w (m, b, stk) i = (m, b, stk) by
          simp only [classifyStep]
          rw [if_neg hhi, if_neg hlo]]
        exact ih _ _ _

theorem htBClassify_eq_canonical {α : Type} [LinearOrder α] [Zero α] (s : List α)
    (low high : α) (w h : ℕ) :
    htBClassify s low high w h =
      classifyTriple s low high w h (List.replicate (w * h) 1) (List.replicate (w * h) 0) := by
  rw [htBClassify, classifyTriple, interiorList, foldl_flatMap]
  apply List.foldl_ext
  intro st y hy
  rw [List.foldl_map]
  apply List.foldl_ext
  intro st2 x hx
  rw [List.mem_range'_1] at hx
  have hxw : x < w := by omega
  simp only [classifyStep]
  rw [coord_mod hxw, coord_div hxw]

theorem htClassify_row {α : Type} [LinearOrder α] [Zero α] (s : List α)
    (low high : α) (w : ℕ) (y : ℕ) (st : List ℕ × List (ℕ × ℕ)) :
    (chunkedRange (w - 2) 4).foldl
      (fun st2 (i : ℕ) =>
        if s.getD (y * w + 1 + i) 0 ≥ high then
          (st2.1.set (y * w + 1 + i) 2, (1 + i, y) :: st2.2)
        else if s.getD (y * w + 1 + i) 0 ≥ low then
          (st2.1.set (y * w + 1 + i) 0, st2.2)
        else st2) st =
    ((List.range' 1 (w - 2)).map (fun x => y * w + x)).foldl
      (classifyPairStep s low high w) st := by
  rw [chunkedRange_eq_range, List.range'_eq_map_range, List.map_map, List.foldl_map]
  apply List.foldl_ext
  intro st2 i hi
  rw [List.mem_range] at hi
  have hxw : 1 + i < w := by omega
  have hidx : y * w + 1 + i = y * w + (1 + i) := by omega
  simp only [Function.comp, classifyPairStep]
  rw [hidx, coord_mod hxw, coord_div hxw]

theorem htClassify_eq_canonical {α : Type} [LinearOrder α] [Zero α] (s : List α)
    (low high : α) (w h : ℕ) :
    htClassify s low high w h =
      ((classifyTriple s low high w h (List.replicate (w * h) 1)
          (List.replicate (w * h) 0)).1,
        (classifyTriple s low high w h (List.replicate (w * h) 1)
          (List.replicate (w * h) 0)).2.2) := by
  have h1 : htClassify s low high w h =
      (interiorList w h).foldl (classifyPairStep s low high w)
        (List.replicate (w * h) 1, []) := by
    rw [htClassify, interiorList, foldl_flatMap]
    apply List.foldl_ext
    intro st y hy
    exact htClassify_row s low high w y st
  rw [h1, classifyTriple]
  exact classify_pair_of_triple s low high w (interiorList w h)
    (List.replicate (w * h) 1) (List.replicate (w * h) 0) []

theorem classifyStep_eq {α : Type} [LinearOrder α] [Zero α] (s : List α) (low high : α)
    (w : ℕ) (st : List ℕ × List ℕ × List (ℕ × ℕ)) (idx : ℕ) :
    (s.getD idx 0 ≥ high ∧ classifyStep s low high w st idx =
      (st.1.set idx 2, st.2.1.set idx 255, (idx % w, idx / w) :: st.2.2)) ∨
    (¬ (s.getD idx 0 ≥ high) ∧ s.getD idx 0 ≥ low ∧ classifyStep s low high w st idx =
      (st.1.set idx 0, st.2.1, st.2.2)) ∨
    (¬ (s.getD idx 0 ≥ high) ∧ ¬ (s.getD idx 0 ≥ low) ∧
      classifyStep s low high w st idx = st) := by
  by_cases hhi : s.getD idx 0 ≥ high
  · left
    refine ⟨hhi, ?_⟩
    simp only [classifyStep]
    rw [if_pos hhi]
  · by_cases hlo : s.getD idx 0 ≥ low
    · right; left
      refine ⟨hhi, hlo, ?_⟩
      simp only [classifyStep]
      rw [if_neg hhi, if_pos hlo]
    · right; right
      refine ⟨hhi, hlo, ?_⟩
      simp only [classifyStep]
      rw [if_neg hhi, if_neg hlo]

theorem classifyFold_len {α : Type} [LinearOrder α] [Zero α] (s : List α) (low high : α)
    (w : ℕ) (L : List ℕ) :
    ∀ m b stk, (L.foldl (classifyStep s low high w) (m, b, stk)).1.length = m.length ∧
      (L.foldl (classifyStep s low high w) (m, b, stk)).2.1.length = b.length := by
  induction L with
  | nil => exact fun m b stk => ⟨rfl, rfl⟩
  | cons i L ih =>
    intro m b stk
    rw [List.foldl_cons]
    rcases classifyStep_eq s low high w (m, b, stk) i with ⟨_, he⟩ | ⟨_, _, he⟩ |
      ⟨_, _, he⟩ <;> rw [he]
    · obtain ⟨ih1, ih2⟩ := ih (m.set i 2) (b.set i 255) ((i % w, i / w) :: stk)
      rw [ih1, ih2, List.length_set, List.length_set]
      exact ⟨rfl, rfl⟩
    · obtain ⟨ih1, ih2⟩ := ih (m.set i 0) b stk
      rw [ih1, ih2, List.length_set]
      exact ⟨rfl, rfl⟩
    · exact ih m b stk

theorem classifyFold_getD_not_mem {α : Type} [LinearOrder α] [Zero α] (s : List α)
    (low high : α) (w : ℕ) (L : List ℕ) :
    ∀ m b stk j dm db, j ∉ L →
      ((L.foldl (classifyStep s low high w) (m, b, stk)).1.getD j dm = m.getD j dm ∧
        (L.foldl (classifyStep s low high w) (m, b, stk)).2.1.getD j db = b.getD j db) := by
  induction L with
  | nil => exact fun m b stk j dm db hj => ⟨rfl, rfl⟩
  | cons i L ih =>
    intro m b stk j dm db hj
    have hij : i ≠ j := fun hcontra => hj (hcontra ▸ List.mem_cons_self _ _)
    have hjL : j ∉ L := fun hcontra => hj (List.mem_cons_of_mem _ hcontra)
    rw [List.foldl_cons]
    rcases classifyStep_eq s low high w (m, b, stk) i with ⟨_, he⟩ | ⟨_, _, he⟩ |
      ⟨_, _, he⟩ <;> rw [he]
    · obtain ⟨ih1, ih2⟩ := ih (m.set i 2) (b.set i 255) ((i % w, i / w) :: stk) j dm db hjL
      rw [ih1, ih2, getD_set_of_ne _ _ _ _ _ hij, getD_set_of_ne _ _ _ _ _ hij]
      exact ⟨rfl, rfl⟩
    · obtain ⟨ih1, ih2⟩ := ih (m.set i 0) b stk j dm db hjL
      rw [ih1, ih2, getD_set_of_ne _ _ _ _ _ hij]
      exact ⟨rfl, rfl⟩
    · exact ih m b stk j dm db hjL

theorem classifyFold_getD_mem {α : Type} [LinearOrder α] [Zero α] (s : List α)
    (low high : α) (w : ℕ) (L : List ℕ) (hnd : L.Nodup) :
    ∀ m b stk j, j ∈ L → j < m.length → j < b.length →
      ((L.foldl (classifyStep s low high w) (m, b, stk)).1.getD j 1 =
        (if s.getD j 0 ≥ high then 2 else if s.getD j 0 ≥ low then 0 else m.getD j 1) ∧
       (L.foldl (classifyStep s low high w) (m, b, stk)).2.1.getD j 0 =
        (if s.getD j 0 ≥ high then 255 else b.getD j 0)) := by
  induction L with
  | nil => intro m b stk j hj; cases hj
  | cons i L ih =>
    intro m b stk j hj hm hb
    obtain ⟨hni, hndL⟩ := List.nodup_cons.mp hnd
    rw [List.foldl_cons]
    rcases List.mem_cons.mp hj with rfl | hmem
    · -- the head is exactly j; the tail never touches it again
      rcases classifyStep_eq s low high w (m, b, stk) j with ⟨hhi, he⟩ | ⟨hhi, hlo, he⟩ |
        ⟨hhi, hlo, he⟩ <;> rw [he]
      · obtain ⟨hrest1, hrest2⟩ := classifyFold_getD_not_mem s low high w L
          (m.set j 2) (b.set j 255) ((j % w, j / w) :: stk) j 1 0 hni
        rw [hrest1, hrest2, getD_set_self _ _ _ _ hm, getD_set_self _ _ _ _ hb,
          if_pos hhi, if_pos hhi]
        exact ⟨rfl, rfl⟩
      · obtain ⟨hrest1, hrest2⟩ := classifyFold_getD_not_mem s low high w L
          (m.set j 0) b stk j 1 0 hni
        rw [hrest1, hrest2, getD_set_self _ _ _ _ hm, if_neg hhi, if_pos hlo, if_neg hhi]
        exact ⟨rfl, rfl⟩
      · obtain ⟨hrest1, hrest2⟩ := classifyFold_getD_not_mem s low high w L m b stk j 1 0 hni
        rw [hrest1, hrest2, if_neg hhi, if_neg hlo, if_neg hhi]
        exact ⟨rfl, rfl⟩
    · -- j sits further down the list; this step leaves it unchanged
      have hij : i ≠ j := fun hcontra => hni (hcontra ▸ hmem)
      rcases classifyStep_eq s low high w (m, b, stk) i with ⟨_, he⟩ | ⟨_, _, he⟩ |
        ⟨_, _, he⟩ <;> rw [he]
      · obtain ⟨ihm, ihb⟩ := ih hndL (m.set i 2) (b.set i 255) ((i % w, i / w) :: stk) j hmem
          (by simpa using hm) (by simpa using hb)
        rw [ihm, ihb, getD_set_of_ne _ _ _ _ _ hij, getD_set_of_ne _ _ _ _ _ hij]
        exact ⟨rfl, rfl⟩
      · obtain ⟨ihm, ihb⟩ := ih hndL (m.set i 0) b stk j hmem (by simpa using hm) hb
        rw [ihm, ihb, getD_set_of_ne _ _ _ _ _ hij]
        exact ⟨rfl, rfl⟩
      · exact ih hndL m b stk j hmem hm hb

theorem classifyFold_stack {α : Type} [LinearOrder α] [Zero α] (s : List α)
    (low high : α) (w : ℕ) (L : List ℕ) :
    ∀ m b stk, (L.foldl (classifyStep s low high w) (m, b, stk)).2.2 =
      ((L.filter (fun idx => decide (s.getD idx 0 ≥ high))).reverse.map
        (fun idx => (idx % w, idx / w))) ++ stk := by
  induction L with
  | nil => intro m b stk; rfl
  | cons i L ih =>
    intro m b stk
    rw [List.foldl_cons, List.filter_cons]
    rcases classifyStep_eq s low high w (m, b, stk) i with ⟨hhi, he⟩ | ⟨hhi, hlo, he⟩ |
      ⟨hhi, hlo, he⟩
    · rw [he, ih (m.set i 2) (b.set i 255) ((i % w, i / w) :: stk)]
      have hd : (decide (s.getD i 0 ≥ high)) = true := by simpa using hhi
      rw [hd, if_pos rfl]
      simp
    · rw [he, ih (m.set i 0) b stk]
      have hd : decide (s.getD i 0 ≥ high) = false := by
        simpa using hhi
      rw [hd]
      simp only [Bool.false_eq_true, if_false]
    · rw [he, ih m b stk]
      have hd : decide (s.getD i 0 ≥ high) = false := by
        simpa using hhi
      rw [hd]
      simp only [Bool.false_eq_true, if_false]

theorem classifyFold_count {α : Type} [LinearOrder α] [Zero α] (s : List α)
    (low high : α) (w : ℕ) (L : List ℕ) :
    ∀ m b stk, (L.foldl (classifyStep s low high w) (m, b, stk)).1.count 0 +
        (L.foldl (classifyStep s low high w) (m, b, stk)).2.2.length ≤
      m.count 0 + stk.length + L.length := by
  induction L with
  | nil => intro m b stk; simp
  | cons i L ih =>
    intro m b stk
    rw [List.foldl_cons]
    rcases classifyStep_eq s low high w (m, b, stk) i with ⟨_, he⟩ | ⟨_, _, he⟩ |
      ⟨_, _, he⟩ <;> rw [he] <;> simp only [List.length_cons]
    · have hih := ih (m.set i 2) (b.set i 255) ((i % w, i / w) :: stk)
      simp only [List.length_cons] at hih
      have := count_zero_set_nonzero_le m i 2 (by decide)
      omega
    · have hih := ih (m.set i 0) b stk
      have := count_zero_set_le m i 0
      omega
    · have hih := ih m b stk
      omega

theorem pn_push_mem (w c : ℕ) (m b : List ℕ) (p : ℕ × ℕ)
    (hp : p ∈ (processNeighbors w c m b).2.2) :
    ∃ off ∈ neighborOffsets w, ∃ n, n = toUsize (toIsize c + off) ∧
      p = (n % w, n / w) ∧ n < m.length ∧ m.getD n 1 = 0 := by
  rw [processNeighbors] at hp
  rcases pnFold_push_mem w c (neighborOffsets w) (m, b, []) p hp with h | h
  · cases h
  · exact h

theorem pn_no_weak (w c : ℕ) (m b : List ℕ) (off : ℤ) (hoff : off ∈ neighborOffsets w) :
    (processNeighbors w c m b).1.getD (toUsize (toIsize c + off)) 1 ≠ 0 := by
  rw [processNeighbors]
  exact pnFold_no_weak_neighbor w c (neighborOffsets w) (m, b, []) off hoff

theorem pnFold_push_persist (w c : ℕ) (offs : List ℤ) :
    ∀ (st : List ℕ × List ℕ × List (ℕ × ℕ)) (p : ℕ × ℕ), p ∈ st.2.2 →
      p ∈ (offs.foldl (pnStep w c) st).2.2 := by
  induction offs with
  | nil => exact fun st p hp => hp
  | cons o os ih =>
    intro st p hp
    rw [List.foldl_cons]
    rcases pnStep_eq_or w c st o with he | ⟨n, _, _, _, he⟩
    · rw [he]; exact ih st p hp
    · rw [he]
      exact ih _ p (List.mem_cons_of_mem _ hp)

theorem pnFold_changed (w c : ℕ) (offs : List ℤ) :
    ∀ (st : List ℕ × List ℕ × List (ℕ × ℕ)) (i : ℕ),
      (offs.foldl (pnStep w c) st).1.getD i 1 ≠ st.1.getD i 1 →
      (st.1.getD i 1 = 0 ∧ (offs.foldl (pnStep w c) st).1.getD i 1 = 2 ∧
        (i % w, i / w) ∈ (offs.foldl (pnStep w c) st).2.2 ∧
        ∃ off ∈ offs, i = toUsize (toIsize c + off)) := by
  induction offs with
  | nil => exact fun st i h => absurd rfl h
  | cons o os ih =>
    intro st i hch
    rw [List.foldl_cons] at hch ⊢
    rcases pnStep_eq_or w c st o with he | ⟨n, hn, hlt, h0, he⟩
    · rw [he] at hch ⊢
      obtain ⟨g0, g2, gmem, off, hoffmem, hoffeq⟩ := ih st i hch
      exact ⟨g0, g2, gmem, off, List.mem_cons_of_mem _ hoffmem, hoffeq⟩
    · rw [he] at hch ⊢
      by_cases hni : n = i
      · subst hni
        refine ⟨h0, ?_, ?_, o, List.mem_cons_self _ _, hn⟩
        · rcases pnFold_map_evolve w c os
            (st.1.set n 2, st.2.1.set n 255, (n % w, n / w) :: st.2.2) n 1 with hs | ⟨h2, _⟩
          · rw [hs]
            simp only
            exact getD_set_self _ _ _ _ hlt
          · exact h2
        · exact pnFold_push_persist w c os _ _ (List.mem_cons_self _ _)
      · have hmid : ((st.1.set n 2).getD i 1) = st.1.getD i 1 :=
          getD_set_of_ne _ _ _ _ _ hni
        have hch2 : (os.foldl (pnStep w c)
            (st.1.set n 2, st.2.1.set n 255, (n % w, n / w) :: st.2.2)).1.getD i 1 ≠
              (st.1.set n 2).getD i 1 := by
          rw [hmid]
          exact hch
        obtain ⟨g0, g2, gmem, off, hoffmem, hoffeq⟩ := ih _ i hch2
        rw [hmid] at g0
        exact ⟨g0, g2, gmem, off, List.mem_cons_of_mem _ hoffmem, hoffeq⟩

theorem pn_changed (w c : ℕ) (m b : List ℕ) (i : ℕ)
    (hch : (processNeighbors w c m b).1.getD i 1 ≠ m.getD i 1) :
    m.getD i 1 = 0 ∧ (processNeighbors w c m b).1.getD i 1 = 2 ∧
      (i % w, i / w) ∈ (processNeighbors w c m b).2.2 ∧
      ∃ off ∈ neighborOffsets w, i = toUsize (toIsize c + off) := by
  rw [processNeighbors] at hch ⊢
  exact pnFold_changed w c (neighborOffsets w) (m, b, []) i hch

theorem pnFold_bin_val (w c : ℕ) (offs : List ℤ) :
    ∀ (st : List ℕ × List ℕ × List (ℕ × ℕ)),
      st.2.1.length = st.1.length →
      (∀ i, st.2.1.getD i 0 = if st.1.getD i 1 = 2 then 255 else 0) →
      ((offs.foldl (pnStep w c) st).2.1.length = (offs.foldl (pnStep w c) st).1.length ∧
        ∀ i, (offs.foldl (pnStep w c) st).2.1.getD i 0 =
          if (offs.foldl (pnStep w c) st).1.getD i 1 = 2 then 255 else 0) := by
  induction offs with
  | nil => exact fun st hl hv => ⟨hl, hv⟩
  | cons o os ih =>
    intro st hl hv
    rw [List.foldl_cons]
    rcases pnStep_eq_or w c st o with he | ⟨n, hn, hlt, h0, he⟩
    · rw [he]
      exact ih st hl hv
    · rw [he]
      refine ih _ ?_ ?_

      · simp only [List.length_set]
        exact hl
      · intro i
        simp only
        by_cases hni : i = n
        · subst hni
          rw [getD_set_self _ _ _ _ (by rw [hl]; exact hlt),
            getD_set_self _ _ _ _ hlt]
          simp
        · rw [getD_set_of_ne _ _ _ _ _ (fun h => hni h.symm),
            getD_set_of_ne _ _ _ _ _ (fun h => hni h.symm)]
          exact hv i

theorem pn_bin_val (w c : ℕ) (m b : List ℕ) (hl : b.length = m.length)
    (hv : ∀ i, b.getD i 0 = if m.getD i 1 = 2 then 255 else 0) :
    (processNeighbors w c m b).2.1.length = (processNeighbors w c m b).1.length ∧
    ∀ i, (processNeighbors w c m b).2.1.getD i 0 =
      if (processNeighbors w c m b).1.getD i 1 = 2 then 255 else 0 := by
  rw [processNeighbors]
  exact pnFold_bin_val w c (neighborOffsets w) (m, b, []) hl hv

theorem growFuel_bin_val (w : ℕ) :
    ∀ fuel st, st.bin.length = st.map.length →
      (∀ i, st.bin.getD i 0 = if st.map.getD i 1 = 2 then 255 else 0) →
      ((growFuel w fuel st).bin.length = (growFuel w fuel st).map.length ∧
        ∀ i, (growFuel w fuel st).bin.getD i 0 =
          if (growFuel w fuel st).map.getD i 1 = 2 then 255 else 0) := by
  intro fuel
  induction fuel with
  | zero =>
    intro st hl hv
    rw [growFuel_zero]
    exact ⟨hl, hv⟩
  | succ fuel ih =>
    intro st hl hv
    rcases hstack : st.stack with _ | ⟨⟨x, y⟩, rest⟩
    · rw [growFuel_succ_nil w fuel st hstack]
      exact ⟨hl, hv⟩
    · rw [growFuel_succ_cons w fuel st x y rest hstack]
      have hone := pn_bin_val w (y * w + x) st.map st.bin hl hv
      obtain ⟨hm, hb, hs, hp, ht⟩ := growStep_fields w st x y rest
      refine ih (growStep w st x y rest) ?_ ?_
      · rw [hm, hb]
        exact hone.1
      · simp only [hm, hb]
        exact hone.2

theorem pnFold_b_indep (w c : ℕ) (offs : List ℤ) :
    ∀ (m b1 b2 : List ℕ) (acc : List (ℕ × ℕ)),
      (offs.foldl (pnStep w c) (m, b1, acc)).1 = (offs.foldl (pnStep w c) (m, b2, acc)).1 ∧
      (offs.foldl (pnStep w c) (m, b1, acc)).2.2 =
        (offs.foldl (pnStep w c) (m, b2, acc)).2.2 := by
  induction offs with
  | nil => exact fun m b1 b2 acc => ⟨rfl, rfl⟩
  | cons o os ih =>
    intro m b1 b2 acc
    rw [List.foldl_cons, List.foldl_cons]
    by_cases hc : toUsize (toIsize c + o) < m.length ∧
        m.getD (toUsize (toIsize c + o)) 1 = 0
    · have e1 : pnStep w c (m, b1, acc) o =
          (m.set (toUsize (toIsize c + o)) 2, b1.set (toUsize (toIsize c + o)) 255,
            (toUsize (toIsize c + o) % w, toUsize (toIsize c + o) / w) :: acc) := by
        simp only [pnStep]
        rw [if_pos hc]
      have e2 : pnStep w c (m, b2, acc) o =
          (m.set (toUsize (toIsize c + o)) 2, b2.set (toUsize (toIsize c + o)) 255,
            (toUsize (toIsize c + o) % w, toUsize (toIsize c + o) / w) :: acc) := by
        simp only [pnStep]
        rw [if_pos hc]
      rw [e1, e2]
      exact ih _ _ _ _
    · have e1 : pnStep w c (m, b1, acc) o = (m, b1, acc) := by
        simp only [pnStep]
        rw [if_neg hc]
      have e2 : pnStep w c (m, b2, acc) o = (m, b2, acc) := by
        simp only [pnStep]
        rw [if_neg hc]
      rw [e1, e2]
      exact ih _ _ _ _

theorem pn_b_indep (w c : ℕ) (m b1 b2 : List ℕ) :
    (processNeighbors w c m b1).1 = (processNeighbors w c m b2).1 ∧
    (processNeighbors w c m b1).2.2 = (processNeighbors w c m b2).2.2 := by
  rw [processNeighbors, processNeighbors]
  exact pnFold_b_indep w c (neighborOffsets w) m b1 b2 []

theorem growFuel_bin_irrel (w : ℕ) :
    ∀ fuel (m b1 b2 : List ℕ) (stk : List (ℕ × ℕ)) (p : ℕ) (t : List (ℕ × ℕ)),
      (growFuel w fuel ⟨m, b1, stk, p, t⟩).map = (growFuel w fuel ⟨m, b2, stk, p, t⟩).map ∧
      (growFuel w fuel ⟨m, b1, stk, p, t⟩).stack =
        (growFuel w fuel ⟨m, b2, stk, p, t⟩).stack ∧
      (growFuel w fuel ⟨m, b1, stk, p, t⟩).pops = (growFuel w fuel ⟨m, b2, stk, p, t⟩).pops ∧
      (growFuel w fuel ⟨m, b1, stk, p, t⟩).trace =
        (growFuel w fuel ⟨m, b2, stk, p, t⟩).trace := by
  intro fuel
  induction fuel with
  | zero =>
    intro m b1 b2 stk p t
    rw [growFuel_zero, growFuel_zero]
    exact ⟨rfl, rfl, rfl, rfl⟩
  | succ fuel ih =>
    intro m b1 b2 stk p t
    rcases stk with _ | ⟨⟨x, y⟩, rest⟩
    · rw [growFuel_succ_nil w fuel _ rfl, growFuel_succ_nil w fuel _ rfl]
      exact ⟨rfl, rfl, rfl, rfl⟩
    · rw [growFuel_succ_cons w fuel _ x y rest rfl, growFuel_succ_cons w fuel _ x y rest rfl]
      obtain ⟨hm, hpp⟩ := pn_b_indep w (y * w + x) m b1 b2
      have h1 : growStep w ⟨m, b1, (x, y) :: rest, p, t⟩ x y rest =
          ⟨(processNeighbors w (y * w + x) m b1).1, (processNeighbors w (y * w + x) m b1).2.1,
            (processNeighbors w (y * w + x) m b1).2.2 ++ rest, p + 1,
            (processNeighbors w (y * w + x) m b1).2.2 ++ t⟩ := by
        simp only [growStep]
      have h2 : growStep w ⟨m, b2, (x, y) :: rest, p, t⟩ x y rest =
          ⟨(processNeighbors w (y * w + x) m b1).1, (processNeighbors w (y * w + x) m b2).2.1,
            (processNeighbors w (y * w + x) m b1).2.2 ++ rest, p + 1,
            (processNeighbors w (y * w + x) m b1).2.2 ++ t⟩ := by
        simp only [growStep]
        rw [hm, hpp]
      rw [h1, h2]
      exact ih _ _ _ _ _ _

theorem count_zero_replicate_one (n : ℕ) : (List.replicate n (1 : ℕ)).count 0 = 0 := by
  induction n with
  | zero => rfl
  | succ n ih =>
    rw [List.replicate_succ, List.count_cons]
    simp [ih]

theorem interiorList_length_le (w h : ℕ) : (interiorList w h).length ≤ w * h := by
  have hsub : interiorList w h ⊆ List.range (w * h) := by
    intro x hx
    rw [List.mem_range]
    exact isInterior_lt (mem_interiorList.mp hx)
  have hle := (List.subperm_of_subset (interiorList_nodup w h) hsub).length_le
  simpa using hle

theorem coords_idx (w n : ℕ) : n / w * w + n % w = n := by
  calc n / w * w + n % w = w * (n / w) + n % w := by rw [Nat.mul_comm]
  _ = n := Nat.div_add_mod n w

theorem coords_inj (w : ℕ) {a b : ℕ} (hab : (a % w, a / w) = (b % w, b / w)) : a = b := by
  have h1 : a % w = b % w := congrArg Prod.fst hab
  have h2 : a / w = b / w := congrArg Prod.snd hab
  calc a = w * (a / w) + a % w := (Nat.div_add_mod a w).symm
  _ = w * (b / w) + b % w := by rw [h1, h2]
  _ = b := Nat.div_add_mod b w

theorem classified_map_getD {α : Type} [LinearOrder α] [Zero α] (s : List α)
    (low high : α) (w h j : ℕ) :
    (classified s low high w h).1.getD j 1 =
      if isInterior w h j then classifyVal low high (s.getD j 0) else 1 := by
  rw [classified, classifyTriple]
  by_cases hj : isInterior w h j
  · have hmem : j ∈ interiorList w h := mem_interiorList.mpr hj
    have hlt : j < w * h := isInterior_lt hj
    obtain ⟨h1, _⟩ := classifyFold_getD_mem s low high w (interiorList w h)
      (interiorList_nodup w h) (List.replicate (w * h) 1) (List.replicate (w * h) 0) []
      j hmem (by simpa using hlt) (by simpa using hlt)
    rw [h1, if_pos hj, getD_replicate]
    rfl
  · have hmem : j ∉ interiorList w h := fun hc => hj (mem_interiorList.mp hc)
    obtain ⟨h1, _⟩ := classifyFold_getD_not_mem s low high w (interiorList w h)
      (List.replicate (w * h) 1) (List.replicate (w * h) 0) [] j 1 0 hmem
    rw [h1, if_neg hj, getD_replicate]

theorem classified_bin_getD {α : Type} [LinearOrder α] [Zero α] (s : List α)
    (low high : α) (w h j : ℕ) :
    (classified s low high w h).2.1.getD j 0 =
      if isInterior w h j ∧ s.getD j 0 ≥ high then 255 else 0 := by
  rw [classified, classifyTriple]
  by_cases hj : isInterior w h j
  · have hmem : j ∈ interiorList w h := mem_interiorList.mpr hj
    have hlt : j < w * h := isInterior_lt hj
    obtain ⟨_, h2⟩ := classifyFold_getD_mem s low high w (interiorList w h)
      (interiorList_nodup w h) (List.replicate (w * h) 1) (List.replicate (w * h) 0) []
      j hmem (by simpa using hlt) (by simpa using hlt)
    rw [h2, getD_replicate]
    by_cases hhi : s.getD j 0 ≥ high
    · rw [if_pos hhi, if_pos ⟨hj, hhi⟩]
    · rw [if_neg hhi, if_neg (fun hc => hhi hc.2)]
  · have hmem : j ∉ interiorList w h := fun hc => hj (mem_interiorList.mp hc)
    obtain ⟨_, h2⟩ := classifyFold_getD_not_mem s low high w (interiorList w h)
      (List.replicate (w * h) 1) (List.replicate (w * h) 0) [] j 1 0 hmem
    rw [h2, getD_replicate, if_neg (fun hc => hj hc.1)]

theorem classified_stack {α : Type} [LinearOrder α] [Zero α] (s : List α)
    (low high : α) (w h : ℕ) :
    (classified s low high w h).2.2 =
      ((interiorList w h).filter (fun idx => decide (s.getD idx 0 ≥ high))).reverse.map
        (fun idx => (idx % w, idx / w)) := by
  rw [classified, classifyTriple, classifyFold_stack]
  exact List.append_nil _

theorem classified_stack_mem {α : Type} [LinearOrder α] [Zero α] (s : List α)
    (low high : α) (w h : ℕ) (p : ℕ × ℕ) :
    p ∈ (classified s low high w h).2.2 ↔
      ∃ idx, isInterior w h idx ∧ s.getD idx 0 ≥ high ∧ p = (idx % w, idx / w) := by
  rw [classified_stack, List.mem_map]
  constructor
  · rintro ⟨idx, hidx, rfl⟩
    rw [List.mem_reverse, List.mem_filter] at hidx
    exact ⟨idx, mem_interiorList.mp hidx.1, of_decide_eq_true hidx.2, rfl⟩
  · rintro ⟨idx, hint, hhi, rfl⟩
    refine ⟨idx, ?_, rfl⟩
    rw [List.mem_reverse, List.mem_filter]
    exact ⟨mem_interiorList.mpr hint, decide_eq_true hhi⟩

theorem classified_stack_nodup {α : Type} [LinearOrder α] [Zero α] (s : List α)
    (low high : α) (w h : ℕ) : (classified s low high w h).2.2.Nodup := by
  rw [classified_stack]
  refine List.Nodup.map (fun a b hab => coords_inj w hab) ?_
  rw [List.nodup_reverse]
  exact (interiorList_nodup w h).filter _

theorem classified_len {α : Type} [LinearOrder α] [Zero α] (s : List α)
    (low high : α) (w h : ℕ) :
    (classified s low high w h).1.length = w * h ∧
    (classified s low high w h).2.1.length = w * h := by
  rw [classified, classifyTriple]
  obtain ⟨h1, h2⟩ := classifyFold_len s low high w (interiorList w h)
    (List.replicate (w * h) 1) (List.replicate (w * h) 0) []
  rw [h1, h2, List.length_replicate, List.length_replicate]
  exact ⟨rfl, rfl⟩

theorem classified_count {α : Type} [LinearOrder α] [Zero α] (s : List α)
    (low high : α) (w h : ℕ) :
    (classified s low high w h).1.count 0 + (classified s low high w h).2.2.length ≤
      w * h := by
  rw [classified, classifyTriple]
  have hcb := classifyFold_count s low high w (interiorList w h)
    (List.replicate (w * h) 1) (List.replicate (w * h) 0) []
  rw [count_zero_replicate_one] at hcb
  have hlen := interiorList_length_le w h
  simp only [List.length_nil] at hcb
  omega

theorem ht_as_grow {α : Type} [LinearOrder α] [Zero α] (s : List α) (w h : ℕ)
    (low high : α)
    (hok : ¬ (h = 0 ∨ (3 ≤ h ∧ (w < 2 ∨ s.length < (h - 2) * w + (w - 1))))) :
    hysteresis_thresholding s w h low high =
      some ((growFuel w (2 * (classified s low high w h).1.count 0 +
          (classified s low high w h).2.2.length + 1)
        ⟨(classified s low high w h).1, List.replicate (w * h) 0,
          (classified s low high w h).2.2, 0, (classified s low high w h).2.2⟩).map) := by
  rw [hysteresis_thresholding, if_neg hok, htClassify_eq_canonical, classified]

theorem htB_as_grow {α : Type} [LinearOrder α] [Zero α] (s : List α) (w h : ℕ)
    (low high : α) :
    hysteresis_thresholding_binary s w h low high =
      (growFuel w (2 * (classified s low high w h).1.count 0 +
          (classified s low high w h).2.2.length + 1)
        ⟨(classified s low high w h).1, (classified s low high w h).2.1,
          (classified s low high w h).2.2, 0, (classified s low high w h).2.2⟩).bin := by
  rw [hysteresis_thresholding_binary, htBClassify_eq_canonical, classified]

theorem edge_map_to_binary_eq (em : List ℕ) :
    edge_map_to_binary em =
      (List.range em.length).map (fun i => if em.getD i 0 = 2 then 255 else 0) := by
  rw [edge_map_to_binary, chunkedRange_eq_range]
  exact writeAll_range_map _ _ _

theorem classified_bin_tracks_map {α : Type} [LinearOrder α] [Zero α] (s : List α)
    (low high : α) (w h : ℕ) (i : ℕ) :
    (classified s low high w h).2.1.getD i 0 =
      if (classified s low high w h).1.getD i 1 = 2 then 255 else 0 := by
  rw [classified_bin_getD, classified_map_getD]
  by_cases hint : isInterior w h i
  · by_cases hhi : s.getD i 0 ≥ high
    · rw [if_pos ⟨hint, hhi⟩, if_pos hint]
      have h2 : classifyVal low high (s.getD i 0) = 2 := by
        rw [classifyVal, if_pos hhi]
      rw [h2, if_pos rfl]
    · rw [if_neg (fun hc => hhi hc.2), if_pos hint]
      have hne : classifyVal low high (s.getD i 0) ≠ 2 := by
        rw [classifyVal, if_neg hhi]
        by_cases hlo : s.getD i 0 ≥ low
        · rw [if_pos hlo]
          omega
        · rw [if_neg hlo]
          omega
      rw [if_neg hne]
  · rw [if_neg (fun hc => hint hc.1), if_neg hint]
    have hne : (1 : ℕ) ≠ 2 := by omega
    rw [if_neg hne]

/-- C3 (amended): wherever `hysteresis_thresholding` itself completes — an
input of matching length with at least one row and either at least two
columns or fewer than three rows — converting its tri-state edge map with
`edge_map_to_binary` yields exactly the byte sequence that
`hysteresis_thresholding_binary` produces on the same suppressed input, width,
height, and thresholds `low ≤ high`. On width-below-2 fields with at least
three rows the tri-state path panics on its reversed row slice while the
binary path completes, so the round trip fails there (see the
counterexample). -/
theorem hysteresis_binary_round_trip {α : Type} [LinearOrder α] [Zero α]
    (s : List α) (w h : ℕ) (low high : α) (hlh : low ≤ high)
    (hlen : s.length = w * h) (hh : 1 ≤ h) (hwide : 2 ≤ w ∨ h < 3) :
    (hysteresis_thresholding s w h low high).map edge_map_to_binary =
      some (hysteresis_thresholding_binary s w h low high) := by
  have hok : ¬ (h = 0 ∨ (3 ≤ h ∧ (w < 2 ∨ s.length < (h - 2) * w + (w - 1)))) := by
    rintro (h0 | ⟨h3, hbad⟩)
    · omega
    · rcases hbad with hw | hlt
      · rcases hwide with h2w | hlt3 <;> omega
      · have hw2 : 2 ≤ w := by
          rcases hwide with h2w | hlt3 <;> omega
        have e1 : (h - 2) * w + w = (h - 1) * w := by
          have he : h - 2 + 1 = h - 1 := by omega
          calc (h - 2) * w + w = (h - 2 + 1) * w := (Nat.succ_mul _ _).symm
          _ = (h - 1) * w := by rw [he]
        have e2 : (h - 1) * w ≤ h * w := Nat.mul_le_mul_right w (by omega)
        have e3 : h * w = w * h := Nat.mul_comm h w
        omega
  rw [ht_as_grow s w h low high hok, Option.map_some', htB_as_grow]
  refine congrArg some ?_
  rw [edge_map_to_binary_eq]
  have hirr := growFuel_bin_irrel w
    (2 * (classified s low high w h).1.count 0 + (classified s low high w h).2.2.length + 1)
    (classified s low high w h).1 (List.replicate (w * h) 0)
    (classified s low high w h).2.1 (classified s low high w h).2.2 0
    (classified s low high w h).2.2
  have hlen0 : ((⟨(classified s low high w h).1, (classified s low high w h).2.1,
      (classified s low high w h).2.2, 0, (classified s low high w h).2.2⟩ :
        GrowState)).bin.length =
      ((⟨(classified s low high w h).1, (classified s low high w h).2.1,
      (classified s low high w h).2.2, 0, (classified s low high w h).2.2⟩ :
        GrowState)).map.length := by
    obtain ⟨hl1, hl2⟩ := classified_len s low high w h
    simp only
    rw [hl1, hl2]
  have hval0 : ∀ i, ((⟨(classified s low high w h).1, (classified s low high w h).2.1,
      (classified s low high w h).2.2, 0, (classified s low high w h).2.2⟩ :
        GrowState)).bin.getD i 0 =
      if ((⟨(classified s low high w h).1, (classified s low high w h).2.1,
      (classified s low high w h).2.2, 0, (classified s low high w h).2.2⟩ :
        GrowState)).map.getD i 1 = 2 then 255 else 0 := by
    intro i
    simp only
    exact classified_bin_tracks_map s low high w h i
  obtain ⟨hblen, hbval⟩ := growFuel_bin_val w
    (2 * (classified s low high w h).1.count 0 + (classified s low high w h).2.2.length + 1)
    ⟨(classified s low high w h).1, (classified s low high w h).2.1,
      (classified s low high w h).2.2, 0, (classified s low high w h).2.2⟩ hlen0 hval0
  rw [hirr.1]
  apply List.ext_getElem
  · simp only [List.length_map, List.length_range]
    rw [hblen]
  · intro i h1 h2
    simp only [List.length_map, List.length_range] at h1
    rw [List.getElem_map, List.getElem_range]
    rw [← List.getD_eq_getElem _ 0 h2, hbval i]
    have hmlen : i < (growFuel w
        (2 * (classified s low high w h).1.count 0 +
          (classified s low high w h).2.2.length + 1)
        ⟨(classified s low high w h).1, (classified s low high w h).2.1,
          (classified s low high w h).2.2, 0,
          (classified s low high w h).2.2⟩).map.length := h1
    rw [getD_irrel _ _ 0 1 hmlen]

theorem hysteresis_binary_round_trip_witness :
    ((2 : ℕ) ≤ 4 ∧ List.length [0, 0, 0, 0, (3 : ℕ), 0, 0, 0, 0] = 3 * 3 ∧ (1 : ℕ) ≤ 3 ∧
      ((2 : ℕ) ≤ 3 ∨ (3 : ℕ) < 3)) ∧
    (hysteresis_thresholding [0, 0, 0, 0, 3, 0, 0, 0, 0] 3 3 (2 : ℕ) 4).map
        edge_map_to_binary =
      some (hysteresis_thresholding_binary [0, 0, 0, 0, 3, 0, 0, 0, 0] 3 3 (2 : ℕ) 4) :=
  ⟨⟨by decide, by decide, by decide, Or.inl (by decide)⟩,
    hysteresis_binary_round_trip [0, 0, 0, 0, 3, 0, 0, 0, 0] 3 3 2 4 (by decide)
      (by decide) (by decide) (Or.inl (by decide))⟩

/-- C3 (counterexample): on a width-1, height-3 field of matching length the
tri-state path panics slicing `&suppressed[y*w+1 .. y*w+w-1]` (the slice start
is past its end), while the combined binary path completes and returns the
all-zero mask — the two paths observably diverge, so the round-trip
equivalence does not hold for every field. -/
theorem hysteresis_round_trip_width_one_diverges :
    (List.length [0, 0, 0] = 1 * 3) ∧
    hysteresis_thresholding [0, 0, 0] 1 3 (0 : ℕ) 0 = none ∧
    hysteresis_thresholding_binary [0, 0, 0] 1 3 (0 : ℕ) 0 = [0, 0, 0] := by
  refine ⟨by decide, ?_, ?_⟩
  · decide
  · decide

theorem interior_offset_arith (w h idx : ℕ) (hint : isInterior w h idx)
    (hwh : w * h < 2 ^ 31) (off : ℤ) (hoff : off ∈ neighborOffsets w) :
    0 ≤ toIsize idx + off ∧ toUsize (toIsize idx + off) < w * h ∧
      (toUsize (toIsize idx + off) : ℤ) = (idx : ℤ) + off := by
  obtain ⟨h1, h2, h3, h4⟩ := hint
  have hq0 := Nat.div_add_mod idx w
  have hmulA : w * (idx / w + 1) ≤ w * (h - 1) := Nat.mul_le_mul_left w (by omega)
  rw [Nat.mul_succ] at hmulA
  have hh1 : h - 1 + 1 = h := by omega
  have hmulB : w * (h - 1) + w = w * h := by
    calc w * (h - 1) + w = w * (h - 1 + 1) := (Nat.mul_succ w (h - 1)).symm
    _ = w * h := by rw [hh1]
  have hmul3 : w * 1 ≤ w * (idx / w) := Nat.mul_le_mul_left w h3
  have hub : idx + w + 1 < w * h := by omega
  have hlb : w + 1 ≤ idx := by omega
  have hidxlt : idx < 2 ^ 31 := by omega
  have hiso : toIsize idx = (idx : ℤ) := toIsize_of_lt hidxlt
  simp only [neighborOffsets, List.mem_cons, List.not_mem_nil, or_false] at hoff
  have hob : -((w : ℤ) + 1) ≤ off ∧ off ≤ (w : ℤ) + 1 := by
    rcases hoff with rfl | rfl | rfl | rfl | rfl | rfl | rfl | rfl <;>
      constructor <;> omega
  have hlbz : (w : ℤ) + 1 ≤ (idx : ℤ) := by exact_mod_cast hlb
  have hubz : (idx : ℤ) + (w : ℤ) + 1 < ((w * h : ℕ) : ℤ) := by exact_mod_cast hub
  have hz0 : 0 ≤ (idx : ℤ) + off := by omega
  have hlt32 : (idx : ℤ) + off < 2 ^ 32 := by
    have hcast : ((w * h : ℕ) : ℤ) < 2 ^ 31 := by exact_mod_cast hwh
    omega
  have hus : toUsize (toIsize idx + off) = ((idx : ℤ) + off).toNat := by
    rw [hiso]
    exact toUsize_of_nonneg_lt hz0 hlt32
  refine ⟨by rw [hiso]; omega, ?_, ?_⟩
  · rw [hus]
    omega
  · rw [hus]
    omega

theorem pnFold_push_inv (w c : ℕ) (offs : List ℤ) :
    ∀ (st : List ℕ × List ℕ × List (ℕ × ℕ)),
      st.2.2.Nodup → (∀ p ∈ st.2.2, st.1.getD (p.2 * w + p.1) 1 ≠ 0) →
      ((offs.foldl (pnStep w c) st).2.2.Nodup ∧
        ∀ p ∈ (offs.foldl (pnStep w c) st).2.2,
          (offs.foldl (pnStep w c) st).1.getD (p.2 * w + p.1) 1 ≠ 0) := by
  induction offs with
  | nil => exact fun st hnd hval => ⟨hnd, hval⟩
  | cons o os ih =>
    intro st hnd hval
    rw [List.foldl_cons]
    rcases pnStep_eq_or w c st o with he | ⟨n, hn, hlt, h0, he⟩
    · rw [he]
      exact ih st hnd hval
    · rw [he]
      refine ih _ ?_ ?_
      · show ((n % w, n / w) :: st.2.2).Nodup
        rw [List.nodup_cons]
        refine ⟨?_, hnd⟩
        intro hmem
        have hx := hval _ hmem
        have hx2 : st.1.getD (n / w * w + n % w) 1 ≠ 0 := hx
        rw [coords_idx] at hx2
        exact hx2 h0
      · intro p hp
        have hp2 : p ∈ (n % w, n / w) :: st.2.2 := hp
        show (st.1.set n 2).getD (p.2 * w + p.1) 1 ≠ 0
        rcases List.mem_cons.mp hp2 with rfl | hmem
        · show (st.1.set n 2).getD (n / w * w + n % w) 1 ≠ 0
          rw [coords_idx, getD_set_self _ _ _ _ hlt]
          omega
        · have hne := hval p hmem
          by_cases hni : p.2 * w + p.1 = n
          · rw [hni, getD_set_self _ _ _ _ hlt]
            omega
          · rw [getD_set_of_ne _ _ _ _ _ (fun hc => hni hc.symm)]
            exact hne

theorem pn_push_inv (w c : ℕ) (m b : List ℕ) :
    (processNeighbors w c m b).2.2.Nodup ∧
    ∀ p ∈ (processNeighbors w c m b).2.2,
      (processNeighbors w c m b).1.getD (p.2 * w + p.1) 1 ≠ 0 := by
  rw [processNeighbors]
  exact pnFold_push_inv w c (neighborOffsets w) (m, b, []) List.nodup_nil
    (fun p hp => absurd hp (List.not_mem_nil p))

theorem growFuel_once_inv (w : ℕ) (fuel : ℕ) (st : GrowState)
    (h1 : st.trace.Nodup)
    (h2 : ∀ p ∈ st.trace, st.map.getD (p.2 * w + p.1) 1 ≠ 0)
    (h3 : ∀ p ∈ st.stack, p ∈ st.trace) :
    (growFuel w fuel st).trace.Nodup ∧
      (∀ p ∈ (growFuel w fuel st).trace,
        (growFuel w fuel st).map.getD (p.2 * w + p.1) 1 ≠ 0) ∧
      (∀ p ∈ (growFuel w fuel st).stack, p ∈ (growFuel w fuel st).trace) := by
  have hstep : ∀ g x y rest, g.stack = (x, y) :: rest →
      (g.trace.Nodup ∧ (∀ p ∈ g.trace, g.map.getD (p.2 * w + p.1) 1 ≠ 0) ∧
        (∀ p ∈ g.stack, p ∈ g.trace)) →
      ((growStep w g x y rest).trace.Nodup ∧
        (∀ p ∈ (growStep w g x y rest).trace,
          (growStep w g x y rest).map.getD (p.2 * w + p.1) 1 ≠ 0) ∧
        (∀ p ∈ (growStep w g x y rest).stack, p ∈ (growStep w g x y rest).trace)) := by
    rintro g x y rest hstk ⟨g1, g2, g3⟩
    obtain ⟨hm, hb, hs, hp, ht⟩ := growStep_fields w g x y rest
    obtain ⟨pnd, pval⟩ := pn_push_inv w (y * w + x) g.map g.bin
    refine ⟨?_, ?_, ?_⟩
    · rw [ht, List.nodup_append]
      refine ⟨pnd, g1, ?_⟩
      intro p hpm hq
      obtain ⟨off, hoffm, n, hneq, hpe, hltn, h0⟩ :=
        pn_push_mem w (y * w + x) g.map g.bin p hpm
      have hgd := g2 p hq
      rw [hpe] at hgd
      have hgd2 : g.map.getD (n / w * w + n % w) 1 ≠ 0 := hgd
      rw [coords_idx] at hgd2
      exact hgd2 h0
    · intro p hpm
      rw [ht] at hpm
      rw [hm]
      rcases List.mem_append.mp hpm with hp1 | hp2
      · exact pval p hp1
      · have hgd := g2 p hp2
        rcases pn_map_evolve w (y * w + x) g.map g.bin (p.2 * w + p.1) 1 with hev | ⟨hev2, _⟩
        · rw [hev]
          exact hgd
        · rw [hev2]
          omega
    · intro p hpm
      rw [hs] at hpm
      rw [ht]
      rcases List.mem_append.mp hpm with hp1 | hp2
      · exact List.mem_append.mpr (Or.inl hp1)
      · have hpg : p ∈ g.stack := by
          rw [hstk]
          exact List.mem_cons_of_mem _ hp2
        exact List.mem_append.mpr (Or.inr (g3 p hpg))
  exact growFuel_preserve w
    (fun g => g.trace.Nodup ∧ (∀ p ∈ g.trace, g.map.getD (p.2 * w + p.1) 1 ≠ 0) ∧
      (∀ p ∈ g.stack, p ∈ g.trace))
    hstep fuel st ⟨h1, h2, h3⟩

theorem classified_seed_map_ne_zero {α : Type} [LinearOrder α] [Zero α] (s : List α)
    (low high : α) (w h : ℕ) :
    ∀ p ∈ (classified s low high w h).2.2,
      (classified s low high w h).1.getD (p.2 * w + p.1) 1 ≠ 0 := by
  intro p hp
  obtain ⟨idx, hint, hhi, rfl⟩ := (classified_stack_mem s low high w h p).mp hp
  show (classified s low high w h).1.getD (idx / w * w + idx % w) 1 ≠ 0
  rw [coords_idx, classified_map_getD, if_pos hint, classifyVal, if_pos hhi]
  omega

/-- C5: in the hysteresis growth pass started from the classified state — for
any initial binary buffer, covering both implementations — the full trace of
pushed coordinates is duplicate-free (every pixel is pushed at most once), the
pop loop performs at most `w * h` pops, and the work stack is empty when the
fuel `2·(weak count) + (seed count) + 1` runs out, so the loop terminates. -/
theorem hysteresis_push_once_and_terminates {α : Type} [LinearOrder α] [Zero α]
    (s : List α) (w h : ℕ) (low high : α) (bin0 : List ℕ) :
    (growFuel w (2 * (classified s low high w h).1.count 0 +
        (classified s low high w h).2.2.length + 1)
      ⟨(classified s low high w h).1, bin0, (classified s low high w h).2.2, 0,
        (classified s low high w h).2.2⟩).trace.Nodup ∧
    (growFuel w (2 * (classified s low high w h).1.count 0 +
        (classified s low high w h).2.2.length + 1)
      ⟨(classified s low high w h).1, bin0, (classified s low high w h).2.2, 0,
        (classified s low high w h).2.2⟩).pops ≤ w * h ∧
    (growFuel w (2 * (classified s low high w h).1.count 0 +
        (classified s low high w h).2.2.length + 1)
      ⟨(classified s low high w h).1, bin0, (classified s low high w h).2.2, 0,
        (classified s low high w h).2.2⟩).stack = [] := by
  have hinv := growFuel_once_inv w
    (2 * (classified s low high w h).1.count 0 + (classified s low high w h).2.2.length + 1)
    ⟨(classified s low high w h).1, bin0, (classified s low high w h).2.2, 0,
      (classified s low high w h).2.2⟩
    (classified_stack_nodup s low high w h)
    (classified_seed_map_ne_zero s low high w h)
    (fun p hp => hp)
  refine ⟨hinv.1, ?_, ?_⟩
  · have hpops := growFuel_pops w
      (2 * (classified s low high w h).1.count 0 +
        (classified s low high w h).2.2.length + 1)
      ⟨(classified s low high w h).1, bin0, (classified s low high w h).2.2, 0,
        (classified s low high w h).2.2⟩
    have hpops2 : (growFuel w
        (2 * (classified s low high w h).1.count 0 +
          (classified s low high w h).2.2.length + 1)
        ⟨(classified s low high w h).1, bin0, (classified s low high w h).2.2, 0,
          (classified s low high w h).2.2⟩).pops ≤
        0 + (classified s low high w h).2.2.length +
          (classified s low high w h).1.count 0 := hpops
    have hcnt := classified_count s low high w h
    omega
  · refine growFuel_stack_empty w _ _ ?_
    show 2 * (classified s low high w h).1.count 0 +
        (classified s low high w h).2.2.length <
      2 * (classified s low high w h).1.count 0 +
        (classified s low high w h).2.2.length + 1
    omega

theorem growFuel_interior_inv (w h : ℕ) (fuel : ℕ) (st : GrowState)
    (h1 : ∀ p ∈ st.trace, isInterior w h (p.2 * w + p.1) ∧ p.1 < w)
    (h2 : ∀ j, st.map.getD j 1 = 0 → isInterior w h j) :
    ∀ p ∈ (growFuel w fuel st).trace,
      isInterior w h (p.2 * w + p.1) ∧ p.1 < w := by
  have hstep : ∀ g x y rest, g.stack = (x, y) :: rest →
      ((∀ p ∈ g.trace, isInterior w h (p.2 * w + p.1) ∧ p.1 < w) ∧
        (∀ j, g.map.getD j 1 = 0 → isInterior w h j)) →
      ((∀ p ∈ (growStep w g x y rest).trace,
          isInterior w h (p.2 * w + p.1) ∧ p.1 < w) ∧
        (∀ j, (growStep w g x y rest).map.getD j 1 = 0 → isInterior w h j)) := by
    rintro g x y rest hstk ⟨g1, g2⟩
    obtain ⟨hm, hb, hs, hp, ht⟩ := growStep_fields w g x y rest
    constructor
    · intro p hpm
      rw [ht] at hpm
      rcases List.mem_append.mp hpm with hp1 | hpold
      · obtain ⟨off, hoffm, n, hneq, hpe, hltn, h0⟩ :=
          pn_push_mem w (y * w + x) g.map g.bin p hp1
        have hintn := g2 n h0
        subst hpe
        refine ⟨?_, ?_⟩
        · show isInterior w h (n / w * w + n % w)
          rw [coords_idx]
          exact hintn
        · show n % w < w
          have hw0 : 0 < w := by
            obtain ⟨hi1, hi2, _, _⟩ := hintn
            omega
          exact Nat.mod_lt n hw0
      · exact g1 p hpold
    · intro j hj
      rw [hm] at hj
      rcases pn_map_evolve w (y * w + x) g.map g.bin j 1 with hev | ⟨_, h00⟩
      · rw [hev] at hj
        exact g2 j hj
      · exact g2 j h00
  exact growFuel_preserve w
    (fun g => (∀ p ∈ g.trace, isInterior w h (p.2 * w + p.1) ∧ p.1 < w) ∧
      (∀ j, g.map.getD j 1 = 0 → isInterior w h j))
    hstep fuel st ⟨h1, h2⟩ |>.1

theorem classified_seed_interior {α : Type} [LinearOrder α] [Zero α] (s : List α)
    (low high : α) (w h : ℕ) :
    ∀ p ∈ (classified s low high w h).2.2,
      isInterior w h (p.2 * w + p.1) ∧ p.1 < w := by
  intro p hp
  obtain ⟨idx, hint, hhi, rfl⟩ := (classified_stack_mem s low high w h p).mp hp
  refine ⟨?_, ?_⟩
  · show isInterior w h (idx / w * w + idx % w)
    rw [coords_idx]
    exact hint
  · show idx % w < w
    have hw0 : 0 < w := by
      obtain ⟨hi1, hi2, _, _⟩ := hint
      omega
    exact Nat.mod_lt idx hw0

theorem classified_weak_interior {α : Type} [LinearOrder α] [Zero α] (s : List α)
    (low high : α) (w h : ℕ) :
    ∀ j, (classified s low high w h).1.getD j 1 = 0 → isInterior w h j := by
  intro j hj
  rw [classified_map_getD] at hj
  by_cases hint : isInterior w h j
  · exact hint
  · rw [if_neg hint] at hj
    omega

theorem getD_ne_default_lt {α : Type} (l : List α) (i : ℕ) (d : α)
    (hne : l.getD i d ≠ d) : i < l.length := by
  by_contra hge
  rw [List.getD_eq_default _ _ (by omega)] at hne
  exact hne rfl

theorem coord_lt_total (w h a b : ℕ) (ha : a < w) (hb : b < h) : b * w + a < w * h := by
  have h1 : (b + 1) * w ≤ h * w := Nat.mul_le_mul_right w (by omega)
  have h2 : (b + 1) * w = b * w + w := Nat.succ_mul b w
  have h3 : h * w = w * h := Nat.mul_comm h w
  omega

theorem cannyNbr_eq_or (w h x y : ℕ) (st : List ℕ × List (ℕ × ℕ)) (d : ℤ × ℤ) :
    cannyNbr w h x y st d = st ∨
    (∃ nx ny, nx = toUsize (toIsize x + d.2) ∧ ny = toUsize (toIsize y + d.1) ∧
      0 < nx ∧ nx < w ∧ 0 < ny ∧ ny < h ∧ st.1.getD (ny * w + nx) 0 = 1 ∧
      cannyNbr w h x y st d = (st.1.set (ny * w + nx) 2, (nx, ny) :: st.2)) := by
  by_cases hc : 0 < toUsize (toIsize x + d.2) ∧ toUsize (toIsize x + d.2) < w ∧
      0 < toUsize (toIsize y + d.1) ∧ toUsize (toIsize y + d.1) < h ∧
      st.1.getD (toUsize (toIsize y + d.1) * w + toUsize (toIsize x + d.2)) 0 = 1
  · right
    refine ⟨_, _, rfl, rfl, hc.1, hc.2.1, hc.2.2.1, hc.2.2.2.1, hc.2.2.2.2, ?_⟩
    simp only [cannyNbr]
    rw [if_pos hc]
  · left
    simp only [cannyNbr]
    rw [if_neg hc]

theorem cannyFold_map_evolve (w h x y : ℕ) (ds : List (ℤ × ℤ)) :
    ∀ (st : List ℕ × List (ℕ × ℕ)) (j d0 : ℕ),
      (ds.foldl (cannyNbr w h x y) st).1.getD j d0 = st.1.getD j d0 ∨
      ((ds.foldl (cannyNbr w h x y) st).1.getD j d0 = 2 ∧ st.1.getD j d0 = 1) := by
  induction ds with
  | nil =>
    intro st j d0
    left
    rfl
  | cons d ds ih =>
    intro st j d0
    rw [List.foldl_cons]
    rcases cannyNbr_eq_or w h x y st d with he | ⟨nx, ny, _, _, _, _, _, _, h1, he⟩
    · rw [he]
      exact ih st j d0
    · rw [he]
      have hltn : ny * w + nx < st.1.length :=
        getD_ne_default_lt _ _ _ (by rw [h1]; omega)
      rcases ih (st.1.set (ny * w + nx) 2, (nx, ny) :: st.2) j d0 with he2 | ⟨he2a, he2b⟩
      · by_cases hj : ny * w + nx = j
        · subst hj
          right
          constructor
          · rw [he2]
            exact getD_set_self _ _ _ _ hltn
          · rw [getD_irrel _ _ d0 0 hltn]
            exact h1
        · left
          rw [he2]
          exact getD_set_of_ne _ _ _ _ _ hj
      · by_cases hj : ny * w + nx = j
        · subst hj
          right
          refine ⟨he2a, ?_⟩
          rw [getD_irrel _ _ d0 0 hltn]
          exact h1
        · right
          refine ⟨he2a, ?_⟩
          have hmid : (st.1.set (ny * w + nx) 2).getD j d0 = 1 := he2b
          rw [getD_set_of_ne _ _ _ _ _ hj] at hmid
          exact hmid

theorem cannyFold_push_mem (w h x y : ℕ) (ds : List (ℤ × ℤ)) :
    ∀ (st : List ℕ × List (ℕ × ℕ)) (p : ℕ × ℕ), p ∈ (ds.foldl (cannyNbr w h x y) st).2 →
      p ∈ st.2 ∨ (0 < p.1 ∧ p.1 < w ∧ 0 < p.2 ∧ p.2 < h ∧
        st.1.getD (p.2 * w + p.1) 0 = 1) := by
  induction ds with
  | nil =>
    intro st p hp
    left
    exact hp
  | cons d ds ih =>
    intro st p hp
    rw [List.foldl_cons] at hp
    rcases cannyNbr_eq_or w h x y st d with he | ⟨nx, ny, _, _, hx0, hxw, hy0, hyh, h1, he⟩
    · rw [he] at hp
      exact ih st p hp
    · rw [he] at hp
      have hltn : ny * w + nx < st.1.length :=
        getD_ne_default_lt _ _ _ (by rw [h1]; omega)
      rcases ih _ p hp with hmem | ⟨p1, p2, p3, p4, hval⟩
      · rcases List.mem_cons.mp hmem with rfl | hmem2
        · right
          exact ⟨hx0, hxw, hy0, hyh, h1⟩
        · left
          exact hmem2
      · right
        refine ⟨p1, p2, p3, p4, ?_⟩
        have hvm : (st.1.set (ny * w + nx) 2).getD (p.2 * w + p.1) 0 = 1 := hval
        by_cases hj : ny * w + nx = p.2 * w + p.1
        · exfalso
          rw [hj] at hvm hltn
          rw [getD_set_self _ _ _ _ hltn] at hvm
          omega
        · rw [getD_set_of_ne _ _ _ _ _ hj] at hvm
          exact hvm

theorem cannyGrowFuel_zero (w h : ℕ) (g : CannyGrow) : cannyGrowFuel w h 0 g = g := rfl

theorem cannyGrowFuel_succ_nil (w h fuel : ℕ) (g : CannyGrow) (hstack : g.stack = []) :
    cannyGrowFuel w h (fuel + 1) g = g := by
  rw [cannyGrowFuel, hstack]

theorem cannyGrowFuel_succ_cons (w h fuel : ℕ) (g : CannyGrow) (x y : ℕ)
    (rest : List (ℕ × ℕ)) (hstack : g.stack = (x, y) :: rest) :
    cannyGrowFuel w h (fuel + 1) g = cannyGrowFuel w h fuel (cannyStep w h g x y rest) := by
  rw [cannyGrowFuel, hstack]

theorem cannyStep_fields (w h : ℕ) (g : CannyGrow) (x y : ℕ) (rest : List (ℕ × ℕ)) :
    (cannyStep w h g x y rest).map = (cannyOffsets.foldl (cannyNbr w h x y) (g.map, [])).1 ∧
    (cannyStep w h g x y rest).stack =
      (cannyOffsets.foldl (cannyNbr w h x y) (g.map, [])).2 ++ rest ∧
    (cannyStep w h g x y rest).trace =
      (cannyOffsets.foldl (cannyNbr w h x y) (g.map, [])).2 ++ g.trace := by
  simp only [cannyStep]
  exact ⟨trivial, trivial, trivial⟩

theorem cannyGrowFuel_preserve (w h : ℕ) (P : CannyGrow → Prop)
    (hstep : ∀ g x y rest, g.stack = (x, y) :: rest → P g → P (cannyStep w h g x y rest)) :
    ∀ fuel g, P g → P (cannyGrowFuel w h fuel g) := by
  intro fuel
  induction fuel with
  | zero => exact fun g hg => hg
  | succ fuel ih =>
    intro g hg
    rcases hstack : g.stack with _ | ⟨⟨x, y⟩, rest⟩
    · rw [cannyGrowFuel_succ_nil w h fuel g hstack]
      exact hg
    · rw [cannyGrowFuel_succ_cons w h fuel g x y rest hstack]
      exact ih _ (hstep g x y rest hstack hg)

theorem cannyClassifyStep_eq {α : Type} [LinearOrder α] [Zero α] (s : List α)
    (low high : α) (w : ℕ) (st : List ℕ × List (ℕ × ℕ)) (idx : ℕ) :
    (s.getD idx 0 ≥ high ∧ cannyClassifyStep s low high w st idx =
      (st.1.set idx 2, (idx % w, idx / w) :: st.2)) ∨
    (¬ (s.getD idx 0 ≥ high) ∧ s.getD idx 0 ≥ low ∧
      cannyClassifyStep s low high w st idx = (st.1.set idx 1, st.2)) ∨
    (¬ (s.getD idx 0 ≥ high) ∧ ¬ (s.getD idx 0 ≥ low) ∧
      cannyClassifyStep s low high w st idx = st) := by
  by_cases hhi : s.getD idx 0 ≥ high
  · left
    refine ⟨hhi, ?_⟩
    simp only [cannyClassifyStep]
    rw [if_pos hhi]
  · by_cases hlo : s.getD idx 0 ≥ low
    · right
      left
      refine ⟨hhi, hlo, ?_⟩
      simp only [cannyClassifyStep]
      rw [if_neg hhi, if_pos hlo]
    · right
      right
      refine ⟨hhi, hlo, ?_⟩
      simp only [cannyClassifyStep]
      rw [if_neg hhi, if_neg hlo]

theorem cannyFold_getD_not_mem {α : Type} [LinearOrder α] [Zero α] (s : List α)
    (low high : α) (w : ℕ) (L : List ℕ) :
    ∀ (m : List ℕ) (stk : List (ℕ × ℕ)) (j d0 : ℕ), j ∉ L →
      (L.foldl (cannyClassifyStep s low high w) (m, stk)).1.getD j d0 = m.getD j d0 := by
  induction L with
  | nil => exact fun m stk j d0 hj => rfl
  | cons i L ih =>
    intro m stk j d0 hj
    have hij : i ≠ j := fun hcontra => hj (hcontra ▸ List.mem_cons_self _ _)
    have hjL : j ∉ L := fun hcontra => hj (List.mem_cons_of_mem _ hcontra)
    rw [List.foldl_cons]
    rcases cannyClassifyStep_eq s low high w (m, stk) i with ⟨_, he⟩ | ⟨_, _, he⟩ |
      ⟨_, _, he⟩ <;> rw [he]
    · rw [ih _ _ j d0 hjL]
      exact getD_set_of_ne _ _ _ _ _ hij
    · rw [ih _ _ j d0 hjL]
      exact getD_set_of_ne _ _ _ _ _ hij
    · exact ih _ _ j d0 hjL

theorem cannyFold_stack {α : Type} [LinearOrder α] [Zero α] (s : List α)
    (low high : α) (w : ℕ) (L : List ℕ) :
    ∀ (m : List ℕ) (stk : List (ℕ × ℕ)),
      (L.foldl (cannyClassifyStep s low high w) (m, stk)).2 =
        ((L.filter (fun idx => decide (s.getD idx 0 ≥ high))).reverse.map
          (fun idx => (idx % w, idx / w))) ++ stk := by
  induction L with
  | nil => intro m stk; rfl
  | cons i L ih =>
    intro m stk
    rw [List.foldl_cons, List.filter_cons]
    rcases cannyClassifyStep_eq s low high w (m, stk) i with ⟨hhi, he⟩ | ⟨hhi, _, he⟩ |
      ⟨hhi, _, he⟩
    · rw [he, ih (m.set i 2) ((i % w, i / w) :: stk)]
      have hd : (decide (s.getD i 0 ≥ high)) = true := by simpa using hhi
      rw [hd, if_pos rfl]
      simp
    · rw [he, ih (m.set i 1) stk]
      have hd : decide (s.getD i 0 ≥ high) = false := by
        simpa using hhi
      rw [hd]
      simp only [Bool.false_eq_true, if_false]
    · rw [he, ih m stk]
      have hd : decide (s.getD i 0 ≥ high) = false := by
        simpa using hhi
      rw [hd]
      simp only [Bool.false_eq_true, if_false]

theorem cannyClassify_stack_mem {α : Type} [LinearOrder α] [Zero α] (s : List α)
    (low high : α) (w h : ℕ) (p : ℕ × ℕ) :
    p ∈ (cannyClassify s low high w h).2 ↔
      ∃ idx, isInterior w h idx ∧ s.getD idx 0 ≥ high ∧ p = (idx % w, idx / w) := by
  rw [cannyClassify, cannyFold_stack, List.append_nil, List.mem_map]
  constructor
  · rintro ⟨idx, hidx, rfl⟩
    rw [List.mem_reverse, List.mem_filter] at hidx
    exact ⟨idx, mem_interiorList.mp hidx.1, of_decide_eq_true hidx.2, rfl⟩
  · rintro ⟨idx, hint, hhi, rfl⟩
    refine ⟨idx, ?_, rfl⟩
    rw [List.mem_reverse, List.mem_filter]
    exact ⟨mem_interiorList.mpr hint, decide_eq_true hhi⟩

theorem cannyClassify_weak_interior {α : Type} [LinearOrder α] [Zero α] (s : List α)
    (low high : α) (w h : ℕ) :
    ∀ j, (cannyClassify s low high w h).1.getD j 0 = 1 → isInterior w h j := by
  intro j hj
  by_cases hint : isInterior w h j
  · exact hint
  · exfalso
    have hnm : j ∉ interiorList w h := fun hc => hint (mem_interiorList.mp hc)
    rw [cannyClassify, cannyFold_getD_not_mem s low high w (interiorList w h)
      (List.replicate (w * h) 0) [] j 0 hnm, getD_replicate] at hj
    omega

theorem cannyClassify_seed_interior {α : Type} [LinearOrder α] [Zero α] (s : List α)
    (low high : α) (w h : ℕ) :
    ∀ p ∈ (cannyClassify s low high w h).2,
      1 ≤ p.1 ∧ p.1 ≤ w - 2 ∧ 1 ≤ p.2 ∧ p.2 ≤ h - 2 := by
  intro p hp
  obtain ⟨idx, hint, hhi, rfl⟩ := (cannyClassify_stack_mem s low high w h p).mp hp
  obtain ⟨i1, i2, i3, i4⟩ := hint
  exact ⟨i1, by omega, i3, by omega⟩

theorem cannyGrow_interior_inv (w h fuel : ℕ) (g0 : CannyGrow)
    (h1 : ∀ p ∈ g0.trace, 1 ≤ p.1 ∧ p.1 ≤ w - 2 ∧ 1 ≤ p.2 ∧ p.2 ≤ h - 2)
    (h2 : ∀ j, g0.map.getD j 0 = 1 → isInterior w h j) :
    ∀ p ∈ (cannyGrowFuel w h fuel g0).trace,
      1 ≤ p.1 ∧ p.1 ≤ w - 2 ∧ 1 ≤ p.2 ∧ p.2 ≤ h - 2 := by
  have hstep : ∀ g x y rest, g.stack = (x, y) :: rest →
      ((∀ p ∈ g.trace, 1 ≤ p.1 ∧ p.1 ≤ w - 2 ∧ 1 ≤ p.2 ∧ p.2 ≤ h - 2) ∧
        (∀ j, g.map.getD j 0 = 1 → isInterior w h j)) →
      ((∀ p ∈ (cannyStep w h g x y rest).trace,
          1 ≤ p.1 ∧ p.1 ≤ w - 2 ∧ 1 ≤ p.2 ∧ p.2 ≤ h - 2) ∧
        (∀ j, (cannyStep w h g x y rest).map.getD j 0 = 1 → isInterior w h j)) := by
    rintro g x y rest hstk ⟨g1, g2⟩
    obtain ⟨hm, hs, ht⟩ := cannyStep_fields w h g x y rest
    constructor
    · intro p hp
      rw [ht] at hp
      rcases List.mem_append.mp hp with hp1 | hp2
      · rcases cannyFold_push_mem w h x y cannyOffsets (g.map, []) p hp1 with
          hnil | ⟨p1, p2, p3, p4, hval⟩
        · cases hnil
        · have hintp := g2 _ hval
          have hcm : (p.2 * w + p.1) % w = p.1 := coord_mod p2
          have hcd : (p.2 * w + p.1) / w = p.2 := coord_div p2
          obtain ⟨i1, i2, i3, i4⟩ := hintp
          rw [hcm] at i1 i2
          rw [hcd] at i3 i4
          exact ⟨i1, by omega, i3, by omega⟩
      · exact g1 p hp2
    · intro j hj
      rw [hm] at hj
      rcases cannyFold_map_evolve w h x y cannyOffsets (g.map, []) j 0 with hev | ⟨_, h11⟩
      · rw [hev] at hj
        exact g2 j hj
      · exact g2 j h11
  exact fun p hp => (cannyGrowFuel_preserve w h
    (fun g => (∀ q ∈ g.trace, 1 ≤ q.1 ∧ q.1 ≤ w - 2 ∧ 1 ≤ q.2 ∧ q.2 ≤ h - 2) ∧
      (∀ j, g.map.getD j 0 = 1 → isInterior w h j))
    hstep fuel g0 ⟨h1, h2⟩).1 p hp

/-- C10: in every hysteresis implementation, every coordinate pair ever pushed
onto the work stack is an interior pixel and every neighbor index computed in
the growth loop stays in bounds. For the two flat-offset trackers of
`hysteresis.rs` (whose shared growth loop is `growFuel` over the classified
state, for any initial binary buffer and any number of iterations): every
traced pair is interior and every flat-offset neighbor index
`(current_idx as isize + offset) as usize` never underflows and stays
strictly below `w * h`. For `canny.rs`'s own coordinate-pair tracker
(`cannyGrowFuel`): every traced pair is interior, the displaced coordinates
`(x as isize + dx) as usize` never underflow, and whenever the source's pair
bounds check passes, the flat edge-map index `ny * width + nx` stays strictly
below `w * h`. -/
theorem hysteresis_pushes_interior_and_offsets_in_bounds {α : Type}
    [LinearOrder α] [Zero α] (s : List α) (w h : ℕ) (low high : α)
    (bin0 : List ℕ) (fuel : ℕ) (hwh : w * h < 2 ^ 31) :
    (∀ p ∈ (growFuel w fuel ⟨(classified s low high w h).1, bin0,
        (classified s low high w h).2.2, 0, (classified s low high w h).2.2⟩).trace,
      (1 ≤ p.1 ∧ p.1 ≤ w - 2 ∧ 1 ≤ p.2 ∧ p.2 ≤ h - 2) ∧
      ∀ off ∈ neighborOffsets w,
        0 ≤ toIsize (p.2 * w + p.1) + off ∧
        toUsize (toIsize (p.2 * w + p.1) + off) < w * h) ∧
    (∀ p ∈ (cannyGrowFuel w h fuel ⟨(cannyClassify s low high w h).1,
        (cannyClassify s low high w h).2, (cannyClassify s low high w h).2⟩).trace,
      (1 ≤ p.1 ∧ p.1 ≤ w - 2 ∧ 1 ≤ p.2 ∧ p.2 ≤ h - 2) ∧
      ∀ d ∈ cannyOffsets,
        0 ≤ toIsize p.1 + d.2 ∧ 0 ≤ toIsize p.2 + d.1 ∧
        (toUsize (toIsize p.1 + d.2) < w → toUsize (toIsize p.2 + d.1) < h →
          toUsize (toIsize p.2 + d.1) * w + toUsize (toIsize p.1 + d.2) < w * h)) := by
  constructor
  · intro p hp
    have hinv := growFuel_interior_inv w h fuel
      ⟨(classified s low high w h).1, bin0, (classified s low high w h).2.2, 0,
        (classified s low high w h).2.2⟩
      (classified_seed_interior s low high w h)
      (classified_weak_interior s low high w h)
      p hp
    have hint := hinv.1
    have hx := hinv.2
    refine ⟨?_, ?_⟩
    · have hcm : (p.2 * w + p.1) % w = p.1 := coord_mod hx
      have hcd : (p.2 * w + p.1) / w = p.2 := coord_div hx
      obtain ⟨i1, i2, i3, i4⟩ := hint
      rw [hcm] at i1 i2
      rw [hcd] at i3 i4
      omega
    · intro off hoff
      have harith := interior_offset_arith w h (p.2 * w + p.1) hint hwh off hoff
      exact ⟨harith.1, harith.2.1⟩
  · intro p hp
    have hbounds := cannyGrow_interior_inv w h fuel
      ⟨(cannyClassify s low high w h).1, (cannyClassify s low high w h).2,
        (cannyClassify s low high w h).2⟩
      (cannyClassify_seed_interior s low high w h)
      (cannyClassify_weak_interior s low high w h)
      p hp
    refine ⟨hbounds, ?_⟩
    intro d hd
    obtain ⟨b1, b2, b3, b4⟩ := hbounds
    have hw3 : 3 ≤ w := by omega
    have hh3 : 3 ≤ h := by omega
    have hx31 : p.1 < 2 ^ 31 := by
      have hle : w ≤ w * h := Nat.le_mul_of_pos_right w (by omega)
      omega
    have hy31 : p.2 < 2 ^ 31 := by
      have hle : h ≤ w * h := Nat.le_mul_of_pos_left h (by omega)
      omega
    rw [toIsize_of_lt hx31, toIsize_of_lt hy31]
    simp only [cannyOffsets, List.mem_cons, List.not_mem_nil, or_false] at hd
    have hdb : -1 ≤ d.1 ∧ d.1 ≤ 1 ∧ -1 ≤ d.2 ∧ d.2 ≤ 1 := by
      rcases hd with rfl | rfl | rfl | rfl | rfl | rfl | rfl | rfl <;>
        exact ⟨by decide, by decide, by decide, by decide⟩
    refine ⟨by omega, by omega, ?_⟩
    intro hxb hyb
    exact coord_lt_total w h _ _ hxb hyb

theorem hysteresis_pushes_interior_and_offsets_in_bounds_witness :
    3 * 3 < 2 ^ 31 ∧
    ((∀ p ∈ (growFuel 3 1 ⟨(classified [0, 0, 0, 0, (5 : ℕ), 0, 0, 0, 0] 2 4 3 3).1,
        List.replicate 9 0, (classified [0, 0, 0, 0, (5 : ℕ), 0, 0, 0, 0] 2 4 3 3).2.2, 0,
        (classified [0, 0, 0, 0, (5 : ℕ), 0, 0, 0, 0] 2 4 3 3).2.2⟩).trace,
      (1 ≤ p.1 ∧ p.1 ≤ 3 - 2 ∧ 1 ≤ p.2 ∧ p.2 ≤ 3 - 2) ∧
      ∀ off ∈ neighborOffsets 3,
        0 ≤ toIsize (p.2 * 3 + p.1) + off ∧
        toUsize (toIsize (p.2 * 3 + p.1) + off) < 3 * 3) ∧
    (∀ p ∈ (cannyGrowFuel 3 3 1 ⟨(cannyClassify [0, 0, 0, 0, (5 : ℕ), 0, 0, 0, 0] 2 4 3 3).1,
        (cannyClassify [0, 0, 0, 0, (5 : ℕ), 0, 0, 0, 0] 2 4 3 3).2,
        (cannyClassify [0, 0, 0, 0, (5 : ℕ), 0, 0, 0, 0] 2 4 3 3).2⟩).trace,
      (1 ≤ p.1 ∧ p.1 ≤ 3 - 2 ∧ 1 ≤ p.2 ∧ p.2 ≤ 3 - 2) ∧
      ∀ d ∈ cannyOffsets,
        0 ≤ toIsize p.1 + d.2 ∧ 0 ≤ toIsize p.2 + d.1 ∧
        (toUsize (toIsize p.1 + d.2) < 3 → toUsize (toIsize p.2 + d.1) < 3 →
          toUsize (toIsize p.2 + d.1) * 3 + toUsize (toIsize p.1 + d.2) < 3 * 3))) :=
  ⟨by decide, hysteresis_pushes_interior_and_offsets_in_bounds
    [0, 0, 0, 0, (5 : ℕ), 0, 0, 0, 0] 3 3 2 4 (List.replicate 9 0) 1 (by decide)⟩

theorem reaches_endpoint {α : Type} [LinearOrder α] [Zero α] {s : List α}
    {low high : α} {w h i : ℕ} (hlh : low ≤ high)
    (hr : reaches s low high w h i) : isInterior w h i ∧ low ≤ s.getD i 0 := by
  obtain ⟨j, hj1, hj2, hrtg⟩ := hr
  induction hrtg with
  | refl => exact ⟨hj1, le_trans hlh hj2⟩
  | tail hab hbc ih => exact ⟨hbc.2.1, hbc.2.2.2.1⟩

theorem adj_decomp (w c n Q2 R2 : ℕ) (hQR : n = Q2 * w + R2) (hR2 : R2 < w)
    (hne : c ≠ n) (hdx : (((c % w : ℕ) : ℤ) - (R2 : ℤ)).natAbs ≤ 1)
    (hdy : (((c / w : ℕ) : ℤ) - (Q2 : ℤ)).natAbs ≤ 1) :
    adjacent w c n := by
  refine ⟨hne, ?_, ?_⟩
  · rw [hQR, coord_mod hR2]
    exact hdx
  · rw [hQR, coord_div hR2]
    exact hdy

theorem offset_adjacent (w h c n : ℕ) (hintc : isInterior w h c) (off : ℤ)
    (hoff : off ∈ neighborOffsets w) (heq : (n : ℤ) = (c : ℤ) + off) :
    adjacent w c n := by
  obtain ⟨h1, h2, h3, h4⟩ := hintc
  have hq0 := Nat.div_add_mod c w
  have hw3 : 3 ≤ w := by omega
  have e1 : c / w * w = w * (c / w) := Nat.mul_comm _ _
  have e2 : (c / w - 1) * w = w * (c / w - 1) := Nat.mul_comm _ _
  have e3 : (c / w + 1) * w = w * (c / w + 1) := Nat.mul_comm _ _
  have e4 : w * (c / w - 1) + w = w * (c / w) := by
    have hq1 : c / w - 1 + 1 = c / w := by omega
    calc w * (c / w - 1) + w = w * (c / w - 1 + 1) := (Nat.mul_succ _ _).symm
    _ = w * (c / w) := by rw [hq1]
  have e5 : w * (c / w + 1) = w * (c / w) + w := Nat.mul_succ _ _
  have e6 : w * 1 ≤ w * (c / w) := Nat.mul_le_mul_left w h3
  simp only [neighborOffsets, List.mem_cons, List.not_mem_nil, or_false] at hoff
  rcases hoff with rfl | rfl | rfl | rfl | rfl | rfl | rfl | rfl
  · exact adj_decomp w c n (c / w - 1) (c % w - 1) (by omega) (by omega) (by omega)
      (by omega) (by omega)
  · exact adj_decomp w c n (c / w - 1) (c % w) (by omega) (by omega) (by omega)
      (by omega) (by omega)
  · exact adj_decomp w c n (c / w - 1) (c % w + 1) (by omega) (by omega) (by omega)
      (by omega) (by omega)
  · exact adj_decomp w c n (c / w) (c % w - 1) (by omega) (by omega) (by omega)
      (by omega) (by omega)
  · exact adj_decomp w c n (c / w) (c % w + 1) (by omega) (by omega) (by omega)
      (by omega) (by omega)
  · exact adj_decomp w c n (c / w + 1) (c % w - 1) (by omega) (by omega) (by omega)
      (by omega) (by omega)
  · exact adj_decomp w c n (c / w + 1) (c % w) (by omega) (by omega) (by omega)
      (by omega) (by omega)
  · exact adj_decomp w c n (c / w + 1) (c % w + 1) (by omega) (by omega) (by omega)
      (by omega) (by omega)

theorem adjacent_offset (w h b c : ℕ) (hintb : isInterior w h b)
    (hintc : isInterior w h c) (hwh : w * h < 2 ^ 31) (hadj : adjacent w b c) :
    ∃ off ∈ neighborOffsets w, c = toUsize (toIsize b + off) := by
  obtain ⟨hne, hdx, hdy⟩ := hadj
  refine ⟨(((c / w : ℕ) : ℤ) - ((b / w : ℕ) : ℤ)) * w +
    (((c % w : ℕ) : ℤ) - ((b % w : ℕ) : ℤ)), ?_, ?_⟩
  · have hdx3 : ((c % w : ℕ) : ℤ) - ((b % w : ℕ) : ℤ) = -1 ∨
        ((c % w : ℕ) : ℤ) - ((b % w : ℕ) : ℤ) = 0 ∨
        ((c % w : ℕ) : ℤ) - ((b % w : ℕ) : ℤ) = 1 := by omega
    have hdy3 : ((c / w : ℕ) : ℤ) - ((b / w : ℕ) : ℤ) = -1 ∨
        ((c / w : ℕ) : ℤ) - ((b / w : ℕ) : ℤ) = 0 ∨
        ((c / w : ℕ) : ℤ) - ((b / w : ℕ) : ℤ) = 1 := by omega
    have hne2 : ¬ (((c % w : ℕ) : ℤ) - ((b % w : ℕ) : ℤ) = 0 ∧
        ((c / w : ℕ) : ℤ) - ((b / w : ℕ) : ℤ) = 0) := by
      rintro ⟨hx0, hy0⟩
      have hdeq : c / w = b / w := by omega
      have hb0 := Nat.div_add_mod b w
      have hc0 := Nat.div_add_mod c w
      have hmm : w * (c / w) = w * (b / w) := by rw [hdeq]
      exact hne (by omega)
    have hne4 : ¬ (((c % w : ℕ) : ℤ) - ((b % w : ℕ) : ℤ) = 0) ∨
        ¬ (((c / w : ℕ) : ℤ) - ((b / w : ℕ) : ℤ) = 0) := not_and_or.mp hne2
    rcases hdx3 with hx | hx | hx <;> rcases hdy3 with hy | hy | hy <;>
      rw [hx, hy] <;>
      simp only [neighborOffsets, List.mem_cons, List.not_mem_nil, or_false] <;>
      omega
  · have hb31 : b < 2 ^ 31 := by
      have := isInterior_lt hintb
      omega
    have hc32 : (c : ℤ) < 2 ^ 32 := by
      have hlt := isInterior_lt hintc
      have h31 : c < 2 ^ 31 := by omega
      omega
    have hb2 : (b : ℤ) = (w : ℤ) * ((b / w : ℕ) : ℤ) + ((b % w : ℕ) : ℤ) := by
      exact_mod_cast (Nat.div_add_mod b w).symm
    have hc2 : (c : ℤ) = (w : ℤ) * ((c / w : ℕ) : ℤ) + ((c % w : ℕ) : ℤ) := by
      exact_mod_cast (Nat.div_add_mod c w).symm
    have hsum : toIsize b + ((((c / w : ℕ) : ℤ) - ((b / w : ℕ) : ℤ)) * w +
        (((c % w : ℕ) : ℤ) - ((b % w : ℕ) : ℤ))) = (c : ℤ) := by
      rw [toIsize_of_lt hb31]
      linear_combination hb2 - hc2
    rw [hsum, toUsize_of_nonneg_lt (Int.natCast_nonneg c) hc32]
    exact (Int.toNat_natCast c).symm

theorem classifyVal_eq_two_iff {α : Type} [LinearOrder α] (low high mag : α) :
    classifyVal low high mag = 2 ↔ mag ≥ high := by
  rw [classifyVal]
  by_cases hhi : mag ≥ high
  · rw [if_pos hhi]
    simp [hhi]
  · rw [if_neg hhi]
    constructor
    · intro hx
      by_cases hlo : mag ≥ low
      · rw [if_pos hlo] at hx
        exact absurd hx (by omega)
      · rw [if_neg hlo] at hx
        exact absurd hx (by omega)
    · intro hx
      exact absurd hx hhi

theorem classifyVal_eq_zero {α : Type} [LinearOrder α] {low high mag : α}
    (hz : classifyVal low high mag = 0) : mag ≥ low ∧ ¬ mag ≥ high := by
  rw [classifyVal] at hz
  by_cases hhi : mag ≥ high
  · rw [if_pos hhi] at hz
    exact absurd hz (by omega)
  · by_cases hlo : mag ≥ low
    · exact ⟨hlo, hhi⟩
    · rw [if_neg hhi, if_neg hlo] at hz
      exact absurd hz (by omega)

theorem growFuel_soundInv {α : Type} [LinearOrder α] [Zero α] (s : List α)
    (low high : α) (w h : ℕ) (hlh : low ≤ high) (hwh : w * h < 2 ^ 31)
    (fuel : ℕ) (g0 : GrowState) (hS : soundInv s low high w h g0) :
    soundInv s low high w h (growFuel w fuel g0) := by
  have hstep : ∀ g x y rest, g.stack = (x, y) :: rest →
      soundInv s low high w h g → soundInv s low high w h (growStep w g x y rest) := by
    rintro g x y rest hstk ⟨g1, g2, g3, g4⟩
    obtain ⟨hm, hb, hs2, hp, ht⟩ := growStep_fields w g x y rest
    have hcen := g3 (x, y) (by rw [hstk]; exact List.mem_cons_self _ _)
    have hcen2 : g.map.getD (y * w + x) 1 = 2 := hcen.1
    obtain ⟨hreachc, hintc⟩ := g1 _ hcen2
    have hlowc : low ≤ s.getD (y * w + x) 0 := (reaches_endpoint hlh hreachc).2
    refine ⟨?_, ?_, ?_, ?_⟩
    · intro j hj
      rw [hm] at hj
      by_cases hch : (processNeighbors w (y * w + x) g.map g.bin).1.getD j 1 =
          g.map.getD j 1
      · rw [hch] at hj
        exact g1 j hj
      · obtain ⟨hpre0, _, _, off, hoffm, hjeq⟩ :=
          pn_changed w (y * w + x) g.map g.bin j hch
        obtain ⟨hintj, hlowj⟩ := g2 j hpre0
        have harith := interior_offset_arith w h (y * w + x) hintc hwh off hoffm
        have hjz : (j : ℤ) = ((y * w + x : ℕ) : ℤ) + off := by
          rw [hjeq]
          exact harith.2.2
        have hadj : adjacent w (y * w + x) j :=
          offset_adjacent w h (y * w + x) j hintc off hoffm hjz
        obtain ⟨k, hk1, hk2, hrtg⟩ := hreachc
        exact ⟨⟨k, hk1, hk2, hrtg.tail ⟨hintc, hintj, hlowc, hlowj, hadj⟩⟩, hintj⟩
    · intro j hj
      rw [hm] at hj
      rcases pn_map_evolve w (y * w + x) g.map g.bin j 1 with hev | ⟨_, h00⟩
      · rw [hev] at hj
        exact g2 j hj
      · exact g2 j h00
    · intro p hpm
      rw [hs2] at hpm
      rw [hm]
      rcases List.mem_append.mp hpm with hp1 | hp2
      · obtain ⟨off, hoffm, n, hneq, hpe, hltn, h0⟩ :=
          pn_push_mem w (y * w + x) g.map g.bin p hp1
        have hnw := pn_no_weak w (y * w + x) g.map g.bin off hoffm
        rw [← hneq] at hnw
        have h2n : (processNeighbors w (y * w + x) g.map g.bin).1.getD n 1 = 2 := by
          rcases pn_map_evolve w (y * w + x) g.map g.bin n 1 with hev | ⟨hev2, _⟩
          · rw [hev] at hnw
            exact absurd h0 hnw
          · exact hev2
        subst hpe
        constructor
        · show (processNeighbors w (y * w + x) g.map g.bin).1.getD
            (n / w * w + n % w) 1 = 2
          rw [coords_idx]
          exact h2n
        · show n % w < w
          have hw0 : 0 < w := by
            obtain ⟨hi1, hi2, _, _⟩ := hintc
            omega
          exact Nat.mod_lt n hw0
      · obtain ⟨hold2, hxw⟩ := g3 p (by rw [hstk]; exact List.mem_cons_of_mem _ hp2)
        refine ⟨?_, hxw⟩
        rcases pn_map_evolve w (y * w + x) g.map g.bin (p.2 * w + p.1) 1 with
          hev | ⟨hev2, _⟩
        · rw [hev]
          exact hold2
        · exact hev2
    · rw [hm, (pn_count w (y * w + x) g.map g.bin).2.1]
      exact g4
  exact growFuel_preserve w (soundInv s low high w h) hstep fuel g0 hS

theorem growFuel_closureInv (w : ℕ) (fuel : ℕ) (g0 : GrowState)
    (hC : closureInv w g0) : closureInv w (growFuel w fuel g0) := by
  have hstep : ∀ g x y rest, g.stack = (x, y) :: rest →
      closureInv w g → closureInv w (growStep w g x y rest) := by
    rintro g x y rest hstk ⟨c1, c2⟩
    obtain ⟨hm, hb, hs2, hp, ht⟩ := growStep_fields w g x y rest
    have hxy := c2 (x, y) (by rw [hstk]; exact List.mem_cons_self _ _)
    constructor
    · intro j hj
      rw [hm] at hj
      rw [hs2, hm]
      by_cases hcj : j = y * w + x
      · subst hcj
        right
        intro off hoffm hcon
        exact absurd hcon.2 (pn_no_weak w (y * w + x) g.map g.bin off hoffm)
      · by_cases hch : (processNeighbors w (y * w + x) g.map g.bin).1.getD j 1 =
            g.map.getD j 1
        · rw [hch] at hj
          rcases c1 j hj with hin | hnowk
          · rw [hstk] at hin
            rcases List.mem_cons.mp hin with heq | hin2
            · exfalso
              apply hcj
              have hcc : (j % w, j / w) =
                  ((y * w + x) % w, (y * w + x) / w) := heq.trans hxy
              exact coords_inj w hcc
            · left
              exact List.mem_append.mpr (Or.inr hin2)
          · right
            intro off hoffm hcon
            have hlenpn := (pn_count w (y * w + x) g.map g.bin).2.1
            refine hnowk off hoffm ⟨?_, ?_⟩
            · rw [← hlenpn]
              exact hcon.1
            · rcases pn_map_evolve w (y * w + x) g.map g.bin
                (toUsize (toIsize j + off)) 1 with hev | ⟨hev2, h00⟩
              · rw [← hev]
                exact hcon.2
              · exact h00
        · obtain ⟨_, _, hmem, _⟩ := pn_changed w (y * w + x) g.map g.bin j hch
          left
          exact List.mem_append.mpr (Or.inl hmem)
    · intro p hpm
      rw [hs2] at hpm
      rcases List.mem_append.mp hpm with hp1 | hp2
      · obtain ⟨off, hoffm, n, hneq, hpe, hltn, h0⟩ :=
          pn_push_mem w (y * w + x) g.map g.bin p hp1
        subst hpe
        show (n % w, n / w) = ((n / w * w + n % w) % w, (n / w * w + n % w) / w)
        rw [coords_idx]
      · exact c2 p (by rw [hstk]; exact List.mem_cons_of_mem _ hp2)
  exact growFuel_preserve w (closureInv w) hstep fuel g0 hC

theorem classified_soundInv {α : Type} [LinearOrder α] [Zero α] (s : List α)
    (low high : α) (w h : ℕ) (b0 : List ℕ) (p0 : ℕ) (t0 : List (ℕ × ℕ)) :
    soundInv s low high w h ⟨(classified s low high w h).1, b0,
      (classified s low high w h).2.2, p0, t0⟩ := by
  refine ⟨?_, ?_, ?_, ?_⟩
  · intro j hj
    have hj2 : (classified s low high w h).1.getD j 1 = 2 := hj
    rw [classified_map_getD] at hj2
    by_cases hint : isInterior w h j
    · rw [if_pos hint] at hj2
      have hhi : s.getD j 0 ≥ high := (classifyVal_eq_two_iff low high _).mp hj2
      exact ⟨⟨j, hint, hhi, Relation.ReflTransGen.refl⟩, hint⟩
    · rw [if_neg hint] at hj2
      exact absurd hj2 (by omega)
  · intro j hj
    have hj2 : (classified s low high w h).1.getD j 1 = 0 := hj
    rw [classified_map_getD] at hj2
    by_cases hint : isInterior w h j
    · rw [if_pos hint] at hj2
      exact ⟨hint, (classifyVal_eq_zero hj2).1⟩
    · rw [if_neg hint] at hj2
      exact absurd hj2 (by omega)
  · intro p hp
    have hp2 : p ∈ (classified s low high w h).2.2 := hp
    obtain ⟨idx, hint, hhi, rfl⟩ := (classified_stack_mem s low high w h p).mp hp2
    constructor
    · show (classified s low high w h).1.getD (idx / w * w + idx % w) 1 = 2
      rw [coords_idx, classified_map_getD, if_pos hint]
      exact (classifyVal_eq_two_iff low high _).mpr hhi
    · show idx % w < w
      have hw0 : 0 < w := by
        obtain ⟨a1, a2, _, _⟩ := hint
        omega
      exact Nat.mod_lt idx hw0
  · exact (classified_len s low high w h).1

theorem classified_closureInv {α : Type} [LinearOrder α] [Zero α] (s : List α)
    (low high : α) (w h : ℕ) (b0 : List ℕ) (p0 : ℕ) (t0 : List (ℕ × ℕ)) :
    closureInv w ⟨(classified s low high w h).1, b0,
      (classified s low high w h).2.2, p0, t0⟩ := by
  constructor
  · intro j hj
    have hj2 : (classified s low high w h).1.getD j 1 = 2 := hj
    rw [classified_map_getD] at hj2
    by_cases hint : isInterior w h j
    · rw [if_pos hint] at hj2
      have hhi : s.getD j 0 ≥ high := (classifyVal_eq_two_iff low high _).mp hj2
      left
      show (j % w, j / w) ∈ (classified s low high w h).2.2
      exact (classified_stack_mem s low high w h _).mpr ⟨j, hint, hhi, rfl⟩
    · rw [if_neg hint] at hj2
      exact absurd hj2 (by omega)
  · intro p hp
    have hp2 : p ∈ (classified s low high w h).2.2 := hp
    obtain ⟨idx, hint, hhi, rfl⟩ := (classified_stack_mem s low high w h p).mp hp2
    show (idx % w, idx / w) = ((idx / w * w + idx % w) % w, (idx / w * w + idx % w) / w)
    rw [coords_idx]

/-- C4: for thresholds `low ≤ high`, the binary hysteresis tracker sets an
interior pixel to 255 if and only if that pixel has magnitude at least `low`
and is connected — through a chain of 8-adjacent interior pixels each with
magnitude at least `low` — to some interior pixel with magnitude at least
`high`. -/
theorem hysteresis_binary_connectivity {α : Type} [LinearOrder α] [Zero α]
    (s : List α) (w h : ℕ) (low high : α) (hlh : low ≤ high)
    (hwh : w * h < 2 ^ 31) (idx : ℕ) (hint : isInterior w h idx) :
    (hysteresis_thresholding_binary s w h low high).getD idx 0 = 255 ↔
      (low ≤ s.getD idx 0 ∧ reaches s low high w h idx) := by
  rw [htB_as_grow]
  have hlen0 : ((⟨(classified s low high w h).1, (classified s low high w h).2.1,
      (classified s low high w h).2.2, 0, (classified s low high w h).2.2⟩ :
        GrowState)).bin.length =
      ((⟨(classified s low high w h).1, (classified s low high w h).2.1,
      (classified s low high w h).2.2, 0, (classified s low high w h).2.2⟩ :
        GrowState)).map.length := by
    obtain ⟨hl1, hl2⟩ := classified_len s low high w h
    simp only
    rw [hl1, hl2]
  have hval0 : ∀ i, ((⟨(classified s low high w h).1, (classified s low high w h).2.1,
      (classified s low high w h).2.2, 0, (classified s low high w h).2.2⟩ :
        GrowState)).bin.getD i 0 =
      if ((⟨(classified s low high w h).1, (classified s low high w h).2.1,
      (classified s low high w h).2.2, 0, (classified s low high w h).2.2⟩ :
        GrowState)).map.getD i 1 = 2 then 255 else 0 := by
    intro i
    simp only
    exact classified_bin_tracks_map s low high w h i
  obtain ⟨hblen, hbval⟩ := growFuel_bin_val w
    (2 * (classified s low high w h).1.count 0 + (classified s low high w h).2.2.length + 1)
    ⟨(classified s low high w h).1, (classified s low high w h).2.1,
      (classified s low high w h).2.2, 0, (classified s low high w h).2.2⟩ hlen0 hval0
  rw [hbval idx]
  have hsound := growFuel_soundInv s low high w h hlh hwh
    (2 * (classified s low high w h).1.count 0 + (classified s low high w h).2.2.length + 1)
    ⟨(classified s low high w h).1, (classified s low high w h).2.1,
      (classified s low high w h).2.2, 0, (classified s low high w h).2.2⟩
    (classified_soundInv s low high w h (classified s low high w h).2.1 0
      (classified s low high w h).2.2)
  have hclos := growFuel_closureInv w
    (2 * (classified s low high w h).1.count 0 + (classified s low high w h).2.2.length + 1)
    ⟨(classified s low high w h).1, (classified s low high w h).2.1,
      (classified s low high w h).2.2, 0, (classified s low high w h).2.2⟩
    (classified_closureInv s low high w h (classified s low high w h).2.1 0
      (classified s low high w h).2.2)
  have hempty := growFuel_stack_empty w
    (2 * (classified s low high w h).1.count 0 + (classified s low high w h).2.2.length + 1)
    ⟨(classified s low high w h).1, (classified s low high w h).2.1,
      (classified s low high w h).2.2, 0, (classified s low high w h).2.2⟩
    (by
      show 2 * (classified s low high w h).1.count 0 +
          (classified s low high w h).2.2.length <
        2 * (classified s low high w h).1.count 0 +
          (classified s low high w h).2.2.length + 1
      omega)
  have hMlen : (growFuel w
      (2 * (classified s low high w h).1.count 0 + (classified s low high w h).2.2.length + 1)
      ⟨(classified s low high w h).1, (classified s low high w h).2.1,
        (classified s low high w h).2.2, 0,
        (classified s low high w h).2.2⟩).map.length = w * h := by
    have hgl := growFuel_map_length w
      (2 * (classified s low high w h).1.count 0 +
        (classified s low high w h).2.2.length + 1)
      ⟨(classified s low high w h).1, (classified s low high w h).2.1,
        (classified s low high w h).2.2, 0, (classified s low high w h).2.2⟩
    exact hgl.trans (classified_len s low high w h).1
  constructor
  · intro hEq
    have hM2 : (growFuel w
        (2 * (classified s low high w h).1.count 0 +
          (classified s low high w h).2.2.length + 1)
        ⟨(classified s low high w h).1, (classified s low high w h).2.1,
          (classified s low high w h).2.2, 0,
          (classified s low high w h).2.2⟩).map.getD idx 1 = 2 := by
      by_contra hno
      rw [if_neg hno] at hEq
      exact absurd hEq (by omega)
    obtain ⟨hreach, _⟩ := hsound.1 idx hM2
    exact ⟨(reaches_endpoint hlh hreach).2, hreach⟩
  · rintro ⟨hlow, hreach⟩
    have hM2 : (growFuel w
        (2 * (classified s low high w h).1.count 0 +
          (classified s low high w h).2.2.length + 1)
        ⟨(classified s low high w h).1, (classified s low high w h).2.1,
          (classified s low high w h).2.2, 0,
          (classified s low high w h).2.2⟩).map.getD idx 1 = 2 := by
      obtain ⟨j, hj1, hj2, hrtg⟩ := hreach
      clear hlow hint
      induction hrtg with
      | refl =>
        apply growFuel_two_persists
        show (classified s low high w h).1.getD j 1 = 2
        rw [classified_map_getD, if_pos hj1]
        exact (classifyVal_eq_two_iff low high _).mpr hj2
      | @tail b c hab hbc ih =>
        obtain ⟨hintb, hintc2, hlowb, hlowc2, hadj⟩ := hbc
        have hMb := ih
        rcases hclos.1 _ hMb with hin | hnowk
        · rw [hempty] at hin
          exact absurd hin (List.not_mem_nil _)
        · obtain ⟨off, hoffm, hceq⟩ := adjacent_offset w h b c hintb hintc2 hwh hadj
          rcases growFuel_map_evolve w
            (2 * (classified s low high w h).1.count 0 +
              (classified s low high w h).2.2.length + 1)
            ⟨(classified s low high w h).1, (classified s low high w h).2.1,
              (classified s low high w h).2.2, 0,
              (classified s low high w h).2.2⟩ c 1 with hev | ⟨h2c, _⟩
          · by_cases hhic : s.getD c 0 ≥ high
            · rw [hev]
              show (classified s low high w h).1.getD c 1 = 2
              rw [classified_map_getD, if_pos hintc2]
              exact (classifyVal_eq_two_iff low high _).mpr hhic
            · exfalso
              have h0c : (growFuel w
                  (2 * (classified s low high w h).1.count 0 +
                    (classified s low high w h).2.2.length + 1)
                  ⟨(classified s low high w h).1, (classified s low high w h).2.1,
                    (classified s low high w h).2.2, 0,
                    (classified s low high w h).2.2⟩).map.getD c 1 = 0 := by
                rw [hev]
                show (classified s low high w h).1.getD c 1 = 0
                rw [classified_map_getD, if_pos hintc2, classifyVal, if_neg hhic,
                  if_pos hlowc2]
              refine hnowk off hoffm ⟨?_, ?_⟩
              · rw [← hceq, hMlen]
                exact isInterior_lt hintc2
              · rw [← hceq]
                exact h0c
          · exact h2c
    rw [if_pos hM2]

theorem hysteresis_binary_connectivity_witness :
    ((2 : ℕ) ≤ 4 ∧ 3 * 3 < 2 ^ 31 ∧ isInterior 3 3 4) ∧
    ((hysteresis_thresholding_binary [0, 0, 0, 0, (5 : ℕ), 0, 0, 0, 0] 3 3 2 4).getD 4 0 =
        255 ↔
      (2 ≤ [0, 0, 0, 0, (5 : ℕ), 0, 0, 0, 0].getD 4 0 ∧
        reaches [0, 0, 0, 0, (5 : ℕ), 0, 0, 0, 0] 2 4 3 3 4)) :=
  ⟨⟨by decide, by decide, by decide⟩,
    hysteresis_binary_connectivity [0, 0, 0, 0, (5 : ℕ), 0, 0, 0, 0] 3 3 2 4
      (by decide) (by decide) 4 (by decide)⟩

end Scanic